import Mathlib

/-!
# Local chat message store: merge and query engine

A shallow embedding of `go/chat/storage/storage.go`.  The state of one
(conversation, user) pair is a `World`; every method of `Storage` becomes a
function that takes the world and returns the new one together with its Go
results.  The collaborators that the file only imports (the message types, the
block engine, the two trackers, the key-value backend) are either fields of
`Context` and `Storage`, as in the Go struct, or modelled from the specification.

The namespace `Teams` embeds `FormatImplicitTeamName` of `go/teams/imps.go`.
-/

namespace ChatStorage

/-! ## Data model -/

/-- Message ids are the Go type `chat1.MessageID`, an unsigned integer. -/
abbrev MessageID := Nat

/-- Modelled from the spec: the message types of `chat1.MessageType` (§3). -/
inductive MessageType
  | NONE | TEXT | ATTACHMENT | EDIT | DELETE | METADATA | TLFNAME | HEADLINE
  | ATTACHMENTUPLOADED | JOIN | LEAVE | SYSTEM | DELETEHISTORY | REACTION
  deriving DecidableEq, Repr

/-- The payload behind the variant pointer of a message body: the horizon of a
delete-history directive (`MessageDeleteHistory.Upto`) and the remaining bytes. -/
structure BodyVariant where
  Upto : MessageID
  data : List Nat
  deriving DecidableEq, Repr

/-- Modelled from the spec: `chat1.MessageBody`, a tagged union.  `MessageType__`
is the discriminant and `variant` the pointer to the payload of that type; the Go
zero value has discriminant `NONE` and no payload. -/
structure MessageBody where
  MessageType__ : MessageType
  variant : Option BodyVariant
  deriving DecidableEq, Repr

/-- The Go zero value `var emptyBody chat1.MessageBody`. -/
def emptyBody : MessageBody := { MessageType__ := MessageType.NONE, variant := none }

/-- The method `MessageBody.IsNil`: equality with the zero value. -/
def MessageBody.IsNil (b : MessageBody) : Bool := decide (b = emptyBody)

/-- The accessor `MessageBody.MessageType`: fails when the discriminant names a
variant whose payload is missing. -/
def MessageBody.MessageType (b : MessageBody) : Option MessageType :=
  match b.variant with
  | some _ => some b.MessageType__
  | none => if b.MessageType__ = MessageType.NONE then some MessageType.NONE else none

/-- The body of a delete-history message. -/
structure MessageDeleteHistory where
  Upto : MessageID
  deriving DecidableEq, Repr

/-- The accessor `MessageBody.Deletehistory`, used only after `MessageType`
returned `DELETEHISTORY`. -/
def MessageBody.Deletehistory (b : MessageBody) : MessageDeleteHistory :=
  match b.variant with
  | some v => { Upto := v.Upto }
  | none => { Upto := 0 }

structure MessageServerHeader where
  MessageID : Nat
  SupersededBy : Nat
  deriving DecidableEq, Repr

structure MessageClientHeader where
  MessageType : MessageType
  Sender : Nat
  deriving DecidableEq, Repr

structure MessageUnboxedValid where
  ClientHeader : MessageClientHeader
  ServerHeader : MessageServerHeader
  MessageBody : MessageBody
  deriving DecidableEq, Repr

structure MessageUnboxedError where
  MessageID : Nat
  MessageType : MessageType
  ErrMsg : Nat
  deriving DecidableEq, Repr

structure OutboxRecord where
  MessageType : MessageType
  deriving DecidableEq, Repr

structure MessageUnboxedPlaceholder where
  MessageID : Nat
  deriving DecidableEq, Repr

/-- Modelled from the spec: `chat1.MessageUnboxed`, the closed sum of §3 and §9. -/
inductive MessageUnboxed
  | Valid (m : MessageUnboxedValid)
  | Error (e : MessageUnboxedError)
  | Outbox (o : OutboxRecord)
  | Placeholder (p : MessageUnboxedPlaceholder)
  deriving DecidableEq, Repr

def MessageUnboxed.IsValid : MessageUnboxed → Bool
  | .Valid _ => true
  | _ => false

/-- The method `GetMessageID`: an outbox record has no server id yet. -/
def MessageUnboxed.GetMessageID : MessageUnboxed → MessageID
  | .Valid m => m.ServerHeader.MessageID
  | .Error e => e.MessageID
  | .Outbox _ => 0
  | .Placeholder p => p.MessageID

/-- The method `GetMessageType`: all that is known of a placeholder is its id. -/
def MessageUnboxed.GetMessageType : MessageUnboxed → MessageType
  | .Valid m => m.ClientHeader.MessageType
  | .Error e => e.MessageType
  | .Outbox o => o.MessageType
  | .Placeholder _ => MessageType.NONE

/-- Modelled from the spec: the error taxonomy of §7 (the Go interface `Error`). -/
inductive Error
  | MissError (MsgID : MessageID)
  | RemoteError (Msg : String)
  | MiscError (Msg : String)
  | InternalError (Msg : String)
  | CorruptError
  | CryptoError
  | CancelError
  deriving DecidableEq, Repr

/-- Modelled from the spec: the predicate `ShouldClear` of §7. -/
def Error.ShouldClear : Error → Bool
  | .InternalError _ => true
  | .CorruptError => true
  | .CryptoError => true
  | _ => false

/-- The record kept by the delete-history tracker for one conversation. -/
structure delhTrackerEntry where
  MinDeletableMessage : MessageID
  MaxDeleteHistoryUpto : MessageID
  DeletedUpto : MessageID
  deriving DecidableEq, Repr

/-- The persistent state behind one (conversation, user) pair: the messages the
engine holds (one record per id, most recent write first), whether the backend
holds the block-index key, and the records of the two trackers. -/
structure World where
  blocks : List MessageUnboxed
  blockIndex : Bool
  delh : Option delhTrackerEntry
  maxMsgID : Option MessageID
  deriving DecidableEq, Repr

/-- The message stored at an id, if any. -/
def lookup (blocks : List MessageUnboxed) (i : MessageID) : Option MessageUnboxed :=
  blocks.find? (fun m => m.GetMessageID == i)

/-! ## Result collectors -/

/-- The four implementations of the interface `ResultCollector`, with their
mutable fields.  `Holey` embeds another collector. -/
inductive ResultCollector
  | Simple (res : List MessageUnboxed) (target : Int)
  | Insatiable (res : List MessageUnboxed)
  | Typed (res : List MessageUnboxed) (target cur : Int) (typmap : MessageType → Bool)
  | Holey (rc : ResultCollector) (maxHoles holes : Int)

def NewSimpleResultCollector (num : Int) : ResultCollector := .Simple [] num

def NewInsatiableResultCollector : ResultCollector := .Insatiable []

def NewTypedResultCollector (num : Int) (typs : List MessageType) : ResultCollector :=
  .Typed [] num 0 (fun t => typs.contains t)

def NewHoleyResultCollector (maxHoles : Int) (rc : ResultCollector) : ResultCollector :=
  .Holey rc maxHoles 0

def ResultCollector.Push : ResultCollector → MessageUnboxed → ResultCollector
  | .Simple res target, msg => .Simple (res ++ [msg]) target
  | .Insatiable res, msg => .Insatiable (res ++ [msg])
  | .Typed res target cur typmap, msg =>
    .Typed (res ++ [msg]) target (if typmap msg.GetMessageType then cur + 1 else cur) typmap
  | .Holey rc maxHoles holes, msg => .Holey (rc.Push msg) maxHoles holes

def ResultCollector.Done : ResultCollector → Bool
  | .Simple res target => if target < 0 then false else decide ((res.length : Int) ≥ target)
  | .Insatiable _ => false
  | .Typed _ target cur _ => if target < 0 then false else decide (cur ≥ target)
  | .Holey rc _ _ => rc.Done

def ResultCollector.Result : ResultCollector → List MessageUnboxed
  | .Simple res _ => res
  | .Insatiable res => res
  | .Typed res _ _ _ => res
  | .Holey rc _ _ => rc.Result

/-- The hook `Error`: a collector without a target swallows a `MissError`;
`none` is the Go `nil`. -/
def ResultCollector.Error : ResultCollector → Error → Option Error
  | .Simple _ target, err =>
    if target < 0 then
      match err with
      | .MissError _ => none
      | _ => some err
    else some err
  | .Insatiable _, err => some err
  | .Typed _ target _ _, err =>
    if target < 0 then
      match err with
      | .MissError _ => none
      | _ => some err
    else some err
  | .Holey rc _ _, err => rc.Error err

/-- The method `PushPlaceholder`, returning the collector after the call and
whether the missing id was accepted. -/
def ResultCollector.PushPlaceholder : ResultCollector → MessageID → ResultCollector × Bool
  | .Simple res target, _ => (.Simple res target, false)
  | .Insatiable res, _ => (.Insatiable res, true)
  | .Typed res target cur typmap, _ => (.Typed res target cur typmap, false)
  | .Holey rc maxHoles holes, msgID =>
    if holes ≥ maxHoles then (.Holey rc maxHoles holes, false)
    else (.Holey (rc.Push (.Placeholder { MessageID := msgID })) maxHoles (holes + 1), true)

def ResultCollector.Holes : ResultCollector → Int
  | .Holey _ _ holes => holes
  | _ => 0

/-! ## Collaborators -/

/-- The 32-byte symmetric key handed out by the secret-key provider. -/
abbrev SecretKey := List Nat

/-- The interface `storageEngine`.  The conversation and user ids are fixed by the
world; `Init` yields an error or nothing, `ReadMessages` the collector after the
scan and the final error. -/
structure storageEngine where
  Init : World → SecretKey → Option Error
  WriteMessages : World → List MessageUnboxed → World × Option Error
  ReadMessages : World → ResultCollector → MessageID → ResultCollector × Option Error

/-- The methods of `*msgIDTracker` that the store calls. -/
structure msgIDTracker where
  getMaxMessageID : World → Except Error MessageID
  bumpMaxMessageID : World → MessageID → World × Option Error

/-- The methods of `*delhTracker` that the store calls. -/
structure delhTracker where
  getEntry : World → Except Error delhTrackerEntry
  setMinDeletableMessage : World → MessageID → World × Option Error
  setMaxDeleteHistoryUpto : World → MessageID → World × Option Error
  setDeletedUpto : World → MessageID → World × Option Error

/-- The two calls made on `G().LocalChatDb`: `Delete` of the block-index key of
the conversation, and `Nuke`.  Each returns the world after the call and the Go
error, if any. -/
structure LocalDb where
  Delete : World → World × Option String
  Nuke : World → World × Option String

/-- The paging cursors of `chat1.Pagination`: two serialized message ids and the
page size. -/
structure Pagination where
  Next : List Nat
  Previous : List Nat
  Num : Int
  Last : Bool
  deriving DecidableEq, Repr

/-- What `storage.go` takes from its surroundings: the key-value backend and the
secret-key provider of the global context, the two imported helpers
`chat1.IsDeletableByDeleteHistory` and `utils.GetSupersedes` (`none` is its
error result), the msgpack decoding of a cursor into a message id behind
`decode`, and `MakePage` of the thread pager. -/
structure Context where
  LocalChatDb : LocalDb
  getSecretBoxKey : World → Except String SecretKey
  IsDeletableByDeleteHistory : MessageType → Bool
  GetSupersedes : MessageUnboxed → Option (List MessageID)
  decode : List Nat → Except String MessageID
  MakePage : List MessageUnboxed → Int → Except String Pagination

/-- The struct `Storage`. -/
structure Storage where
  g : Context
  engine : storageEngine
  idtracker : msgIDTracker
  delhTracker : delhTracker

/-- One write of the engine: the record of that id is replaced. -/
def writeMessage (blocks : List MessageUnboxed) (msg : MessageUnboxed) : List MessageUnboxed :=
  msg :: blocks.filter (fun m => m.GetMessageID != msg.GetMessageID)

/-- Modelled from the spec: the descending scan of `ReadMessages` (§4.1, §4.3),
whose code (the block engine) is not among the sources.  The scan goes from
`maxID` down to 1 and stops when `Done` returns true, which is looked at before
every id, so also after each `Push` and after each accepted placeholder.  A stored
message is pushed; a gap is offered to `PushPlaceholder`, and a refusal ends the
scan with `MissError` of that id. -/
def readMessagesFrom (blocks : List MessageUnboxed) :
    MessageID → ResultCollector → ResultCollector × Option Error
  | 0, rc => (rc, none)
  | id + 1, rc =>
    if rc.Done then (rc, none)
    else
      match lookup blocks (id + 1) with
      | some msg => readMessagesFrom blocks id (rc.Push msg)
      | none =>
        match rc.PushPlaceholder (id + 1) with
        | (rc1, true) => readMessagesFrom blocks id rc1
        | (rc1, false) => (rc1, some (Error.MissError (id + 1)))

/-- Modelled from the spec: the block engine behind `newBlockEngine` (§4.1), whose
code is not among the sources.  `WriteMessages` stores each message at its id,
overwriting; `ReadMessages` is the descending scan, its terminal error filtered by
the collector's `Error` hook.  The contract of §4.1 names one cause of `MissError`,
a gap that the collector refuses, and this engine has no other: it does not model
a miss on a store without local messages (§4.4.3), so a scan driven by
`Insatiable` never misses. -/
def newBlockEngine : storageEngine where
  Init := fun _ _ => none
  WriteMessages := fun w msgs => ({ w with blocks := msgs.foldl writeMessage w.blocks }, none)
  ReadMessages := fun w rc maxID =>
    match readMessagesFrom w.blocks maxID rc with
    | (rc1, some err) => (rc1, rc1.Error err)
    | (rc1, none) => (rc1, none)

/-- Modelled from the spec: the id tracker behind `newMsgIDTracker` (§4.2), whose
code is not among the sources: `bumpMaxMessageID` is a monotonic max. -/
def newMsgIDTracker : msgIDTracker where
  getMaxMessageID := fun w =>
    match w.maxMsgID with
    | some m => .ok m
    | none => .error (Error.MissError 0)
  bumpMaxMessageID := fun w msgID =>
    ({ w with maxMsgID := some (max (w.maxMsgID.getD 0) msgID) }, none)

/-- The entry a setter starts from when none is stored. -/
def newEntry : delhTrackerEntry :=
  { MinDeletableMessage := 0, MaxDeleteHistoryUpto := 0, DeletedUpto := 0 }

/-- Modelled from the spec: the delete-history tracker behind `newDelhTracker`
(§4.2, §4.4.3), whose code is not among the sources.  `getEntry` misses when no
entry is stored; each setter is a read-modify-write of one field, and
`setDeletedUpto` also advances `MaxDeleteHistoryUpto` to at least the new value. -/
def newDelhTracker : delhTracker where
  getEntry := fun w =>
    match w.delh with
    | some e => .ok e
    | none => .error (Error.MissError 0)
  setMinDeletableMessage := fun w msgID =>
    ({ w with delh := some { (w.delh.getD newEntry) with MinDeletableMessage := msgID } }, none)
  setMaxDeleteHistoryUpto := fun w msgID =>
    ({ w with delh := some { (w.delh.getD newEntry) with MaxDeleteHistoryUpto := msgID } }, none)
  setDeletedUpto := fun w msgID =>
    ({ w with delh := some { (w.delh.getD newEntry) with
        MaxDeleteHistoryUpto := max (w.delh.getD newEntry).MaxDeleteHistoryUpto msgID,
        DeletedUpto := msgID } }, none)

/-- The constructor `New`. -/
def New (g : Context) : Storage where
  g := g
  engine := newBlockEngine
  idtracker := newMsgIDTracker
  delhTracker := newDelhTracker

/-! ## The store -/

/-- The method `MaybeNuke`.  `none` is the panic raised when the whole-database
nuke fails. -/
def MaybeNuke (s : Storage) (force : Bool) (err : Error) (w : World) : Option (World × Error) :=
  if force || err.ShouldClear then
    match s.g.LocalChatDb.Delete w with
    | (w1, some _) =>
      match s.g.LocalChatDb.Nuke w1 with
      | (_, some _) => none
      | (w2, none) => some (w2, err)
    | (w1, none) => some (w1, err)
  else some (w, err)

structure MergeResult where
  DeletedHistory : Bool
  deriving DecidableEq, Repr

/-- The inner loop of `updateAllSupersededBy` over the targets of one superseder. -/
def supersedeTargets (s : Storage) (msg : MessageUnboxed) :
    List MessageID → World → World × Option Error
  | [], w => (w, none)
  | supersededID :: rest, w =>
    match s.engine.ReadMessages w (NewSimpleResultCollector 1) supersededID with
    | (_, some (Error.MissError _)) => supersedeTargets s msg rest w
    | (_, some err) => (w, some err)
    | (rc, none) =>
      match rc.Result with
      | [] => supersedeTargets s msg rest w
      | superMsg :: others =>
        match superMsg with
        | .Valid mvalid =>
          let mvalid1 : MessageUnboxedValid :=
            { mvalid with ServerHeader := { mvalid.ServerHeader with SupersededBy := msg.GetMessageID } }
          let mvalid2 : MessageUnboxedValid :=
            if msg.GetMessageType = MessageType.DELETE then { mvalid1 with MessageBody := emptyBody }
            else mvalid1
          match s.engine.WriteMessages w (.Valid mvalid2 :: others) with
          | (w1, some err) => (w1, some err)
          | (w1, none) => supersedeTargets s msg rest w1
        | _ => supersedeTargets s msg rest w

/-- The method `updateAllSupersededBy`. -/
def updateAllSupersededBy (s : Storage) : List MessageUnboxed → World → World × Option Error
  | [], w => (w, none)
  | msg :: rest, w =>
    if !msg.IsValid then updateAllSupersededBy s rest w
    else
      match s.g.GetSupersedes msg with
      | none => updateAllSupersededBy s rest w
      | some supersededIDs =>
        match supersedeTargets s msg supersededIDs w with
        | (w1, some err) => (w1, some err)
        | (w1, none) => updateAllSupersededBy s rest w1

/-- The first loop of `updateMinDeletableMessage`: the smallest id of a valid,
deletable message of the batch with a body, starting from the running value. -/
def minDeletableMessageBatch (s : Storage) : List MessageUnboxed → Option MessageID → Option MessageID
  | [], cur => cur
  | msg :: rest, cur =>
    match msg with
    | .Valid mvalid =>
      if !s.g.IsDeletableByDeleteHistory msg.GetMessageType then minDeletableMessageBatch s rest cur
      else if mvalid.MessageBody.IsNil then minDeletableMessageBatch s rest cur
      else
        match cur with
        | none => minDeletableMessageBatch s rest (some msg.GetMessageID)
        | some b =>
          if msg.GetMessageID < b then minDeletableMessageBatch s rest (some msg.GetMessageID)
          else minDeletableMessageBatch s rest (some b)
    | _ => minDeletableMessageBatch s rest cur

/-- The method `updateMinDeletableMessage`.  A failed tracker write is logged and
dropped. -/
def updateMinDeletableMessage (s : Storage) (w : World) (msgs : List MessageUnboxed) :
    World × Option Error :=
  match minDeletableMessageBatch s msgs none with
  | none => (w, none)
  | some b =>
    match s.delhTracker.getEntry w with
    | .ok mem =>
      if mem.MinDeletableMessage > 0 ∧ b ≥ mem.MinDeletableMessage then (w, none)
      else ((s.delhTracker.setMinDeletableMessage w b).1, none)
    | .error (Error.MissError _) => ((s.delhTracker.setMinDeletableMessage w b).1, none)
    | .error err => (w, some err)

/-- The local type `delhTagged` of `handleDeleteHistory`. -/
structure delhTagged where
  source : MessageUnboxedValid
  delh : MessageDeleteHistory
  deriving DecidableEq, Repr

/-- The first loop of `handleDeleteHistory`: the delete-history message of the
batch with the largest horizon, starting from the running choice. -/
def delhActive : List MessageUnboxed → Option delhTagged → Option delhTagged
  | [], cur => cur
  | msg :: rest, cur =>
    match msg with
    | .Valid mvalid =>
      if msg.GetMessageType ≠ MessageType.DELETEHISTORY then delhActive rest cur
      else
        match mvalid.MessageBody.MessageType with
        | none => delhActive rest cur
        | some bodyType =>
          if bodyType ≠ MessageType.DELETEHISTORY then delhActive rest cur
          else
            let delh := mvalid.MessageBody.Deletehistory
            if delh.Upto ≤ 0 then delhActive rest cur
            else
              match cur with
              | none => delhActive rest (some { source := mvalid, delh := delh })
              | some act =>
                if delh.Upto > act.delh.Upto then
                  delhActive rest (some { source := mvalid, delh := delh })
                else delhActive rest (some act)
    | _ => delhActive rest cur

/-- Go `x - 1` on the unsigned 64-bit `MessageID`: zero wraps around. -/
def predMessageID (x : MessageID) : MessageID :=
  if x = 0 then 2 ^ 64 - 1 else x - 1

/-- The loop of `applyDeleteHistory` that builds the writeback list. -/
def deleteHistoryWriteback (s : Storage) (source : MessageUnboxedValid) :
    List MessageUnboxed → List MessageUnboxed
  | [] => []
  | msg :: rest =>
    if !s.g.IsDeletableByDeleteHistory msg.GetMessageType then deleteHistoryWriteback s source rest
    else
      match msg with
      | .Valid mvalid =>
        if mvalid.MessageBody.IsNil then deleteHistoryWriteback s source rest
        else
          .Valid { mvalid with
            ServerHeader := { mvalid.ServerHeader with SupersededBy := source.ServerHeader.MessageID },
            MessageBody := emptyBody } :: deleteHistoryWriteback s source rest
      | _ => deleteHistoryWriteback s source rest

/-- The method `applyDeleteHistory`: the world afterwards, whether local deletes
happened, and the error.  A failed tracker write is logged and dropped. -/
def applyDeleteHistory (s : Storage) (w : World) (source : MessageUnboxedValid)
    (delh : MessageDeleteHistory) : World × Bool × Option Error :=
  match s.engine.ReadMessages w NewInsatiableResultCollector (predMessageID delh.Upto) with
  | (_, some (Error.MissError _)) =>
    ((s.delhTracker.setMaxDeleteHistoryUpto w delh.Upto).1, false, none)
  | (_, some err) => (w, false, some err)
  | (rc, none) =>
    match s.engine.WriteMessages w (deleteHistoryWriteback s source rc.Result) with
    | (w1, some err) => (w1, false, some err)
    | (w1, none) => ((s.delhTracker.setDeletedUpto w1 delh.Upto).1, true, none)

/-- The method `handleDeleteHistory`. -/
def handleDeleteHistory (s : Storage) (w : World) (msgs : List MessageUnboxed) :
    World × Bool × Option Error :=
  match delhActive msgs none with
  | none => (w, false, none)
  | some act =>
    match s.delhTracker.getEntry w with
    | .ok mem =>
      if mem.MaxDeleteHistoryUpto ≥ act.delh.Upto then (w, false, none)
      else if act.delh.Upto < mem.MinDeletableMessage then
        ((s.delhTracker.setMaxDeleteHistoryUpto w act.delh.Upto).1, false, none)
      else applyDeleteHistory s w act.source act.delh
    | .error (Error.MissError _) => applyDeleteHistory s w act.source act.delh
    | .error err => (w, false, some err)

/-- The tail of every failing step of `Merge`: the error goes through `MaybeNuke`
and is returned with the result built so far. -/
def failWith (s : Storage) (res : MergeResult) (err : Error) (w : World) :
    Option (World × MergeResult × Option Error) :=
  match MaybeNuke s false err w with
  | none => none
  | some (w1, err1) => some (w1, res, some err1)

/-- The method `Merge`: the world afterwards, the result and the error (`none`
for the Go `nil`); the outer `none` is a panic inside `MaybeNuke`. -/
def Merge (s : Storage) (w : World) (msgs : List MessageUnboxed) :
    Option (World × MergeResult × Option Error) :=
  let res : MergeResult := { DeletedHistory := false }
  match s.g.getSecretBoxKey w with
  | .error ierr => some (w, res, some (Error.MiscError ("unable to get secret key: " ++ ierr)))
  | .ok key =>
    match s.engine.Init w key with
    | some err => some (w, res, some err)
    | none =>
      match s.engine.WriteMessages w msgs with
      | (w1, some err) => failWith s res err w1
      | (w1, none) =>
        match updateAllSupersededBy s msgs w1 with
        | (w2, some err) => failWith s res err w2
        | (w2, none) =>
          match updateMinDeletableMessage s w2 msgs with
          | (w3, some err) => failWith s res err w3
          | (w3, none) =>
            match handleDeleteHistory s w3 msgs with
            | (w4, _, some err) => failWith s res err w4
            | (w4, deletedHistory, none) =>
              let res1 : MergeResult := { DeletedHistory := deletedHistory }
              match msgs with
              | [] => some (w4, res1, none)
              | msg0 :: _ =>
                match s.idtracker.bumpMaxMessageID w4 msg0.GetMessageID with
                | (w5, some err) => failWith s res1 err w5
                | (w5, none) => some (w5, res1, none)
/-! ## Functions used to state what the passes do -/

/-- Whether a batch message is a valid superseder whose id list contains `i`. -/
def supersedesID (g : Context) (msg : MessageUnboxed) (i : MessageID) : Bool :=
  msg.IsValid &&
    (match g.GetSupersedes msg with
      | some supersededIDs => decide (i ∈ supersededIDs)
      | none => false)

/-- What the supersedes pass writes over a stored target of the superseder `msg`:
a valid target gets the id of `msg` as `SupersededBy`, and loses its body when
`msg` is a `DELETE`; any other record stays. -/
def markSuperseded (msg : MessageUnboxed) : MessageUnboxed → MessageUnboxed
  | .Valid mvalid =>
    if msg.GetMessageType = MessageType.DELETE then
      .Valid { mvalid with
        ServerHeader := { mvalid.ServerHeader with SupersededBy := msg.GetMessageID },
        MessageBody := emptyBody }
    else
      .Valid { mvalid with
        ServerHeader := { mvalid.ServerHeader with SupersededBy := msg.GetMessageID } }
  | m => m

/-- The marks that the superseders of a batch leave, in batch order, on the record
stored at id `i`. -/
def passEffect (g : Context) : List MessageUnboxed → MessageID → MessageUnboxed → MessageUnboxed
  | [], _, m => m
  | msg :: rest, i, m =>
    passEffect g rest i (if supersedesID g msg i then markSuperseded msg m else m)

/-- What the apply step of a delete-history writes over a stored record: a valid
record of a deletable type that still has a body loses it and is marked as
superseded by the directive; any other record stays. -/
def clearByDeleteHistory (g : Context) (source : MessageUnboxedValid) (m : MessageUnboxed) :
    MessageUnboxed :=
  if !g.IsDeletableByDeleteHistory m.GetMessageType then m
  else
    match m with
    | .Valid mvalid =>
      if mvalid.MessageBody.IsNil then m
      else
        .Valid { mvalid with
          ServerHeader := { mvalid.ServerHeader with SupersededBy := source.ServerHeader.MessageID },
          MessageBody := emptyBody }
    | _ => m

/-- The records stored at the ids `n, n - 1, …, 1`, in that order. -/
def storedBelow (blocks : List MessageUnboxed) : Nat → List MessageUnboxed
  | 0 => []
  | n + 1 =>
    match lookup blocks (n + 1) with
    | some m => m :: storedBelow blocks n
    | none => storedBelow blocks n

/-- The tracker entry after `updateMinDeletableMessage`, given the minimum `b`
found in the batch. -/
def minDeletableEntry (delh : Option delhTrackerEntry) : Option MessageID → Option delhTrackerEntry
  | none => delh
  | some b =>
    match delh with
    | some mem =>
      if mem.MinDeletableMessage > 0 ∧ b ≥ mem.MinDeletableMessage then some mem
      else some { mem with MinDeletableMessage := b }
    | none => some { newEntry with MinDeletableMessage := b }

/-- The world after one step of the inner loop of the supersedes pass. -/
def supersedeOne (msg : MessageUnboxed) (w : World) (sid : MessageID) : World :=
  if 0 < sid then
    match lookup w.blocks sid with
    | some (.Valid mvalid) =>
      { w with blocks := writeMessage w.blocks (markSuperseded msg (.Valid mvalid)) }
    | _ => w
  else w


/-- The world after the raw write of `Merge` on the store of `New`. -/
def stageWrite (g : Context) (w : World) (msgs : List MessageUnboxed) : World :=
  ((New g).engine.WriteMessages w msgs).1

/-- The world after the supersedes pass of `Merge` on the store of `New`. -/
def stageSupersede (g : Context) (w : World) (msgs : List MessageUnboxed) : World :=
  (updateAllSupersededBy (New g) msgs (stageWrite g w msgs)).1

/-- The world after the update of the smallest deletable id. -/
def stageMin (g : Context) (w : World) (msgs : List MessageUnboxed) : World :=
  (updateMinDeletableMessage (New g) (stageSupersede g w msgs) msgs).1

/-- The world after the delete-history pass. -/
def stageDelh (g : Context) (w : World) (msgs : List MessageUnboxed) : World :=
  (handleDeleteHistory (New g) (stageMin g w msgs) msgs).1

/-- The world after a successful `Merge` on the store of `New`: the five steps in
their order. -/
def mergedWorld (g : Context) (w : World) (msgs : List MessageUnboxed) : World :=
  match msgs with
  | [] => stageDelh g w msgs
  | msg0 :: _ => ((New g).idtracker.bumpMaxMessageID (stageDelh g w msgs) msg0.GetMessageID).1

/-- The flag reported by a successful `Merge` on the store of `New`. -/
def mergedFlag (g : Context) (w : World) (msgs : List MessageUnboxed) : Bool :=
  (handleDeleteHistory (New g) (stageMin g w msgs) msgs).2.1

/-- The id that the superseders of a batch leave as `SupersededBy` on the valid
record stored at id `i`, given the value before the pass. -/
def supersededByAfter (g : Context) : List MessageUnboxed → MessageID → MessageID → MessageID
  | [], _, cur => cur
  | msg :: rest, i, cur =>
    supersededByAfter g rest i (if supersedesID g msg i then msg.GetMessageID else cur)

/-- The body that the superseders of a batch leave on the valid record stored at
id `i`, given the body before the pass. -/
def bodyAfter (g : Context) : List MessageUnboxed → MessageID → MessageBody → MessageBody
  | [], _, cur => cur
  | msg :: rest, i, cur =>
    bodyAfter g rest i
      (if supersedesID g msg i ∧ msg.GetMessageType = MessageType.DELETE then emptyBody else cur)

/-- A batch sorted by descending message id, the precondition of `Merge`. -/
def sortedDescending (msgs : List MessageUnboxed) : Prop :=
  (msgs.map MessageUnboxed.GetMessageID).Pairwise (fun a b => a ≥ b)

instance (msgs : List MessageUnboxed) : Decidable (sortedDescending msgs) := by
  unfold sortedDescending
  infer_instance

/-- A run of `Merge` calls that all return success, from first to last. -/
def MergeAll (s : Storage) : World → List (List MessageUnboxed) → Option World
  | w, [] => some w
  | w, msgs :: rest =>
    match Merge s w msgs with
    | some (w1, _, none) => MergeAll s w1 rest
    | _ => none

/-- The store before anything was merged. -/
def emptyWorld : World := { blocks := [], blockIndex := false, delh := none, maxMsgID := none }

/-! ## Worked examples -/

/-- A context for the worked examples.  The backend calls succeed, the key is
available, the content types are deletable by a delete-history, and an `EDIT`,
`DELETE` or `ATTACHMENTUPLOADED` body lists the ids it supersedes in its payload.
A cursor is the one-byte msgpack form of an id below 128, and a page points at its
last and first message. -/
def exampleContext : Context where
  LocalChatDb :=
    { Delete := fun w => ({ w with blockIndex := false }, none)
      Nuke := fun _ => (emptyWorld, none) }
  getSecretBoxKey := fun _ => .ok []
  IsDeletableByDeleteHistory := fun t =>
    decide (t = MessageType.TEXT ∨ t = MessageType.ATTACHMENT ∨ t = MessageType.EDIT ∨
      t = MessageType.ATTACHMENTUPLOADED ∨ t = MessageType.REACTION)
  GetSupersedes := fun msg =>
    match msg with
    | .Valid m =>
      match m.MessageBody.MessageType with
      | none => none
      | some MessageType.EDIT => some ((m.MessageBody.variant.map BodyVariant.data).getD [])
      | some MessageType.DELETE => some ((m.MessageBody.variant.map BodyVariant.data).getD [])
      | some MessageType.ATTACHMENTUPLOADED =>
        some ((m.MessageBody.variant.map BodyVariant.data).getD [])
      | some _ => some []
    | _ => none
  decode := fun data =>
    match data with
    | [n] => if n < 128 then .ok n else .error "unsupported cursor"
    | _ => .error "unsupported cursor"
  MakePage := fun msgs num =>
    .ok { Next := (msgs.getLast?.map (fun m => [m.GetMessageID])).getD []
          Previous := (msgs.head?.map (fun m => [m.GetMessageID])).getD []
          Num := msgs.length
          Last := decide ((msgs.length : Int) < num) }

/-- A valid message of the given type whose body carries the payload `data`. -/
def validMsg (typ : MessageType) (msgID : MessageID) (data : List Nat) : MessageUnboxed :=
  .Valid
    { ClientHeader := { MessageType := typ, Sender := 1 }
      ServerHeader := { MessageID := msgID, SupersededBy := 0 }
      MessageBody := { MessageType__ := typ, variant := some { Upto := 0, data := data } } }

/-- The valid variant of a delete-history message with the horizon `upto`. -/
def delhValid (msgID upto : MessageID) : MessageUnboxedValid :=
  { ClientHeader := { MessageType := MessageType.DELETEHISTORY, Sender := 1 }
    ServerHeader := { MessageID := msgID, SupersededBy := 0 }
    MessageBody :=
      { MessageType__ := MessageType.DELETEHISTORY, variant := some { Upto := upto, data := [] } } }

/-- A valid delete-history message with the horizon `upto`. -/
def delhMsg (msgID upto : MessageID) : MessageUnboxed := .Valid (delhValid msgID upto)

/-- A valid message whose body was already cleared, superseded by `by_`. -/
def clearedMsg (typ : MessageType) (msgID by_ : MessageID) : MessageUnboxed :=
  .Valid
    { ClientHeader := { MessageType := typ, Sender := 1 }
      ServerHeader := { MessageID := msgID, SupersededBy := by_ }
      MessageBody := emptyBody }

/-- A message that failed to unbox. -/
def errorMsg (typ : MessageType) (msgID : MessageID) : MessageUnboxed :=
  .Error { MessageID := msgID, MessageType := typ, ErrMsg := 0 }

/-- A world that holds the given records and no tracker entry. -/
def worldOf (blocks : List MessageUnboxed) : World :=
  { blocks := blocks, blockIndex := true, delh := none, maxMsgID := none }

/-! ## Invariants of §3 -/

/-- Invariant I3: `DeletedUpto ≤ MaxDeleteHistoryUpto`; without a tracker entry
both count as unset. -/
def invariantI3 (w : World) : Prop :=
  ∀ e, w.delh = some e → e.DeletedUpto ≤ e.MaxDeleteHistoryUpto

/-- Invariant I4: no valid message of a deletable type is stored with a body under
a (positive) id below `DeletedUpto`. -/
def invariantI4 (g : Context) (w : World) : Prop :=
  ∀ e, w.delh = some e → ∀ i mv, 0 < i → i < e.DeletedUpto →
    lookup w.blocks i = some (.Valid mv) →
    g.IsDeletableByDeleteHistory mv.ClientHeader.MessageType = true →
    mv.MessageBody.IsNil = true

/-! ## The query engine -/

/-- The variable `maxFetchNum`. -/
def maxFetchNum : Int := 10000

/-- The part of `chat1.GetThreadQuery` that the store reads. -/
structure GetThreadQuery where
  MessageTypes : List MessageType
  deriving DecidableEq, Repr

/-- The result `chat1.ThreadView`; the Go zero value has no messages and no
pagination. -/
structure ThreadView where
  Messages : List MessageUnboxed
  Pagination : Option Pagination
  deriving DecidableEq, Repr

/-- The part of `chat1.Conversation` that `Fetch` reads. -/
structure Conversation where
  MaxMsgid : MessageID
  deriving DecidableEq, Repr

/-- The method `ResultCollectorFromQuery`. -/
def ResultCollectorFromQuery (query : Option GetThreadQuery) (pagination : Option Pagination) :
    ResultCollector :=
  let num : Int :=
    match pagination with
    | some p => p.Num
    | none => maxFetchNum
  match query with
  | some q =>
    if q.MessageTypes.length > 0 then NewTypedResultCollector num q.MessageTypes
    else NewSimpleResultCollector num
  | none => NewSimpleResultCollector num

/-- Go `chat1.MessageID(int(pid) + num)`: the sum taken in 64-bit integers and read
back as an unsigned one. -/
def addMessageID (pid : MessageID) (num : Int) : MessageID :=
  (((pid : Int) + num) % (2 ^ 64 : Int)).toNat

/-- The block "calculate seek parameters" of `fetchUpToMsgIDLocked`: the id the
scan starts from and the page size, or the `RemoteError` of a cursor that does
not decode. -/
def seekParameters (s : Storage) (msgID : MessageID) (pagination : Option Pagination) :
    Except Error (MessageID × Int) :=
  match pagination with
  | none => .ok (msgID, maxFetchNum)
  | some p =>
    if p.Next.length = 0 ∧ p.Previous.length = 0 then .ok (msgID, p.Num)
    else if p.Next.length > 0 then
      match s.g.decode p.Next with
      | .error derr => .error (Error.RemoteError ("Fetch: failed to decode pager: " ++ derr))
      | .ok pid => .ok (predMessageID pid, p.Num)
    else
      match s.g.decode p.Previous with
      | .error derr => .error (Error.RemoteError ("Fetch: failed to decode pager: " ++ derr))
      | .ok pid => .ok (addMessageID pid p.Num, p.Num)

/-- The tail of a failing step of a fetch that goes through `MaybeNuke`. -/
def failFetch (s : Storage) (err : Error) (w : World) :
    Option (World × ThreadView × Option Error) :=
  match MaybeNuke s false err w with
  | none => none
  | some (w1, err1) => some (w1, { Messages := [], Pagination := none }, some err1)

/-- The method `fetchUpToMsgIDLocked`: the world afterwards, the thread view and
the error; the outer `none` is a panic inside `MaybeNuke`. -/
def fetchUpToMsgIDLocked (s : Storage) (w : World) (rc : Option ResultCollector)
    (msgID : MessageID) (query : Option GetThreadQuery) (pagination : Option Pagination) :
    Option (World × ThreadView × Option Error) :=
  match s.g.getSecretBoxKey w with
  | .error ierr =>
    some (w, { Messages := [], Pagination := none },
      some (Error.MiscError ("unable to get secret key: " ++ ierr)))
  | .ok key =>
    match s.engine.Init w key with
    | some err => failFetch s err w
    | none =>
      match seekParameters s msgID pagination with
      | .error err => failFetch s err w
      | .ok (maxID, num) =>
        let rc1 : ResultCollector :=
          match rc with
          | some c => c
          | none => ResultCollectorFromQuery query pagination
        match s.engine.ReadMessages w rc1 maxID with
        | (_, some err) => some (w, { Messages := [], Pagination := none }, some err)
        | (rc2, none) =>
          match s.g.MakePage rc2.Result num with
          | .error ierr =>
            some (w, { Messages := [], Pagination := none },
              some (Error.InternalError ("Fetch: failed to encode pager: " ++ ierr)))
          | .ok page => some (w, { Messages := rc2.Result, Pagination := some page }, none)

/-- The method `FetchUpToLocalMaxMsgID`. -/
def FetchUpToLocalMaxMsgID (s : Storage) (w : World) (rc : Option ResultCollector)
    (query : Option GetThreadQuery) (pagination : Option Pagination) :
    Option (World × ThreadView × Option Error) :=
  match s.idtracker.getMaxMessageID w with
  | .error err => some (w, { Messages := [], Pagination := none }, some err)
  | .ok maxMsgID => fetchUpToMsgIDLocked s w rc maxMsgID query pagination

/-- The method `Fetch`. -/
def Fetch (s : Storage) (w : World) (conv : Conversation) (rc : Option ResultCollector)
    (query : Option GetThreadQuery) (pagination : Option Pagination) :
    Option (World × ThreadView × Option Error) :=
  fetchUpToMsgIDLocked s w rc conv.MaxMsgid query pagination

/-- The loop of `FetchMessages` over the ids, with the slots filled so far.  A
read that returns neither an error nor a message makes `sres[0]` panic, the outer
`none`. -/
def fetchMessagesLoop (s : Storage) (w : World) :
    List MessageID → List (Option MessageUnboxed) →
      Option (World × List (Option MessageUnboxed) × Option Error)
  | [], res => some (w, res, none)
  | msgID :: rest, res =>
    match s.engine.ReadMessages w (NewSimpleResultCollector 1) msgID with
    | (_, some (Error.MissError _)) => fetchMessagesLoop s w rest (res ++ [none])
    | (_, some err) =>
      match MaybeNuke s false err w with
      | none => none
      | some (w1, err1) => some (w1, [], some err1)
    | (rc, none) =>
      match rc.Result with
      | [] => none
      | msg :: _ => fetchMessagesLoop s w rest (res ++ [some msg])

/-- The method `FetchMessages`: a slot is `none` for the Go `nil`. -/
def FetchMessages (s : Storage) (w : World) (msgIDs : List MessageID) :
    Option (World × List (Option MessageUnboxed) × Option Error) :=
  match s.g.getSecretBoxKey w with
  | .error ierr =>
    some (w, [], some (Error.MiscError ("unable to get secret key: " ++ ierr)))
  | .ok key =>
    match s.engine.Init w key with
    | some err =>
      match MaybeNuke s false err w with
      | none => none
      | some (w1, err1) => some (w1, [], some err1)
    | none => fetchMessagesLoop s w msgIDs []

/-- The stored messages with ids `1` to `n`, newest first: a store without gaps. -/
def textStore : Nat → List MessageUnboxed
  | 0 => []
  | n + 1 => validMsg .TEXT (n + 1) [n + 1] :: textStore n

/-- An engine whose `Init` finds the on-disk index malformed. -/
def corruptInitEngine : storageEngine :=
  { newBlockEngine with Init := fun _ _ => some Error.CorruptError }

/-- An engine whose reads fail to authenticate the records. -/
def corruptReadEngine : storageEngine :=
  { newBlockEngine with ReadMessages := fun _ rc _ => (rc, some Error.CorruptError) }

/-- An engine whose writes fail on a corrupt block. -/
def corruptWriteEngine : storageEngine :=
  { newBlockEngine with WriteMessages := fun w _ => (w, some Error.CorruptError) }

/-- The store of the worked examples on an engine whose `Init` is corrupt. -/
def corruptInitStorage : Storage := { New exampleContext with engine := corruptInitEngine }

/-- The store of the worked examples on an engine whose reads are corrupt. -/
def corruptReadStorage : Storage := { New exampleContext with engine := corruptReadEngine }

/-- The store of the worked examples on an engine whose writes are corrupt. -/
def corruptWriteStorage : Storage := { New exampleContext with engine := corruptWriteEngine }

/-! ## More functions used to state what the passes do -/

/-- A valid message of a deletable-by-delete-history type that still has a body:
what `updateMinDeletableMessage` looks for in a batch. -/
def hasDeletableBody (g : Context) : MessageUnboxed → Bool
  | .Valid mvalid =>
    g.IsDeletableByDeleteHistory mvalid.ClientHeader.MessageType && !mvalid.MessageBody.IsNil
  | _ => false

/-- The tracked `MinDeletableMessage`, a missing entry counting as 0 (unset). -/
def minDeletableOf (w : World) : MessageID :=
  match w.delh with
  | some e => e.MinDeletableMessage
  | none => 0

/-- Invariant I5: `MinDeletableMessage`, if set, is at most the (positive) id of
every stored valid deletable message with a body. -/
def invariantI5 (g : Context) (w : World) : Prop :=
  0 < minDeletableOf w →
    ∀ i m, 0 < i → lookup w.blocks i = some m → hasDeletableBody g m = true →
      minDeletableOf w ≤ i

/-- The tracker knows of the store: while `MinDeletableMessage` is unset no valid
deletable message with a body is stored. -/
def minDeletableTracked (g : Context) (w : World) : Prop :=
  minDeletableOf w = 0 →
    ∀ i m, 0 < i → lookup w.blocks i = some m → hasDeletableBody g m = false

/-- Whether a record is the `Placeholder` variant. -/
def MessageUnboxed.IsPlaceholder : MessageUnboxed → Bool
  | .Placeholder _ => true
  | _ => false

/-! ## The selection of the delete-history pass -/

/-- The tests that the first loop of `handleDeleteHistory` makes on a message of
the batch before it compares horizons: the message is valid, its header type is
`DELETEHISTORY`, its body type reads as `DELETEHISTORY` without error, and the
horizon of the body is positive. -/
def isDeleteHistory : MessageUnboxed → Bool
  | .Valid mvalid =>
    decide (mvalid.ClientHeader.MessageType = MessageType.DELETEHISTORY) &&
      decide (mvalid.MessageBody.MessageType = some MessageType.DELETEHISTORY) &&
      decide (0 < mvalid.MessageBody.Deletehistory.Upto)
  | _ => false

/-- The horizon `Upto` that the body of a message carries; a record that is not
valid has none. -/
def uptoOf : MessageUnboxed → MessageID
  | .Valid mvalid => mvalid.MessageBody.Deletehistory.Upto
  | _ => 0

/-! ## Local deletes -/

/-- Whether the record stored at id `i` lost its body between two states of the
store: a valid record with a body before, a valid record without one after. -/
def bodyCleared (before after : World) (i : MessageID) : Bool :=
  match lookup before.blocks i, lookup after.blocks i with
  | some (.Valid mvalid), some (.Valid mvalid1) =>
    !mvalid.MessageBody.IsNil && mvalid1.MessageBody.IsNil
  | _, _ => false

/-- The store after the text messages 1 and 2 were merged into the empty store and
then deleted by the delete-history 3 with horizon 3: the ids 1 to 3 without a gap. -/
def deletedStore : World :=
  { blocks := [clearedMsg .TEXT 1 3, clearedMsg .TEXT 2 3, delhMsg 3 3]
    blockIndex := false
    delh := some { MinDeletableMessage := 1, MaxDeleteHistoryUpto := 3, DeletedUpto := 3 }
    maxMsgID := some 3 }

/-! ## The tracker with plain assignments -/

/-- Modelled from the spec: the delete-history tracker of §4.2 without the rule of
§4.4.3 on `setDeletedUpto` (the open question of §8).  The code of the tracker is
not among the sources.  `getEntry` and the two other setters are those of
`newDelhTracker`; `setDeletedUpto` assigns `DeletedUpto` and nothing else, so all
three setters are plain assignments of their own field. -/
def plainDelhTracker : delhTracker :=
  { newDelhTracker with
    setDeletedUpto := fun w msgID =>
      ({ w with delh := some { (w.delh.getD newEntry) with DeletedUpto := msgID } }, none) }

/-- The store of `New` on the tracker with plain assignments. -/
def plainStorage (g : Context) : Storage := { New g with delhTracker := plainDelhTracker }

/-- The tracked `MaxDeleteHistoryUpto`, a missing entry counting as 0. -/
def maxDeleteHistoryUptoOf (w : World) : MessageID :=
  match w.delh with
  | some e => e.MaxDeleteHistoryUpto
  | none => 0

/-- The tracked `DeletedUpto`, a missing entry counting as 0. -/
def deletedUptoOf (w : World) : MessageID :=
  match w.delh with
  | some e => e.DeletedUpto
  | none => 0

/-- The store that holds the text messages 1 to 3 and the tracker entry left by
their merge. -/
def textsMerged : World :=
  { blocks := textStore 3
    blockIndex := true
    delh := some { MinDeletableMessage := 1, MaxDeleteHistoryUpto := 0, DeletedUpto := 0 }
    maxMsgID := some 3 }

/-- The store `textsMerged` after the delete-history 10 with horizon 3 was merged
on the tracker with plain assignments. -/
def textsDeleted : World :=
  { blocks := [clearedMsg .TEXT 1 10, clearedMsg .TEXT 2 10, delhMsg 10 3, validMsg .TEXT 3 [3]]
    blockIndex := true
    delh := some { MinDeletableMessage := 1, MaxDeleteHistoryUpto := 0, DeletedUpto := 3 }
    maxMsgID := some 10 }

/-! ## Records mutated in place -/

/-- Whether `m1` is the record `m` mutated in place: a valid record keeps its
client header and its message id, and its body is the one it had or empty, so that
only `SupersededBy` and the body may differ; any other record is unchanged. -/
def mutatedInPlace : MessageUnboxed → MessageUnboxed → Bool
  | .Valid mvalid, .Valid mvalid1 =>
    decide (mvalid1.ClientHeader = mvalid.ClientHeader) &&
      decide (mvalid1.ServerHeader.MessageID = mvalid.ServerHeader.MessageID) &&
      (decide (mvalid1.MessageBody = mvalid.MessageBody) || mvalid1.MessageBody.IsNil)
  | m, m1 => decide (m1 = m)

end ChatStorage

/-! # Implicit team names

A shallow embedding of `FormatImplicitTeamName` of `go/teams/imps.go`. -/

namespace Teams

/-- A Go `string`: a sequence of bytes. -/
abbrev GoString := List Nat

/-- Go `<` on strings: the bytes are compared from the left, and a proper prefix
is less than the string it begins. -/
def stringLess : GoString → GoString → Bool
  | _, [] => false
  | [], _ :: _ => true
  | a :: as, b :: bs => if a < b then true else if b < a then false else stringLess as bs

/-- The library function `strings.Join`: the elements with `sep` between them. -/
def stringsJoin : List GoString → GoString → GoString
  | [], _ => []
  | [a], _ => a
  | a :: b :: rest, sep => a ++ sep ++ stringsJoin (b :: rest) sep

/-- The type `keybase1.SocialAssertion`: a user name on an outside service. -/
structure SocialAssertion where
  User : GoString
  Service : GoString
  deriving DecidableEq, Repr

/-- The part of `keybase1.ImplicitTeamName` that `FormatImplicitTeamName` reads,
with the flag `IsPrivate` beside it. -/
structure ImplicitTeamName where
  IsPrivate : Bool
  KeybaseUsers : List GoString
  UnresolvedUsers : List SocialAssertion
  deriving DecidableEq, Repr

/-- What `FormatImplicitTeamName` takes from outside the package: the library
function `sort.Slice`, given the slice and the order `less` on its elements and
returning the slice as it is afterwards, and the method `String` of
`keybase1.SocialAssertion`. -/
structure Env where
  sortSlice : {α : Type} → List α → (α → α → Bool) → List α
  String : SocialAssertion → GoString

/-- The function `FormatImplicitTeamName`. -/
def FormatImplicitTeamName (c : Env) (impTeamName : ImplicitTeamName) : GoString :=
  let KeybaseUsers := c.sortSlice impTeamName.KeybaseUsers (fun a b => stringLess a b)
  let UnresolvedUsers :=
    c.sortSlice impTeamName.UnresolvedUsers (fun a b => stringLess (c.String a) (c.String b))
  let unresolvedStrs := UnresolvedUsers.map c.String
  stringsJoin (KeybaseUsers ++ unresolvedStrs) [44]

/-- An order that `sort.Slice` accepts: `less` is irreflexive and transitive, and
so is being neither less nor greater (a strict weak order). -/
def strictWeakOrder {α : Type} (less : α → α → Bool) : Prop :=
  (∀ a, less a a = false) ∧
  (∀ a b c, less a b = true → less b c = true → less a c = true) ∧
  (∀ a b c, less a b = false → less b c = false → less a c = false)

/-- The contract of `sort.Slice`, which does not promise to be stable: for a
strict weak order the slice afterwards is a rearrangement of the slice before in
which no element is less than an earlier one. -/
def sortsSlices (c : Env) : Prop :=
  ∀ (α : Type) (xs : List α) (less : α → α → Bool), strictWeakOrder less →
    (c.sortSlice xs less).Perm xs ∧ (c.sortSlice xs less).Pairwise (fun a b => less b a = false)

/-- The strings of a list in ascending order of Go `<`. -/
def ascending (xs : List GoString) : List GoString :=
  xs.insertionSort (fun a b => stringLess b a = false)

/-- The bytes of a text of the worked examples, which are ASCII. -/
def bytes (s : String) : GoString := s.data.map Char.toNat

/-- An environment for the worked examples: `sort.Slice` as an insertion sort, and
the string form `user@service` of a social assertion. -/
def exampleEnv : Env where
  sortSlice := fun xs less => xs.insertionSort (fun a b => less b a = false)
  String := fun sa => sa.User ++ [64] ++ sa.Service

end Teams

namespace ChatStorage

/-! ## Lemmas -/

theorem lookup_writeMessage (b : List MessageUnboxed) (m : MessageUnboxed) (i : MessageID) :
    lookup (writeMessage b m) i = if m.GetMessageID = i then some m else lookup b i := by
  unfold lookup writeMessage
  by_cases h : m.GetMessageID = i
  · simp [h]
  · rw [List.find?_cons_of_neg _ (by simpa using h)]
    simp only [h, if_false, List.find?_filter]
    congr 1
    funext a
    by_cases ha : a.GetMessageID = i
    · subst ha
      have h2 : ¬ a.GetMessageID = m.GetMessageID := fun e => h e.symm
      simp [h2]
    · simp [ha]

theorem lookup_id {b : List MessageUnboxed} {i : MessageID} {m : MessageUnboxed}
    (h : lookup b i = some m) : m.GetMessageID = i := by
  have := List.find?_some h
  simpa using this

theorem lookup_foldl_writeMessage (msgs b : List MessageUnboxed) (i : MessageID) :
    lookup (msgs.foldl writeMessage b) i = (lookup msgs.reverse i).or (lookup b i) := by
  induction msgs generalizing b with
  | nil => simp [lookup]
  | cons m rest ih =>
    rw [List.foldl_cons, ih, lookup_writeMessage]
    simp only [lookup, List.reverse_cons, List.find?_append]
    cases h1 : List.find? (fun m => m.GetMessageID == i) rest.reverse with
    | some x => simp
    | none =>
      by_cases h : m.GetMessageID = i
      · simp [h]
      · simp [h]

/-- A collector that is done stops the scan where it stands. -/
theorem readMessagesFrom_done (b : List MessageUnboxed) (n : MessageID) (rc : ResultCollector)
    (h : rc.Done = true) : readMessagesFrom b n rc = (rc, none) := by
  cases n with
  | zero => rfl
  | succ k => rw [readMessagesFrom, if_pos h]

theorem readMessagesFrom_simple_one (b : List MessageUnboxed) (i : MessageID) :
    readMessagesFrom b i (NewSimpleResultCollector 1) =
      match i, lookup b i with
      | 0, _ => (.Simple [] 1, none)
      | _ + 1, some m => (.Simple [m] 1, none)
      | k + 1, none => (.Simple [] 1, some (Error.MissError (k + 1))) := by
  cases i with
  | zero => simp [readMessagesFrom, NewSimpleResultCollector]
  | succ k =>
    have hnd : (NewSimpleResultCollector 1).Done = false := rfl
    rw [readMessagesFrom, hnd]
    cases h : lookup b (k + 1) with
    | none => simp [NewSimpleResultCollector, ResultCollector.PushPlaceholder]
    | some m =>
      have hd : ((NewSimpleResultCollector 1).Push m).Done = true := rfl
      simp only [Bool.false_eq_true, if_false]
      rw [readMessagesFrom_done b k _ hd]
      rfl

theorem readMessagesFrom_insatiable (b : List MessageUnboxed) (n : Nat) (acc : List MessageUnboxed) :
    readMessagesFrom b n (.Insatiable acc) = (.Insatiable (acc ++ storedBelow b n), none) := by
  induction n generalizing acc with
  | zero => simp [readMessagesFrom, storedBelow]
  | succ k ih =>
    unfold readMessagesFrom storedBelow
    cases h : lookup b (k + 1) with
    | none => simp [ResultCollector.PushPlaceholder, ResultCollector.Done, ih]
    | some m => simp [ResultCollector.Push, ResultCollector.Done, ih]

theorem mem_storedBelow {b : List MessageUnboxed} {n : Nat} {m : MessageUnboxed} :
    m ∈ storedBelow b n ↔ ∃ i, 0 < i ∧ i ≤ n ∧ lookup b i = some m := by
  induction n with
  | zero =>
    simp only [storedBelow, List.not_mem_nil, false_iff]
    rintro ⟨i, h1, h2, _⟩
    omega
  | succ k ih =>
    unfold storedBelow
    constructor
    · intro hm
      cases h : lookup b (k + 1) with
      | none =>
        rw [h] at hm
        obtain ⟨i, h1, h2, h3⟩ := ih.1 hm
        exact ⟨i, h1, by omega, h3⟩
      | some x =>
        rw [h] at hm
        rcases List.mem_cons.1 hm with rfl | hm
        · exact ⟨k + 1, by omega, le_refl _, h⟩
        · obtain ⟨i, h1, h2, h3⟩ := ih.1 hm
          exact ⟨i, h1, by omega, h3⟩
    · rintro ⟨i, h1, h2, h3⟩
      by_cases hi : i = k + 1
      · subst hi
        rw [h3]
        exact List.mem_cons_self _ _
      · have : m ∈ storedBelow b k := ih.2 ⟨i, h1, by omega, h3⟩
        cases h : lookup b (k + 1) with
        | none => simpa using this
        | some x => exact List.mem_cons_of_mem _ this

theorem markSuperseded_idem (msg m : MessageUnboxed) :
    markSuperseded msg (markSuperseded msg m) = markSuperseded msg m := by
  cases m <;> simp only [markSuperseded]
  by_cases h : msg.GetMessageType = MessageType.DELETE <;> simp [markSuperseded, h]

theorem markSuperseded_id (msg m : MessageUnboxed) :
    (markSuperseded msg m).GetMessageID = m.GetMessageID := by
  cases m <;> simp only [markSuperseded]
  split <;> rfl

theorem markSuperseded_type (msg m : MessageUnboxed) :
    (markSuperseded msg m).GetMessageType = m.GetMessageType := by
  cases m <;> simp only [markSuperseded]
  split <;> rfl


theorem supersedeTargets_New_cons (g : Context) (msg : MessageUnboxed) (sid : MessageID)
    (rest : List MessageID) (w : World) :
    supersedeTargets (New g) msg (sid :: rest) w =
      supersedeTargets (New g) msg rest (supersedeOne msg w sid) := by
  rw [supersedeTargets]
  have hr : (New g).engine.ReadMessages w (NewSimpleResultCollector 1) sid =
      match readMessagesFrom w.blocks sid (NewSimpleResultCollector 1) with
      | (rc1, some err) => (rc1, rc1.Error err)
      | (rc1, none) => (rc1, none) := rfl
  have hw : ∀ ms, (New g).engine.WriteMessages w ms =
      ({ w with blocks := ms.foldl writeMessage w.blocks }, none) := fun _ => rfl
  rw [hr, readMessagesFrom_simple_one]
  cases sid with
  | zero => simp [supersedeOne, ResultCollector.Result]
  | succ k =>
    cases hl : lookup w.blocks (k + 1) with
    | none => simp [supersedeOne, hl, ResultCollector.Error]
    | some m =>
      cases m with
      | Valid mvalid =>
        simp only [ResultCollector.Result, hw, List.foldl_cons, List.foldl_nil, supersedeOne, hl,
          Nat.succ_pos, if_true, markSuperseded]
        by_cases hd : msg.GetMessageType = MessageType.DELETE <;> simp [hd]
      | Error e => simp [supersedeOne, hl, ResultCollector.Result]
      | Outbox o => simp [supersedeOne, hl, ResultCollector.Result]
      | Placeholder p => simp [supersedeOne, hl, ResultCollector.Result]

theorem lookup_supersedeOne (msg : MessageUnboxed) (w : World) (sid i : MessageID) :
    lookup (supersedeOne msg w sid).blocks i =
      if 0 < i ∧ i = sid then (lookup w.blocks i).map (markSuperseded msg)
      else lookup w.blocks i := by
  unfold supersedeOne
  by_cases hs : 0 < sid
  · simp only [hs, if_true]
    cases hl : lookup w.blocks sid with
    | none =>
      by_cases hi : i = sid
      · subst hi; simp [hl]
      · simp [hi]
    | some m =>
      have hid := lookup_id hl
      cases m with
      | Valid mvalid =>
        simp only [lookup_writeMessage, markSuperseded_id, hid]
        by_cases hi : i = sid
        · subst hi; simp [hl, hs]
        · simp only [hi, and_false, if_false]
          rw [if_neg (fun e : sid = i => hi e.symm)]
      | Error e =>
        by_cases hi : i = sid
        · subst hi; simp [hl, markSuperseded]
        · simp [hi]
      | Outbox o =>
        by_cases hi : i = sid
        · subst hi; simp [hl, markSuperseded]
        · simp [hi]
      | Placeholder p =>
        by_cases hi : i = sid
        · subst hi; simp [hl, markSuperseded]
        · simp [hi]
  · simp only [hs, if_false]
    by_cases hi : i = sid
    · subst hi; simp [hs]
    · simp [hi]

theorem supersedeOne_frame (msg : MessageUnboxed) (w : World) (sid : MessageID) :
    (supersedeOne msg w sid).blockIndex = w.blockIndex ∧
    (supersedeOne msg w sid).delh = w.delh ∧
    (supersedeOne msg w sid).maxMsgID = w.maxMsgID := by
  unfold supersedeOne
  split
  · split <;> simp
  · simp

/-- What the inner loop of the supersedes pass does on the engine of `New`: it
never fails, touches only the blocks, and marks the stored targets. -/
theorem supersedeTargets_New (g : Context) (msg : MessageUnboxed) (ids : List MessageID)
    (w : World) :
    (supersedeTargets (New g) msg ids w).2 = none ∧
    (supersedeTargets (New g) msg ids w).1.blockIndex = w.blockIndex ∧
    (supersedeTargets (New g) msg ids w).1.delh = w.delh ∧
    (supersedeTargets (New g) msg ids w).1.maxMsgID = w.maxMsgID ∧
    ∀ i, lookup (supersedeTargets (New g) msg ids w).1.blocks i =
      if 0 < i ∧ i ∈ ids then (lookup w.blocks i).map (markSuperseded msg)
      else lookup w.blocks i := by
  induction ids generalizing w with
  | nil => simp [supersedeTargets]
  | cons sid rest ih =>
    rw [supersedeTargets_New_cons]
    obtain ⟨h1, h2, h3, h4, h5⟩ := ih (supersedeOne msg w sid)
    obtain ⟨f1, f2, f3⟩ := supersedeOne_frame msg w sid
    refine ⟨h1, h2.trans f1, h3.trans f2, h4.trans f3, fun i => ?_⟩
    rw [h5 i, lookup_supersedeOne]
    by_cases hi : 0 < i
    · by_cases hs : i = sid
      · by_cases hr : i ∈ rest
        · subst hs
          cases hl : lookup w.blocks i <;> simp [hi, hr, markSuperseded_idem]
        · subst hs
          simp [hi, hr]
      · simp [hi, hs]
    · simp [hi]

theorem passEffect_id (g : Context) (msgs : List MessageUnboxed) (i : MessageID)
    (m : MessageUnboxed) : (passEffect g msgs i m).GetMessageID = m.GetMessageID := by
  induction msgs generalizing m with
  | nil => rfl
  | cons msg rest ih =>
    rw [passEffect, ih]
    split
    · exact markSuperseded_id _ _
    · rfl

theorem passEffect_type (g : Context) (msgs : List MessageUnboxed) (i : MessageID)
    (m : MessageUnboxed) : (passEffect g msgs i m).GetMessageType = m.GetMessageType := by
  induction msgs generalizing m with
  | nil => rfl
  | cons msg rest ih =>
    rw [passEffect, ih]
    split
    · exact markSuperseded_type _ _
    · rfl

/-- What the supersedes pass does on the engine of `New`: it never fails, touches
only the blocks, and leaves on every stored record the marks of the batch. -/
theorem updateAllSupersededBy_New (g : Context) (msgs : List MessageUnboxed) (w : World) :
    (updateAllSupersededBy (New g) msgs w).2 = none ∧
    (updateAllSupersededBy (New g) msgs w).1.blockIndex = w.blockIndex ∧
    (updateAllSupersededBy (New g) msgs w).1.delh = w.delh ∧
    (updateAllSupersededBy (New g) msgs w).1.maxMsgID = w.maxMsgID ∧
    ∀ i, lookup (updateAllSupersededBy (New g) msgs w).1.blocks i =
      if 0 < i then (lookup w.blocks i).map (passEffect g msgs i) else lookup w.blocks i := by
  induction msgs generalizing w with
  | nil =>
    refine ⟨rfl, rfl, rfl, rfl, fun i => ?_⟩
    cases h : lookup w.blocks i <;> simp [updateAllSupersededBy, passEffect, h]
  | cons msg rest ih =>
    have hg : (New g).g = g := rfl
    rw [updateAllSupersededBy]
    by_cases hv : msg.IsValid = true
    · simp only [hv, Bool.not_true, Bool.false_eq_true, if_false, hg]
      cases hs : g.GetSupersedes msg with
      | none =>
        obtain ⟨h1, h2, h3, h4, h5⟩ := ih w
        refine ⟨h1, h2, h3, h4, fun i => ?_⟩
        rw [h5 i]
        simp [passEffect, supersedesID, hs]
      | some ids =>
        obtain ⟨t1, t2, t3, t4, t5⟩ := supersedeTargets_New g msg ids w
        have hsplit : supersedeTargets (New g) msg ids w =
            ((supersedeTargets (New g) msg ids w).1, none) := by
          rw [← t1]
        simp only []
        rw [hsplit]
        simp only []
        obtain ⟨h1, h2, h3, h4, h5⟩ := ih (supersedeTargets (New g) msg ids w).1
        refine ⟨h1, h2.trans t2, h3.trans t3, h4.trans t4, fun i => ?_⟩
        rw [h5 i, t5 i]
        by_cases hi : 0 < i
        · by_cases hm : i ∈ ids
          · cases hl : lookup w.blocks i <;> simp [hi, hm, passEffect, supersedesID, hs, hv]
          · simp [hi, hm, passEffect, supersedesID, hs, hv]
        · simp [hi]
    · simp only [hv, Bool.not_false, if_true]
      have hv2 : msg.IsValid = false := by simpa using hv
      obtain ⟨h1, h2, h3, h4, h5⟩ := ih w
      refine ⟨by simpa [hv2] using h1, by simpa [hv2] using h2, by simpa [hv2] using h3,
        by simpa [hv2] using h4, fun i => ?_⟩
      have := h5 i
      simp only [hv2, Bool.not_false, if_true] at this ⊢
      rw [this]
      simp [passEffect, supersedesID, hv2]

theorem updateMinDeletableMessage_New (g : Context) (w : World) (msgs : List MessageUnboxed) :
    updateMinDeletableMessage (New g) w msgs =
      ({ w with delh := minDeletableEntry w.delh (minDeletableMessageBatch (New g) msgs none) },
        none) := by
  unfold updateMinDeletableMessage
  cases hb : minDeletableMessageBatch (New g) msgs none with
  | none => simp [minDeletableEntry]
  | some b =>
    cases hd : w.delh with
    | none => simp [New, newDelhTracker, hd, minDeletableEntry]
    | some mem =>
      by_cases hc : mem.MinDeletableMessage > 0 ∧ b ≥ mem.MinDeletableMessage
      · simp only [New, newDelhTracker, hd, minDeletableEntry, hc, and_self, if_true]
        cases w
        simp_all
      · simp [New, newDelhTracker, hd, minDeletableEntry, hc]

theorem deleteHistoryWriteback_cons (g : Context) (source : MessageUnboxedValid)
    (msg : MessageUnboxed) (rest : List MessageUnboxed) :
    deleteHistoryWriteback (New g) source (msg :: rest) =
      if clearByDeleteHistory g source msg = msg then deleteHistoryWriteback (New g) source rest
      else clearByDeleteHistory g source msg :: deleteHistoryWriteback (New g) source rest := by
  have hg : (New g).g = g := rfl
  by_cases hd : g.IsDeletableByDeleteHistory msg.GetMessageType = true
  · cases msg with
    | Valid mvalid =>
      by_cases hn : mvalid.MessageBody.IsNil = true
      · simp [deleteHistoryWriteback, clearByDeleteHistory, hg, hd, hn]
      · have hn2 : mvalid.MessageBody ≠ emptyBody := by
          simpa [MessageBody.IsNil] using hn
        have hc : clearByDeleteHistory g source (.Valid mvalid) ≠ .Valid mvalid := by
          simp only [clearByDeleteHistory, hd, hn, Bool.not_true, Bool.false_eq_true, if_false]
          intro e
          injection e with e
          exact hn2 (congrArg MessageUnboxedValid.MessageBody e).symm
        rw [if_neg hc]
        simp [deleteHistoryWriteback, clearByDeleteHistory, hg, hd, hn]
    | Error e => simp [deleteHistoryWriteback, clearByDeleteHistory, hg, hd]
    | Outbox o => simp [deleteHistoryWriteback, clearByDeleteHistory, hg, hd]
    | Placeholder p => simp [deleteHistoryWriteback, clearByDeleteHistory, hg, hd]
  · cases msg <;> simp [deleteHistoryWriteback, clearByDeleteHistory, hg, hd]

theorem deleteHistoryWriteback_mem (g : Context) (source : MessageUnboxedValid)
    (l : List MessageUnboxed) (x : MessageUnboxed) :
    x ∈ deleteHistoryWriteback (New g) source l ↔
      ∃ m ∈ l, clearByDeleteHistory g source m ≠ m ∧ x = clearByDeleteHistory g source m := by
  induction l with
  | nil => simp [deleteHistoryWriteback]
  | cons msg rest ih =>
    rw [deleteHistoryWriteback_cons]
    simp only [List.mem_cons, exists_eq_or_imp]
    by_cases hc : clearByDeleteHistory g source msg = msg
    · rw [if_pos hc, ih]
      simp [hc]
    · rw [if_neg hc, List.mem_cons, ih]
      simp [hc]

theorem clearByDeleteHistory_id (g : Context) (source : MessageUnboxedValid) (m : MessageUnboxed) :
    (clearByDeleteHistory g source m).GetMessageID = m.GetMessageID := by
  unfold clearByDeleteHistory
  split
  · rfl
  · cases m with
    | Valid mvalid =>
      simp only
      split <;> rfl
    | _ => rfl

theorem clearByDeleteHistory_type (g : Context) (source : MessageUnboxedValid) (m : MessageUnboxed) :
    (clearByDeleteHistory g source m).GetMessageType = m.GetMessageType := by
  unfold clearByDeleteHistory
  split
  · rfl
  · cases m with
    | Valid mvalid =>
      simp only
      split <;> rfl
    | _ => rfl

theorem lookup_writeback (g : Context) (source : MessageUnboxedValid) (b : List MessageUnboxed)
    (n : Nat) (i : MessageID) :
    lookup ((deleteHistoryWriteback (New g) source (storedBelow b n)).foldl writeMessage b) i =
      if 0 < i ∧ i ≤ n then (lookup b i).map (clearByDeleteHistory g source)
      else lookup b i := by
  rw [lookup_foldl_writeMessage]
  cases hx : lookup (deleteHistoryWriteback (New g) source (storedBelow b n)).reverse i with
  | some x =>
    have hxid := lookup_id hx
    have hxm : x ∈ deleteHistoryWriteback (New g) source (storedBelow b n) := by
      have := List.mem_of_find?_eq_some hx
      simpa using this
    obtain ⟨m, hm, _, rfl⟩ := (deleteHistoryWriteback_mem g source _ x).1 hxm
    obtain ⟨j, hj1, hj2, hj3⟩ := mem_storedBelow.1 hm
    have hmid := lookup_id hj3
    rw [clearByDeleteHistory_id] at hxid
    have hji : j = i := by rw [← hmid, hxid]
    subst hji
    simp [hj1, hj2, hj3]
  | none =>
    simp only [Option.none_or]
    by_cases hr : 0 < i ∧ i ≤ n
    · simp only [hr, and_self, if_true]
      cases hl : lookup b i with
      | none => rfl
      | some m =>
        have hm : m ∈ storedBelow b n := mem_storedBelow.2 ⟨i, hr.1, hr.2, hl⟩
        by_cases hc : clearByDeleteHistory g source m = m
        · simp [hc]
        · exfalso
          have hin : clearByDeleteHistory g source m ∈
              deleteHistoryWriteback (New g) source (storedBelow b n) :=
            (deleteHistoryWriteback_mem g source _ _).2 ⟨m, hm, hc, rfl⟩
          have hnone := hx
          unfold lookup at hnone
          rw [List.find?_eq_none] at hnone
          have := hnone _ (List.mem_reverse.2 hin)
          rw [clearByDeleteHistory_id, lookup_id hl] at this
          simp at this
    · simp [hr]

theorem applyDeleteHistory_New (g : Context) (w : World) (source : MessageUnboxedValid)
    (delh : MessageDeleteHistory) :
    applyDeleteHistory (New g) w source delh =
      ({ w with
          blocks := (deleteHistoryWriteback (New g) source
            (storedBelow w.blocks (predMessageID delh.Upto))).foldl writeMessage w.blocks,
          delh := some { (w.delh.getD newEntry) with
            MaxDeleteHistoryUpto := max (w.delh.getD newEntry).MaxDeleteHistoryUpto delh.Upto,
            DeletedUpto := delh.Upto } },
        true, none) := by
  unfold applyDeleteHistory
  have hr : (New g).engine.ReadMessages w NewInsatiableResultCollector (predMessageID delh.Upto) =
      match readMessagesFrom w.blocks (predMessageID delh.Upto) NewInsatiableResultCollector with
      | (rc1, some err) => (rc1, rc1.Error err)
      | (rc1, none) => (rc1, none) := rfl
  rw [hr, NewInsatiableResultCollector, readMessagesFrom_insatiable]
  simp [New, newBlockEngine, newDelhTracker, ResultCollector.Result]

theorem handleDeleteHistory_New (g : Context) (w : World) (msgs : List MessageUnboxed) :
    handleDeleteHistory (New g) w msgs =
      match delhActive msgs none with
      | none => (w, false, none)
      | some act =>
        match w.delh with
        | some mem =>
          if mem.MaxDeleteHistoryUpto ≥ act.delh.Upto then (w, false, none)
          else if act.delh.Upto < mem.MinDeletableMessage then
            ({ w with delh := some { mem with MaxDeleteHistoryUpto := act.delh.Upto } }, false, none)
          else applyDeleteHistory (New g) w act.source act.delh
        | none => applyDeleteHistory (New g) w act.source act.delh := by
  unfold handleDeleteHistory
  cases delhActive msgs none with
  | none => rfl
  | some act =>
    cases hd : w.delh with
    | none => simp [New, newDelhTracker, hd]
    | some mem => simp [New, newDelhTracker, hd]

theorem handleDeleteHistory_New_ok (g : Context) (w : World) (msgs : List MessageUnboxed) :
    (handleDeleteHistory (New g) w msgs).2.2 = none := by
  rw [handleDeleteHistory_New]
  cases delhActive msgs none with
  | none => rfl
  | some act =>
    cases w.delh with
    | none => simp [applyDeleteHistory_New]
    | some mem =>
      simp only [applyDeleteHistory_New]
      split
      · rfl
      · split <;> rfl

theorem Merge_New (g : Context) (w : World) (msgs : List MessageUnboxed) :
    Merge (New g) w msgs =
      match g.getSecretBoxKey w with
      | .error ierr =>
        some (w, { DeletedHistory := false },
          some (Error.MiscError ("unable to get secret key: " ++ ierr)))
      | .ok _ => some (mergedWorld g w msgs, { DeletedHistory := mergedFlag g w msgs }, none) := by
  unfold Merge
  have hg : (New g).g = g := rfl
  rw [hg]
  cases hk : g.getSecretBoxKey w with
  | error ierr => rfl
  | ok key =>
    have hi : (New g).engine.Init w key = none := rfl
    have hw : (New g).engine.WriteMessages w msgs = (stageWrite g w msgs, none) := rfl
    simp only [hi]
    rw [hw]
    simp only []
    obtain ⟨p1, -⟩ := updateAllSupersededBy_New g msgs (stageWrite g w msgs)
    have hp : updateAllSupersededBy (New g) msgs (stageWrite g w msgs) =
        (stageSupersede g w msgs, none) := by
      rw [← p1]
      rfl
    rw [hp]
    simp only []
    have hm : updateMinDeletableMessage (New g) (stageSupersede g w msgs) msgs =
        (stageMin g w msgs, none) := by
      rw [stageMin, updateMinDeletableMessage_New]
    rw [hm]
    simp only []
    have hh : handleDeleteHistory (New g) (stageMin g w msgs) msgs =
        (stageDelh g w msgs, mergedFlag g w msgs, none) := by
      have := handleDeleteHistory_New_ok g (stageMin g w msgs) msgs
      rw [← this]
      rfl
    rw [hh]
    simp only []
    cases msgs with
    | nil => rfl
    | cons msg0 rest => rfl

/-- A `Merge` on the store of `New` returns success exactly when the secret key is
available, and then the world and the flag are those of the five steps. -/
theorem Merge_New_success {g : Context} {w w' : World} {msgs : List MessageUnboxed}
    {res : MergeResult} (h : Merge (New g) w msgs = some (w', res, none)) :
    w' = mergedWorld g w msgs ∧ res = { DeletedHistory := mergedFlag g w msgs } := by
  rw [Merge_New] at h
  cases hk : g.getSecretBoxKey w with
  | error ierr => simp [hk] at h
  | ok key =>
    simp only [hk, Option.some.injEq, Prod.mk.injEq, and_true] at h
    exact ⟨h.1.symm, h.2.symm⟩

theorem markSuperseded_not_valid {msg m : MessageUnboxed} (h : m.IsValid = false) :
    markSuperseded msg m = m := by
  cases m <;> simp_all [markSuperseded, MessageUnboxed.IsValid]

theorem passEffect_not_valid (g : Context) (msgs : List MessageUnboxed) (i : MessageID)
    (m : MessageUnboxed) (h : m.IsValid = false) : passEffect g msgs i m = m := by
  induction msgs with
  | nil => rfl
  | cons msg rest ih =>
    rw [passEffect]
    split
    · rw [markSuperseded_not_valid h, ih]
    · exact ih

/-- The supersedes pass on a valid record: only `SupersededBy` and the body move. -/
theorem passEffect_valid (g : Context) (msgs : List MessageUnboxed) (i : MessageID)
    (v : MessageUnboxedValid) :
    passEffect g msgs i (.Valid v) =
      .Valid { v with
        ServerHeader := { v.ServerHeader with
          SupersededBy := supersededByAfter g msgs i v.ServerHeader.SupersededBy },
        MessageBody := bodyAfter g msgs i v.MessageBody } := by
  induction msgs generalizing v with
  | nil => rfl
  | cons msg rest ih =>
    rw [passEffect, supersededByAfter, bodyAfter]
    by_cases hs : supersedesID g msg i = true
    · by_cases hd : msg.GetMessageType = MessageType.DELETE
      · simp only [hs, if_true, markSuperseded, hd, ih, and_self]
      · simp only [hs, if_true, markSuperseded, hd, if_false, ih, and_false]
    · have hs2 : supersedesID g msg i = false := by simpa using hs
      simp only [hs2, Bool.false_eq_true, if_false, ih, false_and]

theorem supersededByAfter_none (g : Context) (msgs : List MessageUnboxed) (i cur : MessageID)
    (h : ∀ m ∈ msgs, supersedesID g m i = false) : supersededByAfter g msgs i cur = cur := by
  induction msgs generalizing cur with
  | nil => rfl
  | cons msg rest ih =>
    rw [supersededByAfter, h msg (List.mem_cons_self _ _)]
    exact ih _ (fun m hm => h m (List.mem_cons_of_mem _ hm))

theorem supersededByAfter_const (g : Context) (msgs : List MessageUnboxed) (i : MessageID)
    (h : ∃ m ∈ msgs, supersedesID g m i = true) (x y : MessageID) :
    supersededByAfter g msgs i x = supersededByAfter g msgs i y := by
  induction msgs generalizing x y with
  | nil => simp at h
  | cons msg rest ih =>
    rw [supersededByAfter, supersededByAfter]
    by_cases hs : supersedesID g msg i = true
    · simp [hs]
    · simp only [hs, if_false]
      apply ih
      obtain ⟨m, hm, hmt⟩ := h
      rcases List.mem_cons.1 hm with rfl | hm
      · exact absurd hmt hs
      · exact ⟨m, hm, hmt⟩

theorem supersededByAfter_idem (g : Context) (msgs : List MessageUnboxed) (i x : MessageID) :
    supersededByAfter g msgs i (supersededByAfter g msgs i x) = supersededByAfter g msgs i x := by
  by_cases h : ∃ m ∈ msgs, supersedesID g m i = true
  · exact supersededByAfter_const g msgs i h _ _
  · have h2 : ∀ m ∈ msgs, supersedesID g m i = false := by
      intro m hm
      by_contra hc
      exact h ⟨m, hm, by simpa using hc⟩
    rw [supersededByAfter_none g msgs i _ h2]

theorem bodyAfter_empty (g : Context) (msgs : List MessageUnboxed) (i : MessageID) :
    bodyAfter g msgs i emptyBody = emptyBody := by
  induction msgs with
  | nil => rfl
  | cons msg rest ih =>
    rw [bodyAfter]
    split <;> exact ih

theorem bodyAfter_cases (g : Context) (msgs : List MessageUnboxed) (i : MessageID)
    (b : MessageBody) : bodyAfter g msgs i b = b ∨ bodyAfter g msgs i b = emptyBody := by
  induction msgs generalizing b with
  | nil => exact Or.inl rfl
  | cons msg rest ih =>
    rw [bodyAfter]
    split
    · exact Or.inr (bodyAfter_empty g rest i)
    · exact ih b

theorem bodyAfter_idem (g : Context) (msgs : List MessageUnboxed) (i : MessageID)
    (b : MessageBody) : bodyAfter g msgs i (bodyAfter g msgs i b) = bodyAfter g msgs i b := by
  rcases bodyAfter_cases g msgs i b with h | h
  · rw [h, h]
  · rw [h, bodyAfter_empty]

theorem passEffect_idem (g : Context) (msgs : List MessageUnboxed) (i : MessageID)
    (m : MessageUnboxed) :
    passEffect g msgs i (passEffect g msgs i m) = passEffect g msgs i m := by
  cases m with
  | Valid v =>
    rw [passEffect_valid, passEffect_valid]
    simp [supersededByAfter_idem, bodyAfter_idem]
  | Error e => simp only [passEffect_not_valid g msgs i (.Error e) rfl]
  | Outbox o => simp only [passEffect_not_valid g msgs i (.Outbox o) rfl]
  | Placeholder p => simp only [passEffect_not_valid g msgs i (.Placeholder p) rfl]

/-- With a single superseder `d` of `i` in the batch, the pass leaves its id. -/
theorem supersededByAfter_only (g : Context) (msgs : List MessageUnboxed) (i cur : MessageID)
    (d : MessageUnboxed) (hd : d ∈ msgs) (hs : supersedesID g d i = true)
    (honly : ∀ m ∈ msgs, supersedesID g m i = true → m = d) :
    supersededByAfter g msgs i cur = d.GetMessageID := by
  induction msgs generalizing cur with
  | nil => simp at hd
  | cons msg rest ih =>
    rw [supersededByAfter]
    by_cases hr : d ∈ rest
    · exact ih _ hr (fun m hm => honly m (List.mem_cons_of_mem _ hm))
    · have hmd : msg = d := by
        rcases List.mem_cons.1 hd with h | h
        · exact h.symm
        · exact absurd h hr
      subst hmd
      rw [hs, if_pos rfl]
      apply supersededByAfter_none
      intro m hm
      by_contra hc
      have := honly m (List.mem_cons_of_mem _ hm) (by simpa using hc)
      exact hr (this ▸ hm)

theorem bodyAfter_delete (g : Context) (msgs : List MessageUnboxed) (i : MessageID)
    (b : MessageBody) (d : MessageUnboxed) (hd : d ∈ msgs) (hs : supersedesID g d i = true)
    (ht : d.GetMessageType = MessageType.DELETE) : bodyAfter g msgs i b = emptyBody := by
  induction msgs generalizing b with
  | nil => simp at hd
  | cons msg rest ih =>
    rw [bodyAfter]
    rcases List.mem_cons.1 hd with h | h
    · subst h
      simp only [hs, ht, and_self, if_true]
      exact bodyAfter_empty g rest i
    · exact ih _ h

/-- In a batch sorted by descending id the pass leaves the smallest id among the
superseders of `i`. -/
theorem supersededByAfter_sorted (g : Context) (msgs : List MessageUnboxed) (i cur : MessageID)
    (hsorted : sortedDescending msgs) (h : ∃ m ∈ msgs, supersedesID g m i = true) :
    ∃ s ∈ msgs, supersedesID g s i = true ∧ supersededByAfter g msgs i cur = s.GetMessageID ∧
      ∀ m ∈ msgs, supersedesID g m i = true → s.GetMessageID ≤ m.GetMessageID := by
  induction msgs generalizing cur with
  | nil => simp at h
  | cons msg rest ih =>
    have hs2 : sortedDescending rest := by
      unfold sortedDescending at hsorted ⊢
      rw [List.map_cons, List.pairwise_cons] at hsorted
      exact hsorted.2
    have hge : ∀ m ∈ rest, m.GetMessageID ≤ msg.GetMessageID := by
      unfold sortedDescending at hsorted
      rw [List.map_cons, List.pairwise_cons] at hsorted
      intro m hm
      exact hsorted.1 _ (List.mem_map_of_mem _ hm)
    rw [supersededByAfter]
    by_cases hr : ∃ m ∈ rest, supersedesID g m i = true
    · obtain ⟨s, hs, hst, heq, hmin⟩ := ih _ hs2 hr
      refine ⟨s, List.mem_cons_of_mem _ hs, hst, heq, ?_⟩
      intro m hm hmt
      rcases List.mem_cons.1 hm with rfl | hm
      · exact hge s hs
      · exact hmin m hm hmt
    · have hnone : ∀ m ∈ rest, supersedesID g m i = false := by
        intro m hm
        by_contra hc
        exact hr ⟨m, hm, by simpa using hc⟩
      have hmsg : supersedesID g msg i = true := by
        obtain ⟨m, hm, hmt⟩ := h
        rcases List.mem_cons.1 hm with rfl | hm
        · exact hmt
        · rw [hnone m hm] at hmt
          exact absurd hmt (by decide)
      refine ⟨msg, List.mem_cons_self _ _, hmsg, ?_, ?_⟩
      · rw [hmsg, if_pos rfl, supersededByAfter_none g rest i _ hnone]
      · intro m hm hmt
        rcases List.mem_cons.1 hm with rfl | hm
        · exact le_refl _
        · rw [hnone m hm] at hmt
          exact absurd hmt (by decide)

/-! ### The stages of `Merge` -/

theorem stageWrite_eq (g : Context) (w : World) (msgs : List MessageUnboxed) :
    stageWrite g w msgs = { w with blocks := msgs.foldl writeMessage w.blocks } := rfl

theorem lookup_stageWrite (g : Context) (w : World) (msgs : List MessageUnboxed) (i : MessageID) :
    lookup (stageWrite g w msgs).blocks i = (lookup msgs.reverse i).or (lookup w.blocks i) := by
  rw [stageWrite_eq]
  exact lookup_foldl_writeMessage msgs w.blocks i

theorem lookup_stageSupersede (g : Context) (w : World) (msgs : List MessageUnboxed)
    (i : MessageID) :
    lookup (stageSupersede g w msgs).blocks i =
      if 0 < i then
        ((lookup msgs.reverse i).or (lookup w.blocks i)).map (passEffect g msgs i)
      else (lookup msgs.reverse i).or (lookup w.blocks i) := by
  obtain ⟨-, -, -, -, h⟩ := updateAllSupersededBy_New g msgs (stageWrite g w msgs)
  rw [stageSupersede, h i, lookup_stageWrite]

theorem stageSupersede_delh (g : Context) (w : World) (msgs : List MessageUnboxed) :
    (stageSupersede g w msgs).delh = w.delh := by
  obtain ⟨-, -, h, -⟩ := updateAllSupersededBy_New g msgs (stageWrite g w msgs)
  rw [stageSupersede, h]
  rfl

theorem stageSupersede_maxMsgID (g : Context) (w : World) (msgs : List MessageUnboxed) :
    (stageSupersede g w msgs).maxMsgID = w.maxMsgID := by
  obtain ⟨-, -, -, h, -⟩ := updateAllSupersededBy_New g msgs (stageWrite g w msgs)
  rw [stageSupersede, h]
  rfl

theorem stageMin_eq (g : Context) (w : World) (msgs : List MessageUnboxed) :
    stageMin g w msgs =
      { stageSupersede g w msgs with
        delh := minDeletableEntry w.delh (minDeletableMessageBatch (New g) msgs none) } := by
  rw [stageMin, updateMinDeletableMessage_New, stageSupersede_delh]

theorem stageMin_blocks (g : Context) (w : World) (msgs : List MessageUnboxed) :
    (stageMin g w msgs).blocks = (stageSupersede g w msgs).blocks := by
  rw [stageMin_eq]

theorem stageMin_delh (g : Context) (w : World) (msgs : List MessageUnboxed) :
    (stageMin g w msgs).delh =
      minDeletableEntry w.delh (minDeletableMessageBatch (New g) msgs none) := by
  rw [stageMin_eq]

theorem stageMin_maxMsgID (g : Context) (w : World) (msgs : List MessageUnboxed) :
    (stageMin g w msgs).maxMsgID = w.maxMsgID := by
  rw [stageMin_eq]
  exact stageSupersede_maxMsgID g w msgs

theorem mergedWorld_blocks (g : Context) (w : World) (msgs : List MessageUnboxed) :
    (mergedWorld g w msgs).blocks = (stageDelh g w msgs).blocks := by
  cases msgs <;> rfl

theorem mergedWorld_delh (g : Context) (w : World) (msgs : List MessageUnboxed) :
    (mergedWorld g w msgs).delh = (stageDelh g w msgs).delh := by
  cases msgs <;> rfl

/-- A batch without a message of type `DELETEHISTORY` selects no directive. -/
theorem delhActive_of_no_delh (msgs : List MessageUnboxed) (cur : Option delhTagged)
    (h : ∀ m ∈ msgs, m.GetMessageType ≠ MessageType.DELETEHISTORY) :
    delhActive msgs cur = cur := by
  induction msgs generalizing cur with
  | nil => rfl
  | cons msg rest ih =>
    have h1 := h msg (List.mem_cons_self _ _)
    have h2 := ih cur (fun m hm => h m (List.mem_cons_of_mem _ hm))
    cases msg with
    | Valid mvalid => simp only [delhActive, h1, ne_eq, not_false_eq_true, if_true, h2]
    | Error e => simp only [delhActive, h2]
    | Outbox o => simp only [delhActive, h2]
    | Placeholder p => simp only [delhActive, h2]

theorem stageDelh_of_no_delh (g : Context) (w : World) (msgs : List MessageUnboxed)
    (h : delhActive msgs none = none) : stageDelh g w msgs = stageMin g w msgs := by
  rw [stageDelh, handleDeleteHistory_New, h]

/-- Reading one id with `Simple(1)` on the engine of `New`. -/
theorem ReadMessages_one (g : Context) (w : World) (t : MessageID) (m : MessageUnboxed)
    (ht : 0 < t) (h : lookup w.blocks t = some m) :
    (New g).engine.ReadMessages w (NewSimpleResultCollector 1) t = (.Simple [m] 1, none) := by
  have hr : (New g).engine.ReadMessages w (NewSimpleResultCollector 1) t =
      match readMessagesFrom w.blocks t (NewSimpleResultCollector 1) with
      | (rc1, some err) => (rc1, rc1.Error err)
      | (rc1, none) => (rc1, none) := rfl
  rw [hr, readMessagesFrom_simple_one]
  cases t with
  | zero => exact absurd ht (Nat.lt_irrefl 0)
  | succ k => simp [h]

/-! ### The delete-history pass -/

theorem applyDeleteHistory_flag (g : Context) (w : World) (source : MessageUnboxedValid)
    (delh : MessageDeleteHistory) : (applyDeleteHistory (New g) w source delh).2.1 = true := by
  rw [applyDeleteHistory_New]

theorem applyDeleteHistory_maxMsgID (g : Context) (w : World) (source : MessageUnboxedValid)
    (delh : MessageDeleteHistory) :
    (applyDeleteHistory (New g) w source delh).1.maxMsgID = w.maxMsgID := by
  rw [applyDeleteHistory_New]

theorem handleDeleteHistory_maxMsgID (g : Context) (w : World) (msgs : List MessageUnboxed) :
    (handleDeleteHistory (New g) w msgs).1.maxMsgID = w.maxMsgID := by
  rw [handleDeleteHistory_New]
  cases delhActive msgs none with
  | none => rfl
  | some act =>
    cases w.delh with
    | none => exact applyDeleteHistory_maxMsgID g w _ _
    | some mem =>
      simp only []
      split
      · rfl
      · split
        · rfl
        · exact applyDeleteHistory_maxMsgID g w _ _

/-- The three ways in which the delete-history pass returns `false` on the store
of `New`: nothing selected, nothing new, or record-only. -/
theorem handleDeleteHistory_false (g : Context) (w : World) (msgs : List MessageUnboxed)
    (h : (handleDeleteHistory (New g) w msgs).2.1 = false) :
    (delhActive msgs none = none ∧ (handleDeleteHistory (New g) w msgs).1 = w) ∨
    (∃ act mem, delhActive msgs none = some act ∧ w.delh = some mem ∧
      mem.MaxDeleteHistoryUpto ≥ act.delh.Upto ∧ (handleDeleteHistory (New g) w msgs).1 = w) ∨
    (∃ act mem, delhActive msgs none = some act ∧ w.delh = some mem ∧
      mem.MaxDeleteHistoryUpto < act.delh.Upto ∧ act.delh.Upto < mem.MinDeletableMessage ∧
      (handleDeleteHistory (New g) w msgs).1 =
        { w with delh := some { mem with MaxDeleteHistoryUpto := act.delh.Upto } }) := by
  rw [handleDeleteHistory_New] at h ⊢
  cases ha : delhActive msgs none with
  | none => exact Or.inl ⟨rfl, rfl⟩
  | some act =>
    rw [ha] at h
    cases hd : w.delh with
    | none =>
      rw [hd] at h
      simp only [applyDeleteHistory_flag] at h
      exact absurd h (by decide)
    | some mem =>
      rw [hd] at h
      simp only [] at h ⊢
      by_cases h1 : mem.MaxDeleteHistoryUpto ≥ act.delh.Upto
      · rw [if_pos h1]
        exact Or.inr (Or.inl ⟨act, mem, rfl, rfl, h1, rfl⟩)
      · rw [if_neg h1] at h ⊢
        by_cases h2 : act.delh.Upto < mem.MinDeletableMessage
        · rw [if_pos h2]
          exact Or.inr (Or.inr ⟨act, mem, rfl, rfl, Nat.lt_of_not_ge h1, h2, rfl⟩)
        · rw [if_neg h2, applyDeleteHistory_flag] at h
          exact absurd h (by decide)

/-- The update of the smallest deletable id is idempotent, also after
`MaxDeleteHistoryUpto` was moved in between. -/
theorem minDeletableEntry_again (delh : Option delhTrackerEntry) (b : Option MessageID)
    (f : delhTrackerEntry → delhTrackerEntry)
    (hf : ∀ e, (f e).MinDeletableMessage = e.MinDeletableMessage)
    (hf2 : ∀ e x, f { e with MinDeletableMessage := x } = { f e with MinDeletableMessage := x }) :
    minDeletableEntry ((minDeletableEntry delh b).map f) b = (minDeletableEntry delh b).map f := by
  cases b with
  | none => rfl
  | some bb =>
    cases delh with
    | none =>
      simp only [minDeletableEntry, Option.map_some', hf]
      split
      · rfl
      · rw [← hf2]
    | some mem =>
      simp only [minDeletableEntry]
      by_cases hc : mem.MinDeletableMessage > 0 ∧ bb ≥ mem.MinDeletableMessage
      · simp only [hc, and_self, if_true, Option.map_some', hf]
      · simp only [hc, if_false, Option.map_some', hf]
        split
        · rfl
        · rw [← hf2]

theorem handleDeleteHistory_noop (g : Context) (v : World) (msgs : List MessageUnboxed)
    (h : delhActive msgs none = none ∨
      ∃ act mem, delhActive msgs none = some act ∧ v.delh = some mem ∧
        mem.MaxDeleteHistoryUpto ≥ act.delh.Upto) :
    handleDeleteHistory (New g) v msgs = (v, false, none) := by
  rw [handleDeleteHistory_New]
  rcases h with h | ⟨act, mem, ha, hd, hge⟩
  · rw [h]
  · rw [ha, hd]
    simp only []
    rw [if_pos hge]

/-- The scan of the engine depends on the blocks only through `lookup`. -/
theorem readMessagesFrom_congr (b1 b2 : List MessageUnboxed)
    (h : ∀ i, lookup b1 i = lookup b2 i) (n : MessageID) (rc : ResultCollector) :
    readMessagesFrom b1 n rc = readMessagesFrom b2 n rc := by
  induction n generalizing rc with
  | zero => rfl
  | succ k ih =>
    rw [readMessagesFrom, readMessagesFrom, h (k + 1)]
    split
    · rfl
    · cases lookup b2 (k + 1) with
      | none =>
        simp only []
        cases hp : rc.PushPlaceholder (k + 1) with
        | mk rc1 ok =>
          cases ok with
          | true => exact ih rc1
          | false => rfl
      | some m => exact ih _

theorem ReadMessages_congr (g : Context) (w1 w2 : World)
    (h : ∀ i, lookup w1.blocks i = lookup w2.blocks i) (rc : ResultCollector) (maxID : MessageID) :
    (New g).engine.ReadMessages w1 rc maxID = (New g).engine.ReadMessages w2 rc maxID := by
  have hr : ∀ w : World, (New g).engine.ReadMessages w rc maxID =
      match readMessagesFrom w.blocks maxID rc with
      | (rc1, some err) => (rc1, rc1.Error err)
      | (rc1, none) => (rc1, none) := fun _ => rfl
  rw [hr, hr, readMessagesFrom_congr w1.blocks w2.blocks h]

theorem predMessageID_pos {u : MessageID} (h : 0 < u) : predMessageID u = u - 1 := by
  unfold predMessageID
  rw [if_neg (Nat.pos_iff_ne_zero.1 h)]

/-- What the apply step writes, read back id by id: below the horizon every stored
record is replaced by its cleared form, everything else stays. -/
theorem lookup_applyDeleteHistory (g : Context) (w : World) (source : MessageUnboxedValid)
    (delh : MessageDeleteHistory) (hpos : 0 < delh.Upto) (i : MessageID) :
    lookup (applyDeleteHistory (New g) w source delh).1.blocks i =
      if 0 < i ∧ i < delh.Upto then (lookup w.blocks i).map (clearByDeleteHistory g source)
      else lookup w.blocks i := by
  rw [applyDeleteHistory_New]
  simp only []
  rw [lookup_writeback, predMessageID_pos hpos]
  have hiff : (0 < i ∧ i ≤ delh.Upto - 1) ↔ (0 < i ∧ i < delh.Upto) := by
    constructor
    · rintro ⟨a, b⟩
      exact ⟨a, Nat.lt_of_le_pred hpos b⟩
    · rintro ⟨a, b⟩
      exact ⟨a, Nat.le_pred_of_lt b⟩
  by_cases hc : 0 < i ∧ i < delh.Upto
  · rw [if_pos hc, if_pos (hiff.2 hc)]
  · rw [if_neg hc, if_neg (fun h => hc (hiff.1 h))]

theorem applyDeleteHistory_delh (g : Context) (w : World) (source : MessageUnboxedValid)
    (delh : MessageDeleteHistory) :
    (applyDeleteHistory (New g) w source delh).1.delh =
      some { (w.delh.getD newEntry) with
        MaxDeleteHistoryUpto := max (w.delh.getD newEntry).MaxDeleteHistoryUpto delh.Upto,
        DeletedUpto := delh.Upto } := by
  rw [applyDeleteHistory_New]

/-- Every property that holds of the running choice and of each well-formed
delete-history message of the batch holds of the selected one. -/
theorem delhActive_inv (P : delhTagged → Prop) (msgs : List MessageUnboxed)
    (cur : Option delhTagged) (hcur : ∀ c, cur = some c → P c)
    (hnew : ∀ mv, .Valid mv ∈ msgs →
      mv.ClientHeader.MessageType = MessageType.DELETEHISTORY →
      mv.MessageBody.MessageType = some MessageType.DELETEHISTORY →
      0 < mv.MessageBody.Deletehistory.Upto →
      P { source := mv, delh := mv.MessageBody.Deletehistory })
    (act : delhTagged) (h : delhActive msgs cur = some act) : P act := by
  induction msgs generalizing cur with
  | nil => exact hcur act h
  | cons msg rest ih =>
    have hrest : ∀ mv, .Valid mv ∈ rest →
        mv.ClientHeader.MessageType = MessageType.DELETEHISTORY →
        mv.MessageBody.MessageType = some MessageType.DELETEHISTORY →
        0 < mv.MessageBody.Deletehistory.Upto →
        P { source := mv, delh := mv.MessageBody.Deletehistory } :=
      fun mv hm => hnew mv (List.mem_cons_of_mem _ hm)
    cases msg with
    | Valid mvalid =>
      simp only [delhActive, MessageUnboxed.GetMessageType] at h
      by_cases ht : mvalid.ClientHeader.MessageType = MessageType.DELETEHISTORY
      · simp only [ht, ne_eq, not_true_eq_false, if_false] at h
        cases hb : mvalid.MessageBody.MessageType with
        | none =>
          rw [hb] at h
          exact ih cur hcur hrest h
        | some bodyType =>
          rw [hb] at h
          simp only [] at h
          by_cases hbt : bodyType = MessageType.DELETEHISTORY
          · subst hbt
            simp only [ne_eq, not_true_eq_false, if_false] at h
            by_cases hu : mvalid.MessageBody.Deletehistory.Upto ≤ 0
            · rw [if_pos hu] at h
              exact ih cur hcur hrest h
            · rw [if_neg hu] at h
              have hp : P { source := mvalid, delh := mvalid.MessageBody.Deletehistory } :=
                hnew mvalid (List.mem_cons_self _ _) ht hb (Nat.lt_of_not_ge hu)
              cases cur with
              | none =>
                simp only [] at h
                refine ih _ ?_ hrest h
                intro c hc
                cases hc
                exact hp
              | some c0 =>
                simp only [] at h
                by_cases hgt : mvalid.MessageBody.Deletehistory.Upto > c0.delh.Upto
                · rw [if_pos hgt] at h
                  refine ih _ ?_ hrest h
                  intro c hc
                  cases hc
                  exact hp
                · rw [if_neg hgt] at h
                  exact ih _ hcur hrest h
          · simp only [ne_eq, hbt, not_false_eq_true, if_true] at h
            exact ih cur hcur hrest h
      · simp only [ne_eq, ht, not_false_eq_true, if_true] at h
        exact ih cur hcur hrest h
    | Error e =>
      simp only [delhActive] at h
      exact ih cur hcur hrest h
    | Outbox o =>
      simp only [delhActive] at h
      exact ih cur hcur hrest h
    | Placeholder p =>
      simp only [delhActive] at h
      exact ih cur hcur hrest h

theorem delhActive_pos (msgs : List MessageUnboxed) (act : delhTagged)
    (h : delhActive msgs none = some act) : 0 < act.delh.Upto :=
  delhActive_inv (fun a => 0 < a.delh.Upto) msgs none (fun _ hc => by cases hc)
    (fun _ _ _ _ hu => hu) act h

/-- A cleared form that is a valid record of a deletable type has no body. -/
theorem clearByDeleteHistory_nil (g : Context) (source : MessageUnboxedValid)
    (x : MessageUnboxed) (mv : MessageUnboxedValid)
    (h : clearByDeleteHistory g source x = .Valid mv)
    (hd : g.IsDeletableByDeleteHistory mv.ClientHeader.MessageType = true) :
    mv.MessageBody.IsNil = true := by
  have ht := clearByDeleteHistory_type g source x
  rw [h] at ht
  have hdx : g.IsDeletableByDeleteHistory x.GetMessageType = true := by
    rw [← ht]
    exact hd
  unfold clearByDeleteHistory at h
  simp only [hdx, Bool.not_true, Bool.false_eq_true, if_false] at h
  cases x with
  | Valid xv =>
    simp only [] at h
    by_cases hn : xv.MessageBody.IsNil = true
    · rw [if_pos hn] at h
      injection h with h
      rw [← h]
      exact hn
    · rw [if_neg hn] at h
      injection h with h
      rw [← h]
      rfl
  | Error e => cases h
  | Outbox o => cases h
  | Placeholder p => cases h

theorem minDeletableEntry_some (delh : Option delhTrackerEntry) (b : Option MessageID)
    (e : delhTrackerEntry) (h : minDeletableEntry delh b = some e) :
    e.DeletedUpto = (delh.getD newEntry).DeletedUpto ∧
    e.MaxDeleteHistoryUpto = (delh.getD newEntry).MaxDeleteHistoryUpto := by
  cases b with
  | none =>
    simp only [minDeletableEntry] at h
    rw [h]
    exact ⟨rfl, rfl⟩
  | some bb =>
    cases delh with
    | none =>
      simp only [minDeletableEntry, Option.some.injEq] at h
      rw [← h]
      exact ⟨rfl, rfl⟩
    | some mem =>
      simp only [minDeletableEntry] at h
      split at h
      · cases h
        exact ⟨rfl, rfl⟩
      · cases h
        exact ⟨rfl, rfl⟩

theorem bodyAfter_no_delete (g : Context) (msgs : List MessageUnboxed) (i : MessageID)
    (b : MessageBody) (h : ∀ m ∈ msgs, m.GetMessageType ≠ MessageType.DELETE) :
    bodyAfter g msgs i b = b := by
  induction msgs generalizing b with
  | nil => rfl
  | cons msg rest ih =>
    rw [bodyAfter, if_neg]
    · exact ih b (fun m hm => h m (List.mem_cons_of_mem _ hm))
    · rintro ⟨-, ht⟩
      exact h msg (List.mem_cons_self _ _) ht

theorem minDeletableMessageBatch_none (g : Context) (msgs : List MessageUnboxed)
    (h : ∀ m ∈ msgs, g.IsDeletableByDeleteHistory m.GetMessageType = false) :
    minDeletableMessageBatch (New g) msgs none = none := by
  induction msgs with
  | nil => rfl
  | cons msg rest ih =>
    have hg : (New g).g = g := rfl
    have h1 := h msg (List.mem_cons_self _ _)
    have h2 := ih (fun m hm => h m (List.mem_cons_of_mem _ hm))
    cases msg with
    | Valid mvalid => simp only [minDeletableMessageBatch, hg, h1, Bool.not_false, if_true, h2]
    | Error e => simp only [minDeletableMessageBatch, h2]
    | Outbox o => simp only [minDeletableMessageBatch, h2]
    | Placeholder p => simp only [minDeletableMessageBatch, h2]

/-! ### The id tracker and the stored ids -/

theorem stageDelh_maxMsgID (g : Context) (w : World) (msgs : List MessageUnboxed) :
    (stageDelh g w msgs).maxMsgID = w.maxMsgID := by
  rw [stageDelh, handleDeleteHistory_maxMsgID, stageMin_maxMsgID]

theorem mergedWorld_maxMsgID_nil (g : Context) (w : World) :
    (mergedWorld g w []).maxMsgID = w.maxMsgID :=
  stageDelh_maxMsgID g w []

theorem mergedWorld_maxMsgID_cons (g : Context) (w : World) (msg0 : MessageUnboxed)
    (rest : List MessageUnboxed) :
    (mergedWorld g w (msg0 :: rest)).maxMsgID =
      some (max (w.maxMsgID.getD 0) msg0.GetMessageID) := by
  show some (max ((stageDelh g w (msg0 :: rest)).maxMsgID.getD 0) msg0.GetMessageID) = _
  rw [stageDelh_maxMsgID]

/-- The delete-history pass stores nothing under a new id. -/
theorem lookup_stageDelh_isSome (g : Context) (w : World) (msgs : List MessageUnboxed)
    (i : MessageID) (h : (lookup (stageDelh g w msgs).blocks i).isSome = true) :
    (lookup (stageMin g w msgs).blocks i).isSome = true := by
  rw [stageDelh, handleDeleteHistory_New] at h
  cases ha : delhActive msgs none with
  | none =>
    rw [ha] at h
    exact h
  | some act =>
    rw [ha] at h
    have hpos := delhActive_pos msgs act ha
    have happ : (lookup (applyDeleteHistory (New g) (stageMin g w msgs) act.source
        act.delh).1.blocks i).isSome = true →
        (lookup (stageMin g w msgs).blocks i).isSome = true := by
      intro h1
      rw [lookup_applyDeleteHistory g _ _ _ hpos] at h1
      split at h1
      · rw [Option.isSome_map'] at h1
        exact h1
      · exact h1
    cases hd : (stageMin g w msgs).delh with
    | none =>
      rw [hd] at h
      exact happ h
    | some mem =>
      rw [hd] at h
      simp only [] at h
      split at h
      · exact h
      · split at h
        · exact h
        · exact happ h

/-- After `Merge` every stored id was stored before or is the id of a message of
the batch. -/
theorem lookup_mergedWorld_isSome (g : Context) (w : World) (msgs : List MessageUnboxed)
    (i : MessageID) (h : (lookup (mergedWorld g w msgs).blocks i).isSome = true) :
    (lookup w.blocks i).isSome = true ∨ ∃ m ∈ msgs, m.GetMessageID = i := by
  rw [mergedWorld_blocks] at h
  have h1 := lookup_stageDelh_isSome g w msgs i h
  rw [stageMin_blocks, lookup_stageSupersede] at h1
  have h2 : ((lookup msgs.reverse i).or (lookup w.blocks i)).isSome = true := by
    split at h1
    · rw [Option.isSome_map'] at h1
      exact h1
    · exact h1
  cases hb : lookup msgs.reverse i with
  | some m =>
    refine Or.inr ⟨m, ?_, lookup_id hb⟩
    have := List.mem_of_find?_eq_some hb
    simpa using this
  | none =>
    rw [hb, Option.none_or] at h2
    exact Or.inl h2

/-! ### The smallest deletable id of a batch -/

theorem minDeletableMessageBatch_cons (g : Context) (msg : MessageUnboxed)
    (rest : List MessageUnboxed) (cur : Option MessageID) :
    minDeletableMessageBatch (New g) (msg :: rest) cur =
      minDeletableMessageBatch (New g) rest
        (if hasDeletableBody g msg = true then
          match cur with
          | none => some msg.GetMessageID
          | some b => if msg.GetMessageID < b then some msg.GetMessageID else some b
        else cur) := by
  have hg : (New g).g = g := rfl
  cases msg with
  | Valid mvalid =>
    simp only [minDeletableMessageBatch, hasDeletableBody, hg, MessageUnboxed.GetMessageType]
    by_cases hd : g.IsDeletableByDeleteHistory mvalid.ClientHeader.MessageType = true
    · by_cases hn : mvalid.MessageBody.IsNil = true
      · simp [hd, hn]
      · simp only [hd, hn, Bool.not_true, Bool.false_eq_true, if_false, Bool.not_false,
          Bool.and_self, if_true]
        cases cur with
        | none => rfl
        | some b =>
          simp only []
          split <;> rfl
    · simp [hd]
  | Error e => simp [minDeletableMessageBatch, hasDeletableBody]
  | Outbox o => simp [minDeletableMessageBatch, hasDeletableBody]
  | Placeholder p => simp [minDeletableMessageBatch, hasDeletableBody]

/-- The first loop of `updateMinDeletableMessage` returns the smaller of the
running value and the smallest id of a message of the batch that is valid,
deletable and has a body. -/
theorem minDeletableMessageBatch_spec (g : Context) (msgs : List MessageUnboxed)
    (cur : Option MessageID) :
    (minDeletableMessageBatch (New g) msgs cur = none ↔
      cur = none ∧ ∀ m ∈ msgs, hasDeletableBody g m = false) ∧
    ∀ b, minDeletableMessageBatch (New g) msgs cur = some b →
      (cur = some b ∨ ∃ m ∈ msgs, hasDeletableBody g m = true ∧ m.GetMessageID = b) ∧
      (∀ c, cur = some c → b ≤ c) ∧
      ∀ m ∈ msgs, hasDeletableBody g m = true → b ≤ m.GetMessageID := by
  induction msgs generalizing cur with
  | nil =>
    refine ⟨by simp [minDeletableMessageBatch], ?_⟩
    intro b hb
    simp only [minDeletableMessageBatch] at hb
    refine ⟨Or.inl hb, ?_, by simp⟩
    intro c hc
    rw [hb] at hc
    cases hc
    exact le_refl _
  | cons msg rest ih =>
    rw [minDeletableMessageBatch_cons]
    by_cases hq : hasDeletableBody g msg = true
    · simp only [hq, if_true]
      cases cur with
      | none =>
        obtain ⟨ih1, ih2⟩ := ih (some msg.GetMessageID)
        refine ⟨?_, ?_⟩
        · constructor
          · intro h
            exact absurd (ih1.1 h).1 (by simp)
          · rintro ⟨-, h⟩
            have := h msg (List.mem_cons_self _ _)
            rw [hq] at this
            exact absurd this (by decide)
        · intro b hb
          obtain ⟨h1, h2, h3⟩ := ih2 b hb
          refine ⟨Or.inr ?_, by simp, ?_⟩
          · rcases h1 with h1 | ⟨m, hm, hmq, hid⟩
            · exact ⟨msg, List.mem_cons_self _ _, hq, (Option.some.inj h1)⟩
            · exact ⟨m, List.mem_cons_of_mem _ hm, hmq, hid⟩
          · intro m hm hmq
            rcases List.mem_cons.1 hm with rfl | hm
            · exact h2 _ rfl
            · exact h3 m hm hmq
      | some c0 =>
        simp only []
        by_cases hlt : msg.GetMessageID < c0
        · rw [if_pos hlt]
          obtain ⟨ih1, ih2⟩ := ih (some msg.GetMessageID)
          refine ⟨?_, ?_⟩
          · constructor
            · intro h
              exact absurd (ih1.1 h).1 (by simp)
            · rintro ⟨h, -⟩
              exact absurd h (by simp)
          · intro b hb
            obtain ⟨h1, h2, h3⟩ := ih2 b hb
            refine ⟨Or.inr ?_, ?_, ?_⟩
            · rcases h1 with h1 | ⟨m, hm, hmq, hid⟩
              · exact ⟨msg, List.mem_cons_self _ _, hq, (Option.some.inj h1)⟩
              · exact ⟨m, List.mem_cons_of_mem _ hm, hmq, hid⟩
            · intro c hc
              cases hc
              exact le_trans (h2 _ rfl) (Nat.le_of_lt hlt)
            · intro m hm hmq
              rcases List.mem_cons.1 hm with rfl | hm
              · exact h2 _ rfl
              · exact h3 m hm hmq
        · rw [if_neg hlt]
          obtain ⟨ih1, ih2⟩ := ih (some c0)
          refine ⟨?_, ?_⟩
          · constructor
            · intro h
              exact absurd (ih1.1 h).1 (by simp)
            · rintro ⟨h, -⟩
              exact absurd h (by simp)
          · intro b hb
            obtain ⟨h1, h2, h3⟩ := ih2 b hb
            refine ⟨?_, h2, ?_⟩
            · rcases h1 with h1 | ⟨m, hm, hmq, hid⟩
              · exact Or.inl h1
              · exact Or.inr ⟨m, List.mem_cons_of_mem _ hm, hmq, hid⟩
            · intro m hm hmq
              rcases List.mem_cons.1 hm with rfl | hm
              · exact le_trans (h2 _ rfl) (Nat.le_of_not_lt hlt)
              · exact h3 m hm hmq
    · have hq2 : hasDeletableBody g msg = false := by simpa using hq
      simp only [hq2, Bool.false_eq_true, if_false]
      obtain ⟨ih1, ih2⟩ := ih cur
      refine ⟨?_, ?_⟩
      · rw [ih1]
        constructor
        · rintro ⟨h1, h2⟩
          refine ⟨h1, fun m hm => ?_⟩
          rcases List.mem_cons.1 hm with rfl | hm
          · exact hq2
          · exact h2 m hm
        · rintro ⟨h1, h2⟩
          exact ⟨h1, fun m hm => h2 m (List.mem_cons_of_mem _ hm)⟩
      · intro b hb
        obtain ⟨h1, h2, h3⟩ := ih2 b hb
        refine ⟨?_, h2, ?_⟩
        · rcases h1 with h1 | ⟨m, hm, hmq, hid⟩
          · exact Or.inl h1
          · exact Or.inr ⟨m, List.mem_cons_of_mem _ hm, hmq, hid⟩
        · intro m hm hmq
          rcases List.mem_cons.1 hm with rfl | hm
          · rw [hq2] at hmq
            exact absurd hmq (by decide)
          · exact h3 m hm hmq

theorem markSuperseded_hasBody (g : Context) (msg m : MessageUnboxed)
    (h : hasDeletableBody g (markSuperseded msg m) = true) : hasDeletableBody g m = true := by
  cases m with
  | Valid mv =>
    simp only [markSuperseded] at h
    by_cases hd : msg.GetMessageType = MessageType.DELETE
    · rw [if_pos hd] at h
      simp [hasDeletableBody, MessageBody.IsNil] at h
    · rw [if_neg hd] at h
      exact h
  | Error e => exact h
  | Outbox o => exact h
  | Placeholder p => exact h

theorem passEffect_hasBody (g : Context) (msgs : List MessageUnboxed) (i : MessageID)
    (m : MessageUnboxed) (h : hasDeletableBody g (passEffect g msgs i m) = true) :
    hasDeletableBody g m = true := by
  induction msgs generalizing m with
  | nil => exact h
  | cons msg rest ih =>
    rw [passEffect] at h
    have := ih _ h
    split at this
    · exact markSuperseded_hasBody g msg m this
    · exact this

theorem clearByDeleteHistory_hasBody (g : Context) (source : MessageUnboxedValid)
    (m : MessageUnboxed) (h : hasDeletableBody g (clearByDeleteHistory g source m) = true) :
    hasDeletableBody g m = true := by
  unfold clearByDeleteHistory at h
  split at h
  · exact h
  · cases m with
    | Valid mv =>
      simp only [] at h
      split at h
      · exact h
      · simp [hasDeletableBody, MessageBody.IsNil] at h
    | Error e => exact h
    | Outbox o => exact h
    | Placeholder p => exact h

/-- The delete-history pass leaves `MinDeletableMessage` alone. -/
theorem handleDeleteHistory_minDeletableOf (g : Context) (w : World)
    (msgs : List MessageUnboxed) :
    minDeletableOf (handleDeleteHistory (New g) w msgs).1 = minDeletableOf w := by
  rw [handleDeleteHistory_New]
  cases delhActive msgs none with
  | none => rfl
  | some act =>
    cases hd : w.delh with
    | none =>
      simp only []
      unfold minDeletableOf
      rw [applyDeleteHistory_delh, hd]
      rfl
    | some mem =>
      simp only []
      split
      · rfl
      · split
        · simp [minDeletableOf, hd]
        · unfold minDeletableOf
          rw [applyDeleteHistory_delh, hd]
          rfl

/-- The delete-history pass gives no stored record a body it did not have. -/
theorem handleDeleteHistory_hasBody (g : Context) (w : World) (msgs : List MessageUnboxed)
    (i : MessageID) (m : MessageUnboxed)
    (hl : lookup (handleDeleteHistory (New g) w msgs).1.blocks i = some m)
    (hb : hasDeletableBody g m = true) :
    ∃ x, lookup w.blocks i = some x ∧ hasDeletableBody g x = true := by
  rw [handleDeleteHistory_New] at hl
  cases ha : delhActive msgs none with
  | none =>
    rw [ha] at hl
    exact ⟨m, hl, hb⟩
  | some act =>
    rw [ha] at hl
    have hpos := delhActive_pos msgs act ha
    have happ : lookup (applyDeleteHistory (New g) w act.source act.delh).1.blocks i = some m →
        ∃ x, lookup w.blocks i = some x ∧ hasDeletableBody g x = true := by
      intro h1
      rw [lookup_applyDeleteHistory g _ _ _ hpos] at h1
      split at h1
      · cases hx : lookup w.blocks i with
        | none =>
          rw [hx] at h1
          cases h1
        | some x =>
          rw [hx, Option.map_some', Option.some.injEq] at h1
          rw [← h1] at hb
          exact ⟨x, rfl, clearByDeleteHistory_hasBody g _ x hb⟩
      · exact ⟨m, h1, hb⟩
    cases hd : w.delh with
    | none =>
      rw [hd] at hl
      exact happ hl
    | some mem =>
      rw [hd] at hl
      simp only [] at hl
      split at hl
      · exact ⟨m, hl, hb⟩
      · split at hl
        · exact ⟨m, hl, hb⟩
        · exact happ hl

theorem minDeletableEntry_eq_min (delh : Option delhTrackerEntry) (bb : MessageID) :
    minDeletableEntry delh (some bb) =
      some { (delh.getD newEntry) with
        MinDeletableMessage :=
          if (delh.getD newEntry).MinDeletableMessage = 0 then bb
          else min (delh.getD newEntry).MinDeletableMessage bb } := by
  cases delh with
  | none => simp [minDeletableEntry, newEntry]
  | some mem =>
    simp only [minDeletableEntry, Option.getD_some]
    by_cases hc : mem.MinDeletableMessage > 0 ∧ bb ≥ mem.MinDeletableMessage
    · rw [if_pos hc, if_neg (Nat.pos_iff_ne_zero.1 hc.1), min_eq_left hc.2]
    · rw [if_neg hc]
      by_cases h0 : mem.MinDeletableMessage = 0
      · rw [if_pos h0]
      · rw [if_neg h0]
        have hlt : bb < mem.MinDeletableMessage := by
          by_contra hge
          exact hc ⟨Nat.pos_of_ne_zero h0, Nat.le_of_not_lt hge⟩
        rw [min_eq_right (Nat.le_of_lt hlt)]

theorem minDeletableOf_getD (w : World) :
    (w.delh.getD newEntry).MinDeletableMessage = minDeletableOf w := by
  unfold minDeletableOf
  cases w.delh <;> rfl

/-- The tracked minimum after the tracker update of `Merge`. -/
theorem minDeletableOf_stageMin (g : Context) (w : World) (msgs : List MessageUnboxed) :
    minDeletableOf (stageMin g w msgs) =
      match minDeletableMessageBatch (New g) msgs none with
      | none => minDeletableOf w
      | some bb => if minDeletableOf w = 0 then bb else min (minDeletableOf w) bb := by
  have hd := stageMin_delh g w msgs
  cases hb : minDeletableMessageBatch (New g) msgs none with
  | none =>
    rw [hb] at hd
    simp only [minDeletableEntry] at hd
    simp only [minDeletableOf, hd]
  | some bb =>
    rw [hb, minDeletableEntry_eq_min] at hd
    simp only []
    rw [← minDeletableOf_getD w]
    simp only [minDeletableOf, hd]

/-- A record with a body after the supersedes pass was written by the batch with
that body or was stored with it before. -/
theorem lookup_stageSupersede_hasBody (g : Context) (w : World) (msgs : List MessageUnboxed)
    (i : MessageID) (m : MessageUnboxed) (hi : 0 < i)
    (hl : lookup (stageSupersede g w msgs).blocks i = some m)
    (hb : hasDeletableBody g m = true) :
    (∃ x ∈ msgs, x.GetMessageID = i ∧ hasDeletableBody g x = true) ∨
    (∃ x, lookup w.blocks i = some x ∧ hasDeletableBody g x = true) := by
  rw [lookup_stageSupersede, if_pos hi] at hl
  cases hx : (lookup msgs.reverse i).or (lookup w.blocks i) with
  | none =>
    rw [hx] at hl
    cases hl
  | some x =>
    rw [hx, Option.map_some', Option.some.injEq] at hl
    rw [← hl] at hb
    have hxb := passEffect_hasBody g msgs i x hb
    cases hr : lookup msgs.reverse i with
    | some y =>
      rw [hr, Option.or_some, Option.some.injEq] at hx
      subst hx
      refine Or.inl ⟨y, ?_, lookup_id hr, hxb⟩
      have := List.mem_of_find?_eq_some hr
      simpa using this
    | none =>
      rw [hr, Option.none_or] at hx
      exact Or.inr ⟨x, hx, hxb⟩

theorem invariantI5_stageMin (g : Context) (w : World) (msgs : List MessageUnboxed)
    (hI5 : invariantI5 g w) (hT : minDeletableTracked g w) :
    invariantI5 g (stageMin g w msgs) := by
  intro hpos i m hi hl hb
  rw [stageMin_blocks] at hl
  rw [minDeletableOf_stageMin] at hpos ⊢
  obtain ⟨hnone, hsome⟩ := minDeletableMessageBatch_spec g msgs none
  rcases lookup_stageSupersede_hasBody g w msgs i m hi hl hb with ⟨x, hx, hid, hxb⟩ | ⟨x, hx, hxb⟩
  · cases hbatch : minDeletableMessageBatch (New g) msgs none with
    | none =>
      have := (hnone.1 hbatch).2 x hx
      rw [hxb] at this
      exact absurd this (by decide)
    | some bb =>
      obtain ⟨-, -, hmin⟩ := hsome bb hbatch
      have hle : bb ≤ i := hid ▸ hmin x hx hxb
      simp only []
      split
      · exact hle
      · exact le_trans (min_le_right _ _) hle
  · have hm0 : minDeletableOf w ≠ 0 := by
      intro h0
      have := hT h0 i x hi hx
      rw [hxb] at this
      exact absurd this (by decide)
    have hle : minDeletableOf w ≤ i := hI5 (Nat.pos_of_ne_zero hm0) i x hi hx hxb
    cases hbatch : minDeletableMessageBatch (New g) msgs none with
    | none => exact hle
    | some bb =>
      simp only []
      rw [if_neg hm0]
      exact le_trans (min_le_left _ _) hle

theorem minDeletableTracked_stageMin (g : Context) (w : World) (msgs : List MessageUnboxed)
    (hT : minDeletableTracked g w)
    (hids : ∀ m ∈ msgs, hasDeletableBody g m = true → 0 < m.GetMessageID) :
    minDeletableTracked g (stageMin g w msgs) := by
  intro hzero i m hi hl
  rw [stageMin_blocks] at hl
  rw [minDeletableOf_stageMin] at hzero
  obtain ⟨hnone, hsome⟩ := minDeletableMessageBatch_spec g msgs none
  by_contra hb
  have hb2 : hasDeletableBody g m = true := by simpa using hb
  cases hbatch : minDeletableMessageBatch (New g) msgs none with
  | none =>
    rw [hbatch] at hzero
    simp only [] at hzero
    rcases lookup_stageSupersede_hasBody g w msgs i m hi hl hb2 with
      ⟨x, hx, -, hxb⟩ | ⟨x, hx, hxb⟩
    · have := (hnone.1 hbatch).2 x hx
      rw [hxb] at this
      exact absurd this (by decide)
    · have := hT hzero i x hi hx
      rw [hxb] at this
      exact absurd this (by decide)
  | some bb =>
    rw [hbatch] at hzero
    simp only [] at hzero
    obtain ⟨hfrom, -, -⟩ := hsome bb hbatch
    rcases hfrom with hfrom | ⟨x, hx, hxb, hid⟩
    · cases hfrom
    · have hbbpos : 0 < bb := hid ▸ hids x hx hxb
      by_cases h0 : minDeletableOf w = 0
      · rw [if_pos h0] at hzero
        rw [hzero] at hbbpos
        exact absurd hbbpos (Nat.lt_irrefl 0)
      · rw [if_neg h0] at hzero
        rcases Nat.le_total (minDeletableOf w) bb with hle | hle
        · rw [min_eq_left hle] at hzero
          exact h0 hzero
        · rw [min_eq_right hle] at hzero
          rw [hzero] at hbbpos
          exact absurd hbbpos (Nat.lt_irrefl 0)

theorem invariantI5_handleDeleteHistory (g : Context) (w : World) (msgs : List MessageUnboxed)
    (h : invariantI5 g w) : invariantI5 g (handleDeleteHistory (New g) w msgs).1 := by
  intro hpos i m hi hl hb
  rw [handleDeleteHistory_minDeletableOf] at hpos ⊢
  obtain ⟨x, hx, hxb⟩ := handleDeleteHistory_hasBody g w msgs i m hl hb
  exact h hpos i x hi hx hxb

theorem minDeletableTracked_handleDeleteHistory (g : Context) (w : World)
    (msgs : List MessageUnboxed) (h : minDeletableTracked g w) :
    minDeletableTracked g (handleDeleteHistory (New g) w msgs).1 := by
  intro hzero i m hi hl
  rw [handleDeleteHistory_minDeletableOf] at hzero
  by_contra hb
  obtain ⟨x, hx, hxb⟩ := handleDeleteHistory_hasBody g w msgs i m hl (by simpa using hb)
  have := h hzero i x hi hx
  rw [hxb] at this
  exact absurd this (by decide)

theorem minDeletableOf_mergedWorld (g : Context) (w : World) (msgs : List MessageUnboxed) :
    minDeletableOf (mergedWorld g w msgs) = minDeletableOf (stageDelh g w msgs) := by
  unfold minDeletableOf
  rw [mergedWorld_delh]

/-! ### The scan driven by `Simple` -/

/-- With no gap among the ids it has to visit, the scan driven by `Simple` collects
the records stored at `maxID, maxID - 1, …` until it has `r` more or reaches id 1. -/
theorem readMessagesFrom_simple_full (b : List MessageUnboxed) (maxID : Nat)
    (acc : List MessageUnboxed) (n : Int) (r : Nat)
    (hn : n = (acc.length : Int) + (r : Int))
    (hfull : ∀ j, j < min r maxID → (lookup b (maxID - j)).isSome = true) :
    ∃ L, readMessagesFrom b maxID (.Simple acc n) = (.Simple (acc ++ L) n, none) ∧
      L.map some = (List.range (min r maxID)).map (fun j => lookup b (maxID - j)) := by
  induction maxID generalizing acc r with
  | zero => exact ⟨[], by simp [readMessagesFrom], by simp⟩
  | succ m ih =>
    have hnn : ¬ n < 0 := by omega
    by_cases hr0 : r = 0
    · subst hr0
      have hdone : (ResultCollector.Simple acc n).Done = true := by
        simp only [ResultCollector.Done, hnn, if_false, decide_eq_true_eq]
        omega
      rw [readMessagesFrom_done b _ _ hdone]
      exact ⟨[], by simp, by simp⟩
    · have hnd : (ResultCollector.Simple acc n).Done = false := by
        simp only [ResultCollector.Done, hnn, if_false, decide_eq_false_iff_not]
        omega
      have hk : 0 < min r (m + 1) := by
        rw [Nat.lt_min]
        exact ⟨Nat.pos_of_ne_zero hr0, Nat.succ_pos m⟩
      have h0 := hfull 0 hk
      cases hx : lookup b (m + 1) with
      | none =>
        rw [Nat.sub_zero, hx] at h0
        cases h0
      | some x =>
        rw [readMessagesFrom, hnd, hx]
        simp only [Bool.false_eq_true, if_false, ResultCollector.Push]
        obtain ⟨L, hL, hmap⟩ := ih (acc ++ [x]) (r - 1)
          (by rw [List.length_append, List.length_singleton]; omega)
          (by
            intro j hj
            have := hfull (j + 1) (by omega)
            rw [Nat.add_sub_add_right] at this
            exact this)
        refine ⟨x :: L, ?_, ?_⟩
        · rw [hL, List.append_assoc]
          rfl
        · have hmin : min r (m + 1) = min (r - 1) m + 1 := by omega
          rw [hmin, List.range_succ_eq_map, List.map_cons, List.map_cons, hmap, Nat.sub_zero, hx,
            List.map_map]
          congr 1
          apply List.map_congr_left
          intro j _
          simp only [Function.comp]
          rw [Nat.succ_eq_add_one, Nat.add_sub_add_right]

/-- A gap met before `Simple` is done ends the scan with `MissError` for that id,
after the records stored above it were collected. -/
theorem readMessagesFrom_simple_gap (b : List MessageUnboxed) (maxID : Nat)
    (acc : List MessageUnboxed) (t : Int) (d : Nat) (hd : d < maxID)
    (hfull : ∀ j, j < d → (lookup b (maxID - j)).isSome = true)
    (hgap : lookup b (maxID - d) = none)
    (ht : t < 0 ∨ (acc.length : Int) + (d : Int) < t) :
    ∃ L, readMessagesFrom b maxID (.Simple acc t) =
        (.Simple (acc ++ L) t, some (Error.MissError (maxID - d))) ∧
      L.map some = (List.range d).map (fun j => lookup b (maxID - j)) := by
  induction maxID generalizing acc d with
  | zero => exact absurd hd (Nat.not_lt_zero _)
  | succ m ih =>
    have hnd : (ResultCollector.Simple acc t).Done = false := by
      simp only [ResultCollector.Done]
      by_cases htn : t < 0
      · rw [if_pos htn]
      · rw [if_neg htn]
        have hlt : ¬ (acc.length : Int) ≥ t := by
          rcases ht with ht | ht
          · exact absurd ht htn
          · omega
        exact decide_eq_false hlt
    cases d with
    | zero =>
      rw [Nat.sub_zero] at hgap
      rw [readMessagesFrom, hnd, hgap]
      exact ⟨[], by simp [ResultCollector.PushPlaceholder], by simp⟩
    | succ d1 =>
      have h0 := hfull 0 (Nat.succ_pos _)
      cases hx : lookup b (m + 1) with
      | none =>
        rw [Nat.sub_zero, hx] at h0
        cases h0
      | some x =>
        rw [readMessagesFrom, hnd, hx]
        simp only [Bool.false_eq_true, if_false, ResultCollector.Push]
        obtain ⟨L, hL, hmap⟩ := ih (acc ++ [x]) d1 (by omega)
          (by
            intro j hj
            have := hfull (j + 1) (by omega)
            rw [Nat.add_sub_add_right] at this
            exact this)
          (by rw [← Nat.add_sub_add_right m 1 d1]; exact hgap)
          (by
            rcases ht with ht | ht
            · exact Or.inl ht
            · right
              rw [List.length_append, List.length_singleton]
              push_cast at ht ⊢
              omega)
        refine ⟨x :: L, ?_, ?_⟩
        · rw [hL, List.append_assoc, Nat.add_sub_add_right]
          rfl
        · rw [List.range_succ_eq_map, List.map_cons, List.map_cons, hmap, Nat.sub_zero, hx,
            List.map_map]
          congr 1
          apply List.map_congr_left
          intro j _
          simp only [Function.comp]
          rw [Nat.succ_eq_add_one, Nat.add_sub_add_right]

theorem New_ReadMessages (g : Context) (w : World) (rc : ResultCollector) (maxID : MessageID) :
    (New g).engine.ReadMessages w rc maxID =
      match readMessagesFrom w.blocks maxID rc with
      | (rc1, some err) => (rc1, rc1.Error err)
      | (rc1, none) => (rc1, none) := rfl
/-! ### The scan driven by `Holey` over `Simple` -/

/-- What the scan driven by `Holey(H, Simple(n))` adds to the result, from any
state of the two collectors: the placeholders it adds stand for gaps at or below
`maxID` and fit in the holes that are left, and for `n ≥ 0` everything it adds fits
in what `Simple` still wants. -/
theorem readMessagesFrom_holey (b : List MessageUnboxed)
    (hstore : ∀ i m, lookup b i = some m → m.IsPlaceholder = false)
    (maxID : Nat) (acc : List MessageUnboxed) (n H holes : Int) :
    ∃ L holes1 err,
      readMessagesFrom b maxID (.Holey (.Simple acc n) H holes) =
        (.Holey (.Simple (acc ++ L) n) H holes1, err) ∧
      (∀ p ∈ L, p.IsPlaceholder = true →
        ∃ i, p = .Placeholder { MessageID := i } ∧ 0 < i ∧ i ≤ maxID ∧ lookup b i = none) ∧
      ((L.countP MessageUnboxed.IsPlaceholder : Int) ≤ max 0 (H - holes)) ∧
      (0 ≤ n → (L.length : Int) ≤ max 0 (n - (acc.length : Int))) := by
  induction maxID generalizing acc holes with
  | zero =>
    refine ⟨[], holes, none, by simp [readMessagesFrom], by simp, ?_, ?_⟩
    · simp
    · intro _
      simp
  | succ m ih =>
    by_cases hdone : (ResultCollector.Holey (.Simple acc n) H holes).Done = true
    · refine ⟨[], holes, none, ?_, by simp, ?_, ?_⟩
      · rw [readMessagesFrom_done b _ _ hdone, List.append_nil]
      · simp
      · intro _
        simp
    · have hnd : (ResultCollector.Holey (.Simple acc n) H holes).Done = false := by
        simpa using hdone
      have hroom : 0 ≤ n → (acc.length : Int) < n := by
        intro hn
        simp only [ResultCollector.Done] at hnd
        rw [if_neg (by omega)] at hnd
        have := of_decide_eq_false hnd
        omega
      cases hx : lookup b (m + 1) with
      | some x =>
        have hxp : x.IsPlaceholder = false := hstore _ _ hx
        obtain ⟨L, holes1, err, hL, hph, hcp, hcs⟩ := ih (acc ++ [x]) holes
        refine ⟨x :: L, holes1, err, ?_, ?_, ?_, ?_⟩
        · rw [readMessagesFrom, hnd, hx]
          simp only [Bool.false_eq_true, if_false, ResultCollector.Push]
          rw [hL, List.append_assoc]
          rfl
        · intro p hp hpp
          rcases List.mem_cons.1 hp with rfl | hp
          · rw [hxp] at hpp
            exact absurd hpp (by decide)
          · obtain ⟨i, h1, h2, h3, h4⟩ := hph p hp hpp
            exact ⟨i, h1, h2, Nat.le_succ_of_le h3, h4⟩
        · rw [List.countP_cons_of_neg _ _ (by simp [hxp])]
          exact hcp
        · intro hn
          have hcs2 := hcs hn
          have hr := hroom hn
          rw [List.length_append, List.length_singleton] at hcs2
          rw [List.length_cons]
          push_cast at hcs2 ⊢
          omega
      | none =>
        by_cases hfull : holes ≥ H
        · refine ⟨[], holes, some (Error.MissError (m + 1)), ?_, by simp, ?_, ?_⟩
          · rw [readMessagesFrom, hnd, hx]
            simp [ResultCollector.PushPlaceholder, hfull]
          · simp
          · intro _
            simp
        · obtain ⟨L, holes1, err, hL, hph, hcp, hcs⟩ :=
            ih (acc ++ [.Placeholder { MessageID := m + 1 }]) (holes + 1)
          refine ⟨.Placeholder { MessageID := m + 1 } :: L, holes1, err, ?_, ?_, ?_, ?_⟩
          · rw [readMessagesFrom, hnd, hx]
            simp only [Bool.false_eq_true, if_false, ResultCollector.PushPlaceholder, hfull,
              ResultCollector.Push]
            rw [hL, List.append_assoc]
            rfl
          · intro p hp hpp
            rcases List.mem_cons.1 hp with rfl | hp
            · exact ⟨m + 1, rfl, Nat.succ_pos m, le_refl _, hx⟩
            · obtain ⟨i, h1, h2, h3, h4⟩ := hph p hp hpp
              exact ⟨i, h1, h2, Nat.le_succ_of_le h3, h4⟩
          · rw [List.countP_cons_of_pos _ _ (by rfl)]
            push_cast
            omega
          · intro hn
            have hcs2 := hcs hn
            have hr := hroom hn
            rw [List.length_append, List.length_singleton] at hcs2
            rw [List.length_cons]
            push_cast at hcs2 ⊢
            omega


/-! ### The query engine -/

theorem ReadMessages_one_miss (g : Context) (w : World) (t : MessageID) (ht : 0 < t)
    (h : lookup w.blocks t = none) :
    (New g).engine.ReadMessages w (NewSimpleResultCollector 1) t =
      (.Simple [] 1, some (Error.MissError t)) := by
  rw [New_ReadMessages, readMessagesFrom_simple_one]
  cases t with
  | zero => exact absurd ht (Nat.lt_irrefl 0)
  | succ k => simp [h, ResultCollector.Error]

/-- The loop of `FetchMessages` on the engine of `New`: one slot per positive id,
filled with the stored message or left absent. -/
theorem fetchMessagesLoop_New (g : Context) (w : World) (ids : List MessageID)
    (res : List (Option MessageUnboxed)) (hpos : ∀ i ∈ ids, 0 < i) :
    fetchMessagesLoop (New g) w ids res =
      some (w, res ++ ids.map (fun i => lookup w.blocks i), none) := by
  induction ids generalizing res with
  | nil => simp [fetchMessagesLoop]
  | cons i rest ih =>
    have hi : 0 < i := hpos i (List.mem_cons_self _ _)
    have hrest : ∀ j ∈ rest, 0 < j := fun j hj => hpos j (List.mem_cons_of_mem _ hj)
    rw [fetchMessagesLoop]
    cases hl : lookup w.blocks i with
    | none =>
      rw [ReadMessages_one_miss g w i hi hl]
      simp only []
      rw [ih _ hrest, List.map_cons, hl, List.append_assoc]
      rfl
    | some m =>
      rw [ReadMessages_one g w i m hi hl]
      simp only [ResultCollector.Result]
      rw [ih _ hrest, List.map_cons, hl, List.append_assoc]
      rfl

/-- Reading one id with `Simple(1)` returns a message only when the id is positive
and that message is stored under it. -/
theorem ReadMessages_one_inv (g : Context) (w : World) (t : MessageID) (m : MessageUnboxed)
    (h : (New g).engine.ReadMessages w (NewSimpleResultCollector 1) t = (.Simple [m] 1, none)) :
    0 < t ∧ lookup w.blocks t = some m := by
  rw [New_ReadMessages, readMessagesFrom_simple_one] at h
  cases t with
  | zero =>
    simp only [Prod.mk.injEq, ResultCollector.Simple.injEq] at h
    exact absurd h.1.1 (by simp)
  | succ k =>
    cases hl : lookup w.blocks (k + 1) with
    | none =>
      rw [hl] at h
      simp only [ResultCollector.Error] at h
      have := congrArg Prod.snd h
      simp at this
    | some x =>
      rw [hl] at h
      simp only [Prod.mk.injEq, ResultCollector.Simple.injEq, List.cons.injEq, and_true] at h
      exact ⟨Nat.succ_pos k, by rw [h]⟩

theorem foldl_Push_typed (msgs acc : List MessageUnboxed) (n cur : Int)
    (typmap : MessageType → Bool) :
    msgs.foldl ResultCollector.Push (.Typed acc n cur typmap) =
      .Typed (acc ++ msgs) n
        (cur + (msgs.countP (fun m => typmap m.GetMessageType) : Int)) typmap := by
  induction msgs generalizing acc cur with
  | nil => simp
  | cons m rest ih =>
    rw [List.foldl_cons, ResultCollector.Push, ih]
    by_cases hm : typmap m.GetMessageType = true
    · rw [if_pos hm]
      simp only [List.countP_cons, hm, if_true, List.append_assoc, List.singleton_append,
        ResultCollector.Typed.injEq, true_and, and_true]
      push_cast
      omega
    · rw [if_neg hm]
      simp only [List.countP_cons, hm, if_false, List.append_assoc, List.singleton_append,
        ResultCollector.Typed.injEq, true_and, and_true, Bool.false_eq_true]
      push_cast
      omega

/-- The stored ids after the raw write. -/
theorem lookup_stageWrite_isSome (g : Context) (w : World) (msgs : List MessageUnboxed)
    (i : MessageID) :
    (lookup (stageWrite g w msgs).blocks i).isSome = true ↔
      (lookup w.blocks i).isSome = true ∨ ∃ m ∈ msgs, m.GetMessageID = i := by
  rw [lookup_stageWrite]
  cases hb : lookup msgs.reverse i with
  | some m =>
    simp only [Option.or_some, Option.isSome_some, true_iff]
    refine Or.inr ⟨m, ?_, lookup_id hb⟩
    have := List.mem_of_find?_eq_some hb
    simpa using this
  | none =>
    rw [Option.none_or]
    constructor
    · exact Or.inl
    · rintro (h | ⟨m, hm, hid⟩)
      · exact h
      · exfalso
        unfold lookup at hb
        rw [List.find?_eq_none] at hb
        have := hb m (List.mem_reverse.2 hm)
        simp [hid] at this

/-- The supersedes pass keeps the set of stored ids. -/
theorem lookup_stageSupersede_isSome (g : Context) (w : World) (msgs : List MessageUnboxed)
    (i : MessageID) :
    (lookup (stageSupersede g w msgs).blocks i).isSome =
      (lookup (stageWrite g w msgs).blocks i).isSome := by
  rw [lookup_stageSupersede, lookup_stageWrite]
  split
  · rw [Option.isSome_map']
  · rfl

/-- The delete-history pass keeps the set of stored ids. -/
theorem lookup_handleDeleteHistory_isSome (g : Context) (w : World)
    (msgs : List MessageUnboxed) (i : MessageID) :
    (lookup (handleDeleteHistory (New g) w msgs).1.blocks i).isSome =
      (lookup w.blocks i).isSome := by
  rw [handleDeleteHistory_New]
  cases ha : delhActive msgs none with
  | none => rfl
  | some act =>
    have hpos := delhActive_pos msgs act ha
    have happ : (lookup (applyDeleteHistory (New g) w act.source act.delh).1.blocks i).isSome =
        (lookup w.blocks i).isSome := by
      rw [lookup_applyDeleteHistory g _ _ _ hpos]
      split
      · rw [Option.isSome_map']
      · rfl
    cases hd : w.delh with
    | none => exact happ
    | some mem =>
      simp only []
      split
      · rfl
      · split
        · rfl
        · exact happ

/-! ### The selection of the delete-history pass -/

/-- A message that fails one of the tests of the selection loop is skipped. -/
theorem delhActive_skip (msg : MessageUnboxed) (rest : List MessageUnboxed)
    (cur : Option delhTagged) (h : isDeleteHistory msg = false) :
    delhActive (msg :: rest) cur = delhActive rest cur := by
  cases msg with
  | Valid mvalid =>
    simp only [isDeleteHistory, Bool.and_eq_false_iff, decide_eq_false_iff_not] at h
    simp only [delhActive, MessageUnboxed.GetMessageType]
    by_cases ht : mvalid.ClientHeader.MessageType = MessageType.DELETEHISTORY
    · simp only [ht, ne_eq, not_true_eq_false, if_false]
      cases hb : mvalid.MessageBody.MessageType with
      | none => rfl
      | some bodyType =>
        simp only []
        by_cases hbt : bodyType = MessageType.DELETEHISTORY
        · subst hbt
          simp only [ne_eq, not_true_eq_false, if_false]
          have hu : mvalid.MessageBody.Deletehistory.Upto ≤ 0 := by
            rcases h with (h | h) | h
            · exact absurd ht h
            · exact absurd hb h
            · exact Nat.le_of_not_lt h
          rw [if_pos hu]
        · simp only [ne_eq, hbt, not_false_eq_true, if_true]
    · simp only [ne_eq, ht, not_false_eq_true, if_true]
  | Error e => rfl
  | Outbox o => rfl
  | Placeholder p => rfl

/-- A message that passes the tests replaces the running choice when there is none
or when its horizon is strictly larger. -/
theorem delhActive_take (mvalid : MessageUnboxedValid) (rest : List MessageUnboxed)
    (cur : Option delhTagged) (h : isDeleteHistory (.Valid mvalid) = true) :
    delhActive (.Valid mvalid :: rest) cur =
      delhActive rest
        (match cur with
          | none => some { source := mvalid, delh := mvalid.MessageBody.Deletehistory }
          | some act =>
            if mvalid.MessageBody.Deletehistory.Upto > act.delh.Upto then
              some { source := mvalid, delh := mvalid.MessageBody.Deletehistory }
            else some act) := by
  simp only [isDeleteHistory, Bool.and_eq_true, decide_eq_true_eq] at h
  obtain ⟨⟨ht, hb⟩, hu⟩ := h
  simp only [delhActive, MessageUnboxed.GetMessageType, ht, hb, ne_eq, not_true_eq_false,
    if_false]
  rw [if_neg (Nat.not_le_of_lt hu)]
  cases cur with
  | none => rfl
  | some act =>
    simp only []
    split <;> rfl

/-- The selection loop, from any running choice.  Nothing is selected exactly when
there was no running choice and no message passes the tests.  A selected directive
is either the running choice, which no message of the batch exceeds, or a message
of the batch that passes the tests, exceeds the running choice and every message
before it, and is not exceeded by any message after it. -/
theorem delhActive_spec (msgs : List MessageUnboxed) (cur : Option delhTagged) :
    (delhActive msgs cur = none ↔ cur = none ∧ ∀ m ∈ msgs, isDeleteHistory m = false) ∧
    ∀ act, delhActive msgs cur = some act →
      (cur = some act ∧ ∀ m ∈ msgs, isDeleteHistory m = true → uptoOf m ≤ act.delh.Upto) ∨
      (act.delh = act.source.MessageBody.Deletehistory ∧
        isDeleteHistory (.Valid act.source) = true ∧
        (∀ c, cur = some c → c.delh.Upto < act.delh.Upto) ∧
        ∃ pre post, msgs = pre ++ .Valid act.source :: post ∧
          (∀ m ∈ pre, isDeleteHistory m = true → uptoOf m < act.delh.Upto) ∧
          (∀ m ∈ post, isDeleteHistory m = true → uptoOf m ≤ act.delh.Upto)) := by
  induction msgs generalizing cur with
  | nil =>
    refine ⟨?_, ?_⟩
    · simp [delhActive]
    · intro act h
      exact Or.inl ⟨h, fun m hm => absurd hm (List.not_mem_nil m)⟩
  | cons msg rest ih =>
    by_cases hd : isDeleteHistory msg = true
    · cases msg with
      | Valid mvalid =>
        rw [delhActive_take mvalid rest cur hd]
        have hnone : ∀ a : delhTagged,
            (delhActive rest (some a) = none ↔
              cur = none ∧ ∀ m ∈ MessageUnboxed.Valid mvalid :: rest,
                isDeleteHistory m = false) := by
          intro a
          constructor
          · intro h
            have := ((ih (some a)).1.1 h).1
            cases this
          · rintro ⟨-, hall⟩
            have := hall _ (List.mem_cons_self _ _)
            rw [hd] at this
            cases this
        have htake : ∀ act, delhActive rest
              (some { source := mvalid, delh := mvalid.MessageBody.Deletehistory }) = some act →
            (∀ c, cur = some c → c.delh.Upto < mvalid.MessageBody.Deletehistory.Upto) →
            act.delh = act.source.MessageBody.Deletehistory ∧
              isDeleteHistory (.Valid act.source) = true ∧
              (∀ c, cur = some c → c.delh.Upto < act.delh.Upto) ∧
              ∃ pre post, MessageUnboxed.Valid mvalid :: rest =
                  pre ++ MessageUnboxed.Valid act.source :: post ∧
                (∀ m ∈ pre, isDeleteHistory m = true → uptoOf m < act.delh.Upto) ∧
                (∀ m ∈ post, isDeleteHistory m = true → uptoOf m ≤ act.delh.Upto) := by
          intro act h hc
          rcases (ih _).2 act h with ⟨he, hall⟩ | ⟨h1, h2, h3, pre, post, hsplit, hpre, hpost⟩
          · simp only [Option.some.injEq] at he
            subst he
            exact ⟨rfl, hd, hc, [], rest, rfl,
              fun m hm => absurd hm (List.not_mem_nil m), hall⟩
          · have hlt := h3 _ rfl
            refine ⟨h1, h2, fun c hcc => Nat.lt_trans (hc c hcc) hlt,
              MessageUnboxed.Valid mvalid :: pre, post, ?_, ?_, hpost⟩
            · rw [hsplit]
              rfl
            · intro m hm hm2
              rcases List.mem_cons.1 hm with rfl | hm
              · exact hlt
              · exact hpre m hm hm2
        cases cur with
        | none =>
          refine ⟨hnone _, fun act h => Or.inr (htake act h ?_)⟩
          intro c hc
          cases hc
        | some c0 =>
          simp only []
          by_cases hgt : mvalid.MessageBody.Deletehistory.Upto > c0.delh.Upto
          · rw [if_pos hgt]
            refine ⟨hnone _, fun act h => Or.inr (htake act h ?_)⟩
            intro c hc
            simp only [Option.some.injEq] at hc
            subst hc
            exact hgt
          · rw [if_neg hgt]
            have hle : mvalid.MessageBody.Deletehistory.Upto ≤ c0.delh.Upto :=
              Nat.le_of_not_lt hgt
            refine ⟨hnone _, fun act h => ?_⟩
            rcases (ih _).2 act h with
              ⟨he, hall⟩ | ⟨h1, h2, h3, pre, post, hsplit, hpre, hpost⟩
            · refine Or.inl ⟨he, fun m hm hm2 => ?_⟩
              simp only [Option.some.injEq] at he
              subst he
              rcases List.mem_cons.1 hm with rfl | hm
              · exact hle
              · exact hall m hm hm2
            · have hlt := h3 _ rfl
              refine Or.inr ⟨h1, h2, h3, MessageUnboxed.Valid mvalid :: pre, post, ?_, ?_, hpost⟩
              · rw [hsplit]
                rfl
              · intro m hm hm2
                rcases List.mem_cons.1 hm with rfl | hm
                · exact Nat.lt_of_le_of_lt hle hlt
                · exact hpre m hm hm2
      | Error e => exact absurd hd (by simp [isDeleteHistory])
      | Outbox o => exact absurd hd (by simp [isDeleteHistory])
      | Placeholder p => exact absurd hd (by simp [isDeleteHistory])
    · have hd : isDeleteHistory msg = false := by simpa using hd
      rw [delhActive_skip msg rest cur hd]
      obtain ⟨ih1, ih2⟩ := ih cur
      refine ⟨?_, ?_⟩
      · rw [ih1]
        constructor
        · rintro ⟨hc, hall⟩
          refine ⟨hc, fun m hm => ?_⟩
          rcases List.mem_cons.1 hm with rfl | hm
          · exact hd
          · exact hall m hm
        · rintro ⟨hc, hall⟩
          exact ⟨hc, fun m hm => hall m (List.mem_cons_of_mem _ hm)⟩
      · intro act h
        rcases ih2 act h with ⟨hc, hall⟩ | ⟨h1, h2, h3, pre, post, hsplit, hpre, hpost⟩
        · refine Or.inl ⟨hc, fun m hm hm2 => ?_⟩
          rcases List.mem_cons.1 hm with rfl | hm
          · rw [hd] at hm2
            cases hm2
          · exact hall m hm hm2
        · refine Or.inr ⟨h1, h2, h3, msg :: pre, post, ?_, ?_, hpost⟩
          · rw [hsplit]
            rfl
          · intro m hm hm2
            rcases List.mem_cons.1 hm with rfl | hm
            · rw [hd] at hm2
              cases hm2
            · exact hpre m hm hm2

/-! ### Local deletes -/

/-- Between two states that hold the same records no body was cleared. -/
theorem bodyCleared_same (before after : World) (h : after.blocks = before.blocks)
    (i : MessageID) : bodyCleared before after i = false := by
  unfold bodyCleared
  rw [h]
  cases lookup before.blocks i with
  | none => rfl
  | some m =>
    cases m with
    | Valid mvalid => simp
    | Error e => rfl
    | Outbox o => rfl
    | Placeholder p => rfl

/-- The half of the doc comment of `handleDeleteHistory` that the code keeps, on
the store of `New`: when the pass cleared the body of a stored message it returns
`true`. -/
theorem handleDeleteHistory_cleared_flag (g : Context) (w : World) (msgs : List MessageUnboxed)
    (i : MessageID) (h : bodyCleared w (handleDeleteHistory (New g) w msgs).1 i = true) :
    (handleDeleteHistory (New g) w msgs).2.1 = true := by
  cases hf : (handleDeleteHistory (New g) w msgs).2.1 with
  | true => rfl
  | false =>
    have hb : (handleDeleteHistory (New g) w msgs).1.blocks = w.blocks := by
      rcases handleDeleteHistory_false g w msgs hf with
        ⟨-, he⟩ | ⟨_, _, -, -, -, he⟩ | ⟨_, _, -, -, -, -, he⟩ <;> rw [he]
    rw [bodyCleared_same w _ hb i] at h
    cases h

/-! ### The store on the tracker with plain assignments -/

/-- The inner loop of the supersedes pass does not call the delete-history
tracker. -/
theorem supersedeTargets_plain (g : Context) (msg : MessageUnboxed) (ids : List MessageID)
    (w : World) :
    supersedeTargets (plainStorage g) msg ids w = supersedeTargets (New g) msg ids w := by
  induction ids generalizing w with
  | nil => rfl
  | cons sid rest ih =>
    have he : (plainStorage g).engine = (New g).engine := rfl
    simp only [supersedeTargets, he, ih]

theorem updateAllSupersededBy_plain (g : Context) (msgs : List MessageUnboxed) (w : World) :
    updateAllSupersededBy (plainStorage g) msgs w = updateAllSupersededBy (New g) msgs w := by
  induction msgs generalizing w with
  | nil => rfl
  | cons msg rest ih =>
    have hg : (plainStorage g).g = (New g).g := rfl
    simp only [updateAllSupersededBy, hg, ih, supersedeTargets_plain]

theorem minDeletableMessageBatch_plain (g : Context) (msgs : List MessageUnboxed)
    (cur : Option MessageID) :
    minDeletableMessageBatch (plainStorage g) msgs cur =
      minDeletableMessageBatch (New g) msgs cur := by
  induction msgs generalizing cur with
  | nil => rfl
  | cons msg rest ih =>
    have hg : (plainStorage g).g = (New g).g := rfl
    cases msg <;> simp only [minDeletableMessageBatch, hg, ih]

theorem updateMinDeletableMessage_plain (g : Context) (w : World) (msgs : List MessageUnboxed) :
    updateMinDeletableMessage (plainStorage g) w msgs =
      updateMinDeletableMessage (New g) w msgs := by
  unfold updateMinDeletableMessage
  rw [minDeletableMessageBatch_plain]
  rfl

/-- The apply step on the tracker with plain assignments: it returns `true`
without error and assigns `DeletedUpto`, leaving the two other fields. -/
theorem applyDeleteHistory_plain (g : Context) (w : World) (source : MessageUnboxedValid)
    (delh : MessageDeleteHistory) :
    (applyDeleteHistory (plainStorage g) w source delh).1.delh =
        some { (w.delh.getD newEntry) with DeletedUpto := delh.Upto } ∧
      (applyDeleteHistory (plainStorage g) w source delh).2 = (true, none) := by
  unfold applyDeleteHistory
  have hr : (plainStorage g).engine.ReadMessages w NewInsatiableResultCollector
        (predMessageID delh.Upto) =
      match readMessagesFrom w.blocks (predMessageID delh.Upto) NewInsatiableResultCollector with
      | (rc1, some err) => (rc1, rc1.Error err)
      | (rc1, none) => (rc1, none) := rfl
  rw [hr, NewInsatiableResultCollector, readMessagesFrom_insatiable]
  simp [plainStorage, New, newBlockEngine, plainDelhTracker, newDelhTracker]

/-- The delete-history pass on the tracker with plain assignments. -/
theorem handleDeleteHistory_plain (g : Context) (w : World) (msgs : List MessageUnboxed) :
    handleDeleteHistory (plainStorage g) w msgs =
      match delhActive msgs none with
      | none => (w, false, none)
      | some act =>
        match w.delh with
        | some mem =>
          if mem.MaxDeleteHistoryUpto ≥ act.delh.Upto then (w, false, none)
          else if act.delh.Upto < mem.MinDeletableMessage then
            ({ w with delh := some { mem with MaxDeleteHistoryUpto := act.delh.Upto } }, false, none)
          else applyDeleteHistory (plainStorage g) w act.source act.delh
        | none => applyDeleteHistory (plainStorage g) w act.source act.delh := by
  unfold handleDeleteHistory
  cases delhActive msgs none with
  | none => rfl
  | some act =>
    cases hd : w.delh with
    | none => simp [plainStorage, plainDelhTracker, New, newDelhTracker, hd]
    | some mem => simp [plainStorage, plainDelhTracker, New, newDelhTracker, hd]

theorem handleDeleteHistory_plain_ok (g : Context) (w : World) (msgs : List MessageUnboxed) :
    (handleDeleteHistory (plainStorage g) w msgs).2.2 = none := by
  rw [handleDeleteHistory_plain]
  have ha : ∀ act : delhTagged,
      (applyDeleteHistory (plainStorage g) w act.source act.delh).2.2 = none := by
    intro act
    rw [(applyDeleteHistory_plain g w act.source act.delh).2]
  cases delhActive msgs none with
  | none => rfl
  | some act =>
    cases w.delh with
    | none => exact ha act
    | some mem =>
      simp only []
      split
      · rfl
      · split
        · rfl
        · exact ha act

/-- The tracker entry after a successful `Merge` on the tracker with plain
assignments is the one the delete-history pass leaves. -/
theorem Merge_plain_delh {g : Context} {w w1 : World} {msgs : List MessageUnboxed}
    {res : MergeResult} (h : Merge (plainStorage g) w msgs = some (w1, res, none)) :
    w1.delh = (handleDeleteHistory (plainStorage g) (stageMin g w msgs) msgs).1.delh := by
  unfold Merge at h
  have hg : (plainStorage g).g = g := rfl
  rw [hg] at h
  cases hk : g.getSecretBoxKey w with
  | error ierr => simp [hk] at h
  | ok key =>
    have hi : (plainStorage g).engine.Init w key = none := rfl
    have hw : (plainStorage g).engine.WriteMessages w msgs = (stageWrite g w msgs, none) := rfl
    simp only [hk, hi] at h
    rw [hw] at h
    simp only [] at h
    obtain ⟨p1, -⟩ := updateAllSupersededBy_New g msgs (stageWrite g w msgs)
    have hp : updateAllSupersededBy (plainStorage g) msgs (stageWrite g w msgs) =
        (stageSupersede g w msgs, none) := by
      rw [updateAllSupersededBy_plain, ← p1]
      rfl
    rw [hp] at h
    simp only [] at h
    have hm : updateMinDeletableMessage (plainStorage g) (stageSupersede g w msgs) msgs =
        (stageMin g w msgs, none) := by
      rw [updateMinDeletableMessage_plain, stageMin, updateMinDeletableMessage_New]
    rw [hm] at h
    simp only [] at h
    have hok := handleDeleteHistory_plain_ok g (stageMin g w msgs) msgs
    cases hh : handleDeleteHistory (plainStorage g) (stageMin g w msgs) msgs with
    | mk w4 r =>
      cases r with
      | mk flag err =>
        rw [hh] at h hok
        simp only [] at hok
        subst hok
        simp only [] at h
        cases msgs with
        | nil =>
          simp only [Option.some.injEq, Prod.mk.injEq, and_true] at h
          rw [← h.1]
        | cons msg0 rest =>
          have hb : (plainStorage g).idtracker.bumpMaxMessageID w4 msg0.GetMessageID =
              ({ w4 with maxMsgID := some (max (w4.maxMsgID.getD 0) msg0.GetMessageID) }, none) :=
            rfl
          simp only [hb, Option.some.injEq, Prod.mk.injEq, and_true] at h
          rw [← h.1]

/-! ### The horizons of the delete-history tracker -/

theorem invariantI3_iff (w : World) :
    invariantI3 w ↔ deletedUptoOf w ≤ maxDeleteHistoryUptoOf w := by
  unfold invariantI3 deletedUptoOf maxDeleteHistoryUptoOf
  cases w.delh with
  | none => simp
  | some e => simp

/-- The update of the smallest deletable id leaves the two horizons. -/
theorem stageMin_horizons (g : Context) (w : World) (msgs : List MessageUnboxed) :
    maxDeleteHistoryUptoOf (stageMin g w msgs) = maxDeleteHistoryUptoOf w ∧
    deletedUptoOf (stageMin g w msgs) = deletedUptoOf w := by
  unfold maxDeleteHistoryUptoOf deletedUptoOf
  rw [stageMin_delh]
  cases he : minDeletableEntry w.delh (minDeletableMessageBatch (New g) msgs none) with
  | some e =>
    obtain ⟨h1, h2⟩ := minDeletableEntry_some _ _ e he
    simp only [h1, h2]
    cases w.delh <;> exact ⟨rfl, rfl⟩
  | none =>
    cases hb : minDeletableMessageBatch (New g) msgs none with
    | none =>
      rw [hb] at he
      simp only [minDeletableEntry] at he
      rw [he]
      exact ⟨rfl, rfl⟩
    | some b =>
      rw [hb] at he
      cases hd : w.delh with
      | none =>
        rw [hd] at he
        simp [minDeletableEntry] at he
      | some mem =>
        rw [hd] at he
        simp only [minDeletableEntry] at he
        split at he <;> cases he

/-- The delete-history pass, on the tracker of `New` and on the tracker with plain
assignments, never lowers `MaxDeleteHistoryUpto`, and never lowers `DeletedUpto`
from a state in which `DeletedUpto ≤ MaxDeleteHistoryUpto`. -/
theorem handleDeleteHistory_horizons (g : Context) (s : Storage)
    (hs : s = New g ∨ s = plainStorage g) (w : World) (msgs : List MessageUnboxed) :
    maxDeleteHistoryUptoOf w ≤ maxDeleteHistoryUptoOf (handleDeleteHistory s w msgs).1 ∧
    (deletedUptoOf w ≤ maxDeleteHistoryUptoOf w →
      deletedUptoOf w ≤ deletedUptoOf (handleDeleteHistory s w msgs).1) := by
  have happly : ∀ act : delhTagged,
      (w.delh = none ∨ maxDeleteHistoryUptoOf w < act.delh.Upto) →
      maxDeleteHistoryUptoOf w ≤ maxDeleteHistoryUptoOf (applyDeleteHistory s w act.source act.delh).1 ∧
      (deletedUptoOf w ≤ maxDeleteHistoryUptoOf w →
        deletedUptoOf w ≤ deletedUptoOf (applyDeleteHistory s w act.source act.delh).1) := by
    intro act hlt
    have hd : deletedUptoOf w ≤ maxDeleteHistoryUptoOf w → deletedUptoOf w ≤ act.delh.Upto := by
      intro hI3
      rcases hlt with hn | hlt
      · unfold deletedUptoOf
        rw [hn]
        exact Nat.zero_le _
      · exact Nat.le_of_lt (Nat.lt_of_le_of_lt hI3 hlt)
    rcases hs with rfl | rfl
    · have he := applyDeleteHistory_delh g w act.source act.delh
      refine ⟨?_, fun hI3 => ?_⟩
      · unfold maxDeleteHistoryUptoOf
        rw [he]
        cases w.delh with
        | none => exact Nat.zero_le _
        | some mem => exact le_max_left _ _
      · have := hd hI3
        unfold deletedUptoOf at this ⊢
        rw [he]
        exact this
    · have he := (applyDeleteHistory_plain g w act.source act.delh).1
      refine ⟨?_, fun hI3 => ?_⟩
      · unfold maxDeleteHistoryUptoOf
        rw [he]
        cases w.delh with
        | none => exact Nat.zero_le _
        | some mem => exact le_refl _
      · have := hd hI3
        unfold deletedUptoOf at this ⊢
        rw [he]
        exact this
  have hform : handleDeleteHistory s w msgs =
      match delhActive msgs none with
      | none => (w, false, none)
      | some act =>
        match w.delh with
        | some mem =>
          if mem.MaxDeleteHistoryUpto ≥ act.delh.Upto then (w, false, none)
          else if act.delh.Upto < mem.MinDeletableMessage then
            ({ w with delh := some { mem with MaxDeleteHistoryUpto := act.delh.Upto } }, false, none)
          else applyDeleteHistory s w act.source act.delh
        | none => applyDeleteHistory s w act.source act.delh := by
    rcases hs with rfl | rfl
    · exact handleDeleteHistory_New g w msgs
    · exact handleDeleteHistory_plain g w msgs
  rw [hform]
  cases delhActive msgs none with
  | none => exact ⟨le_refl _, fun _ => le_refl _⟩
  | some act =>
    cases hd : w.delh with
    | none =>
      exact happly act (Or.inl hd)
    | some mem =>
      simp only []
      by_cases h1 : mem.MaxDeleteHistoryUpto ≥ act.delh.Upto
      · rw [if_pos h1]
        exact ⟨le_refl _, fun _ => le_refl _⟩
      · rw [if_neg h1]
        have hlt : mem.MaxDeleteHistoryUpto < act.delh.Upto := Nat.lt_of_not_ge h1
        by_cases h2 : act.delh.Upto < mem.MinDeletableMessage
        · rw [if_pos h2]
          refine ⟨?_, fun _ => ?_⟩
          · simp only [maxDeleteHistoryUptoOf, hd]
            exact Nat.le_of_lt hlt
          · simp only [deletedUptoOf, hd]
            exact le_refl _
        · rw [if_neg h2]
          exact happly act (Or.inr (by
            unfold maxDeleteHistoryUptoOf
            rw [hd]
            exact hlt))

/-! ### Records mutated in place -/

theorem mutatedInPlace_refl (m : MessageUnboxed) : mutatedInPlace m m = true := by
  cases m <;> simp [mutatedInPlace]

theorem mutatedInPlace_id {m m1 : MessageUnboxed} (h : mutatedInPlace m m1 = true) :
    m1.GetMessageID = m.GetMessageID := by
  cases m with
  | Valid mv =>
    cases m1 with
    | Valid mv1 =>
      simp only [mutatedInPlace, Bool.and_eq_true, decide_eq_true_eq] at h
      exact h.1.2
    | Error e => simp [mutatedInPlace] at h
    | Outbox o => simp [mutatedInPlace] at h
    | Placeholder p => simp [mutatedInPlace] at h
  | Error e =>
    simp only [mutatedInPlace, decide_eq_true_eq] at h
    rw [h]
  | Outbox o =>
    simp only [mutatedInPlace, decide_eq_true_eq] at h
    rw [h]
  | Placeholder p =>
    simp only [mutatedInPlace, decide_eq_true_eq] at h
    rw [h]

theorem mutatedInPlace_trans {m m1 m2 : MessageUnboxed} (h1 : mutatedInPlace m m1 = true)
    (h2 : mutatedInPlace m1 m2 = true) : mutatedInPlace m m2 = true := by
  cases m with
  | Valid mv =>
    cases m1 with
    | Valid mv1 =>
      cases m2 with
      | Valid mv2 =>
        simp only [mutatedInPlace, Bool.and_eq_true, Bool.or_eq_true, decide_eq_true_eq,
          MessageBody.IsNil] at h1 h2 ⊢
        obtain ⟨⟨a1, b1⟩, c1⟩ := h1
        obtain ⟨⟨a2, b2⟩, c2⟩ := h2
        refine ⟨⟨a2.trans a1, b2.trans b1⟩, ?_⟩
        rcases c2 with c2 | c2
        · rcases c1 with c1 | c1
          · exact Or.inl (c2.trans c1)
          · exact Or.inr (c2.trans c1)
        · exact Or.inr c2
      | Error e => simp [mutatedInPlace] at h2
      | Outbox o => simp [mutatedInPlace] at h2
      | Placeholder p => simp [mutatedInPlace] at h2
    | Error e => simp [mutatedInPlace] at h1
    | Outbox o => simp [mutatedInPlace] at h1
    | Placeholder p => simp [mutatedInPlace] at h1
  | Error e =>
    simp only [mutatedInPlace, decide_eq_true_eq] at h1
    subst h1
    exact h2
  | Outbox o =>
    simp only [mutatedInPlace, decide_eq_true_eq] at h1
    subst h1
    exact h2
  | Placeholder p =>
    simp only [mutatedInPlace, decide_eq_true_eq] at h1
    subst h1
    exact h2

/-- The marks of the supersedes pass mutate a record in place. -/
theorem mutatedInPlace_passEffect (g : Context) (msgs : List MessageUnboxed) (i : MessageID)
    (m : MessageUnboxed) : mutatedInPlace m (passEffect g msgs i m) = true := by
  cases m with
  | Valid mv =>
    rw [passEffect_valid]
    simp only [mutatedInPlace, decide_True, Bool.true_and, Bool.or_eq_true, decide_eq_true_eq,
      MessageBody.IsNil]
    exact bodyAfter_cases g msgs i mv.MessageBody
  | Error e =>
    rw [passEffect_not_valid g msgs i (.Error e) rfl]
    exact mutatedInPlace_refl _
  | Outbox o =>
    rw [passEffect_not_valid g msgs i (.Outbox o) rfl]
    exact mutatedInPlace_refl _
  | Placeholder p =>
    rw [passEffect_not_valid g msgs i (.Placeholder p) rfl]
    exact mutatedInPlace_refl _

/-- The apply step of a delete-history mutates a record in place. -/
theorem mutatedInPlace_clearByDeleteHistory (g : Context) (source : MessageUnboxedValid)
    (m : MessageUnboxed) : mutatedInPlace m (clearByDeleteHistory g source m) = true := by
  unfold clearByDeleteHistory
  split
  · exact mutatedInPlace_refl _
  · cases m with
    | Valid mv =>
      simp only []
      split
      · exact mutatedInPlace_refl _
      · simp [mutatedInPlace, MessageBody.IsNil]
    | Error e => exact mutatedInPlace_refl _
    | Outbox o => exact mutatedInPlace_refl _
    | Placeholder p => exact mutatedInPlace_refl _

/-- The supersedes pass of `Merge` leaves every record under its id, mutated in
place. -/
theorem lookup_stageSupersede_mutated (g : Context) (w : World) (msgs : List MessageUnboxed)
    (i : MessageID) (m : MessageUnboxed) (h : lookup (stageWrite g w msgs).blocks i = some m) :
    ∃ m1, lookup (stageSupersede g w msgs).blocks i = some m1 ∧ mutatedInPlace m m1 = true := by
  rw [lookup_stageWrite] at h
  rw [lookup_stageSupersede, h]
  by_cases hi : 0 < i
  · rw [if_pos hi]
    exact ⟨_, rfl, mutatedInPlace_passEffect g msgs i m⟩
  · rw [if_neg hi]
    exact ⟨m, rfl, mutatedInPlace_refl m⟩

/-- The delete-history pass leaves every record under its id, mutated in place. -/
theorem lookup_handleDeleteHistory_mutated (g : Context) (w : World)
    (msgs : List MessageUnboxed) (i : MessageID) (m : MessageUnboxed)
    (h : lookup w.blocks i = some m) :
    ∃ m1, lookup (handleDeleteHistory (New g) w msgs).1.blocks i = some m1 ∧
      mutatedInPlace m m1 = true := by
  rw [handleDeleteHistory_New]
  cases ha : delhActive msgs none with
  | none => exact ⟨m, h, mutatedInPlace_refl m⟩
  | some act =>
    have hpos := delhActive_pos msgs act ha
    have happ : ∃ m1, lookup (applyDeleteHistory (New g) w act.source act.delh).1.blocks i =
        some m1 ∧ mutatedInPlace m m1 = true := by
      rw [lookup_applyDeleteHistory g w _ _ hpos, h]
      split
      · exact ⟨_, rfl, mutatedInPlace_clearByDeleteHistory g act.source m⟩
      · exact ⟨m, rfl, mutatedInPlace_refl m⟩
    cases hd : w.delh with
    | none => exact happ
    | some mem =>
      simp only []
      split
      · exact ⟨m, h, mutatedInPlace_refl m⟩
      · split
        · exact ⟨m, h, mutatedInPlace_refl m⟩
        · exact happ

/-! ## C1: a `DELETE` in the batch clears its target -/

/-- C1 (as stated, refuted).  The store holds the valid text message 2 and the
batch, sorted by descending id, is the valid `DELETE` 4 superseding id 2 followed
by an unboxing error for id 2.  Message 4 is the only superseder of 2 and the batch
has no delete-history message, yet after the successful `Merge` reading id 2 yields
the error record: the raw write replaced the valid target before the supersedes
pass, which skips targets stored as errors. -/
theorem C1_counterexample :
    lookup (worldOf [validMsg .TEXT 2 [7]]).blocks 2 = some (validMsg .TEXT 2 [7]) ∧
    (validMsg .TEXT 2 [7]).IsValid = true ∧
    [validMsg .DELETE 4 [2], errorMsg .TEXT 2].map MessageUnboxed.GetMessageID = [4, 2] ∧
    (validMsg .DELETE 4 [2]).IsValid = true ∧
    (validMsg .DELETE 4 [2]).GetMessageType = MessageType.DELETE ∧
    exampleContext.GetSupersedes (validMsg .DELETE 4 [2]) = some [2] ∧
    supersedesID exampleContext (errorMsg .TEXT 2) 2 = false ∧
    (∀ m ∈ [validMsg .DELETE 4 [2], errorMsg .TEXT 2],
      m.GetMessageType ≠ MessageType.DELETEHISTORY) ∧
    Merge (New exampleContext) (worldOf [validMsg .TEXT 2 [7]])
        [validMsg .DELETE 4 [2], errorMsg .TEXT 2] =
      some ({ blocks := [errorMsg .TEXT 2, validMsg .DELETE 4 [2]], blockIndex := true,
              delh := none, maxMsgID := some 4 }, { DeletedHistory := false }, none) ∧
    (New exampleContext).engine.ReadMessages
        { blocks := [errorMsg .TEXT 2, validMsg .DELETE 4 [2]], blockIndex := true,
          delh := none, maxMsgID := some 4 } (NewSimpleResultCollector 1) 2 =
      (.Simple [errorMsg .TEXT 2] 1, none) := by
  refine ⟨rfl, rfl, rfl, rfl, rfl, rfl, rfl, by decide, rfl, rfl⟩

/-- C1 (amended).  Let the batch contain a valid `DELETE` message `d` whose
superseded-id list contains the positive id `t`, let `d` be the only message of the
batch that supersedes `t`, let the batch hold no delete-history message and no
record for `t` that is not valid, and let a message with id `t` be in the batch or a
valid one be stored.  After `Merge` returns success, reading id `t` yields a valid
message with `SupersededBy = d.MsgID` and an empty body. -/
theorem merge_delete_clears_target (g : Context) (w w' : World) (batch : List MessageUnboxed)
    (res : MergeResult) (d : MessageUnboxed) (t : MessageID) (ids : List MessageID)
    (hd : d ∈ batch) (hvalid : d.IsValid = true)
    (htype : d.GetMessageType = MessageType.DELETE)
    (hsup : g.GetSupersedes d = some ids) (hmem : t ∈ ids) (ht : 0 < t)
    (honly : ∀ m ∈ batch, supersedesID g m t = true → m = d)
    (hnodelh : ∀ m ∈ batch, m.GetMessageType ≠ MessageType.DELETEHISTORY)
    (hbatch : ∀ m ∈ batch, m.GetMessageID = t → m.IsValid = true)
    (htarget : (∃ m ∈ batch, m.GetMessageID = t) ∨ ∃ tv, lookup w.blocks t = some (.Valid tv))
    (hmerge : Merge (New g) w batch = some (w', res, none)) :
    ∃ mv, (New g).engine.ReadMessages w' (NewSimpleResultCollector 1) t =
        (.Simple [.Valid mv] 1, none) ∧
      mv.ServerHeader.SupersededBy = d.GetMessageID ∧ mv.MessageBody = emptyBody := by
  obtain ⟨rfl, -⟩ := Merge_New_success hmerge
  have hsd : supersedesID g d t = true := by
    simp [supersedesID, hvalid, hsup, hmem]
  have hstored : ∃ tv, (lookup batch.reverse t).or (lookup w.blocks t) = some (.Valid tv) := by
    cases hl : lookup batch.reverse t with
    | some m =>
      have hm : m ∈ batch := by
        have := List.mem_of_find?_eq_some hl
        simpa using this
      have hv := hbatch m hm (lookup_id hl)
      cases m with
      | Valid tv => exact ⟨tv, rfl⟩
      | Error e => simp [MessageUnboxed.IsValid] at hv
      | Outbox o => simp [MessageUnboxed.IsValid] at hv
      | Placeholder p => simp [MessageUnboxed.IsValid] at hv
    | none =>
      rcases htarget with ⟨m, hm, hid⟩ | ⟨tv, htv⟩
      · exfalso
        unfold lookup at hl
        rw [List.find?_eq_none] at hl
        have := hl m (List.mem_reverse.2 hm)
        simp [hid] at this
      · exact ⟨tv, by simpa using htv⟩
  obtain ⟨tv, htv⟩ := hstored
  have hlook : lookup (mergedWorld g w batch).blocks t =
      some (.Valid { tv with
        ServerHeader := { tv.ServerHeader with SupersededBy := d.GetMessageID },
        MessageBody := emptyBody }) := by
    rw [mergedWorld_blocks, stageDelh_of_no_delh g w batch (delhActive_of_no_delh batch none hnodelh),
      stageMin_blocks, lookup_stageSupersede, if_pos ht, htv, Option.map_some', passEffect_valid,
      supersededByAfter_only g batch t _ d hd hsd honly,
      bodyAfter_delete g batch t _ d hd hsd htype]
  exact ⟨_, ReadMessages_one g _ t _ ht hlook, rfl, rfl⟩

/-- C1 (amended), witnessed on the store holding text message 2 and the batch made
of the `DELETE` 4 that supersedes it. -/
theorem merge_delete_clears_target_witness :
    ∃ mv, (New exampleContext).engine.ReadMessages
        { blocks := [clearedMsg .TEXT 2 4, validMsg .DELETE 4 [2]], blockIndex := true,
          delh := none, maxMsgID := some 4 } (NewSimpleResultCollector 1) 2 =
        (.Simple [.Valid mv] 1, none) ∧
      mv.ServerHeader.SupersededBy = (validMsg .DELETE 4 [2]).GetMessageID ∧
      mv.MessageBody = emptyBody :=
  merge_delete_clears_target exampleContext (worldOf [validMsg .TEXT 2 [7]]) _
    [validMsg .DELETE 4 [2]] { DeletedHistory := false } (validMsg .DELETE 4 [2]) 2 [2]
    (by decide) rfl rfl rfl (by decide) (by decide)
    (by intro m hm _; simpa using hm) (by decide) (by decide)
    (Or.inr ⟨_, rfl⟩) rfl

/-! ## C2: several superseders of one target -/

/-- C2 (as stated, refuted).  The store holds the valid text message 1 and the
batch, sorted by descending id, holds the two valid `EDIT` messages 5 and 4 that
both supersede id 1.  After the successful `Merge` the stored `SupersededBy` of
message 1 is 4, the smallest of the two ids, not the largest: the pass walks the
batch in its order and the last write wins. -/
theorem C2_counterexample :
    lookup (worldOf [validMsg .TEXT 1 [7]]).blocks 1 = some (validMsg .TEXT 1 [7]) ∧
    [validMsg .EDIT 5 [1], validMsg .EDIT 4 [1]].map MessageUnboxed.GetMessageID = [5, 4] ∧
    supersedesID exampleContext (validMsg .EDIT 5 [1]) 1 = true ∧
    supersedesID exampleContext (validMsg .EDIT 4 [1]) 1 = true ∧
    Merge (New exampleContext) (worldOf [validMsg .TEXT 1 [7]])
        [validMsg .EDIT 5 [1], validMsg .EDIT 4 [1]] =
      some ({ blocks :=
                [.Valid { ClientHeader := { MessageType := .TEXT, Sender := 1 }
                          ServerHeader := { MessageID := 1, SupersededBy := 4 }
                          MessageBody :=
                            { MessageType__ := .TEXT, variant := some { Upto := 0, data := [7] } } },
                  validMsg .EDIT 4 [1], validMsg .EDIT 5 [1]],
              blockIndex := true, delh := some { newEntry with MinDeletableMessage := 4 },
              maxMsgID := some 5 }, { DeletedHistory := false }, none) := by
  refine ⟨rfl, rfl, rfl, rfl, rfl⟩

/-- C2 (amended).  Let the batch be sorted by descending id, hold no
delete-history message and no record for the positive id `t` that is not valid, let
a valid message be stored at `t`, and let at least one valid superseder of the
batch target `t`.  After a successful `Merge` the record stored at `t` is valid and
its `SupersededBy` is the id of the last superseder of `t` in batch order, which is
the smallest id among the superseders that targeted `t`. -/
theorem merge_superseders_last_wins (g : Context) (w w' : World)
    (batch : List MessageUnboxed) (res : MergeResult) (t : MessageID) (tv : MessageUnboxedValid)
    (hsorted : sortedDescending batch) (ht : 0 < t)
    (hstored : lookup w.blocks t = some (.Valid tv))
    (hbatch : ∀ m ∈ batch, m.GetMessageID = t → m.IsValid = true)
    (hnodelh : ∀ m ∈ batch, m.GetMessageType ≠ MessageType.DELETEHISTORY)
    (hsup : ∃ m ∈ batch, supersedesID g m t = true)
    (hmerge : Merge (New g) w batch = some (w', res, none)) :
    ∃ s ∈ batch, ∃ mv, supersedesID g s t = true ∧
      (∀ m ∈ batch, supersedesID g m t = true → s.GetMessageID ≤ m.GetMessageID) ∧
      lookup w'.blocks t = some (.Valid mv) ∧
      mv.ServerHeader.SupersededBy = s.GetMessageID := by
  obtain ⟨rfl, -⟩ := Merge_New_success hmerge
  have hwritten : ∃ xv, (lookup batch.reverse t).or (lookup w.blocks t) = some (.Valid xv) := by
    cases hl : lookup batch.reverse t with
    | some m =>
      have hm : m ∈ batch := by
        have := List.mem_of_find?_eq_some hl
        simpa using this
      have hv := hbatch m hm (lookup_id hl)
      cases m with
      | Valid xv => exact ⟨xv, rfl⟩
      | Error e => simp [MessageUnboxed.IsValid] at hv
      | Outbox o => simp [MessageUnboxed.IsValid] at hv
      | Placeholder p => simp [MessageUnboxed.IsValid] at hv
    | none => exact ⟨tv, by simpa using hstored⟩
  obtain ⟨xv, hxv⟩ := hwritten
  obtain ⟨s, hs, hst, heq, hmin⟩ :=
    supersededByAfter_sorted g batch t xv.ServerHeader.SupersededBy hsorted hsup
  refine ⟨s, hs, { xv with
      ServerHeader := { xv.ServerHeader with
        SupersededBy := supersededByAfter g batch t xv.ServerHeader.SupersededBy },
      MessageBody := bodyAfter g batch t xv.MessageBody }, hst, hmin, ?_, heq⟩
  rw [mergedWorld_blocks, stageDelh_of_no_delh g w batch (delhActive_of_no_delh batch none hnodelh),
    stageMin_blocks, lookup_stageSupersede, if_pos ht, hxv, Option.map_some', passEffect_valid]

/-- C2 (amended), witnessed on the store holding text message 1 and the batch of
the two `EDIT` messages 5 and 4 that supersede it. -/
theorem merge_superseders_last_wins_witness :
    ∃ s ∈ [validMsg .EDIT 5 [1], validMsg .EDIT 4 [1]], ∃ mv,
      supersedesID exampleContext s 1 = true ∧
      (∀ m ∈ [validMsg .EDIT 5 [1], validMsg .EDIT 4 [1]],
        supersedesID exampleContext m 1 = true → s.GetMessageID ≤ m.GetMessageID) ∧
      lookup (mergedWorld exampleContext (worldOf [validMsg .TEXT 1 [7]])
        [validMsg .EDIT 5 [1], validMsg .EDIT 4 [1]]).blocks 1 = some (.Valid mv) ∧
      mv.ServerHeader.SupersededBy = s.GetMessageID :=
  merge_superseders_last_wins exampleContext (worldOf [validMsg .TEXT 1 [7]]) _
    [validMsg .EDIT 5 [1], validMsg .EDIT 4 [1]] { DeletedHistory := false } 1 _
    (by decide) (by decide) rfl (by decide) (by decide)
    ⟨validMsg .EDIT 5 [1], by decide, rfl⟩ rfl

/-! ## C3: merging the same batch twice -/

/-- C3 (as stated, refuted).  On the empty store the batch, sorted by descending
id, holds the delete-history 10 with horizon 5 and the text message 3.  The first
`Merge` applies the directive and clears message 3; the second `Merge` writes the
batch again, finds the horizon already recorded and skips the pass, so message 3
is stored with its body: the two stores differ at id 3. -/
theorem C3_counterexample :
    [delhMsg 10 5, validMsg .TEXT 3 [7]].map MessageUnboxed.GetMessageID = [10, 3] ∧
    Merge (New exampleContext) emptyWorld [delhMsg 10 5, validMsg .TEXT 3 [7]] =
      some ({ blocks := [clearedMsg .TEXT 3 10, delhMsg 10 5], blockIndex := false,
              delh := some { MinDeletableMessage := 3, MaxDeleteHistoryUpto := 5, DeletedUpto := 5 },
              maxMsgID := some 10 }, { DeletedHistory := true }, none) ∧
    Merge (New exampleContext)
        { blocks := [clearedMsg .TEXT 3 10, delhMsg 10 5], blockIndex := false,
          delh := some { MinDeletableMessage := 3, MaxDeleteHistoryUpto := 5, DeletedUpto := 5 },
          maxMsgID := some 10 } [delhMsg 10 5, validMsg .TEXT 3 [7]] =
      some ({ blocks := [validMsg .TEXT 3 [7], delhMsg 10 5], blockIndex := false,
              delh := some { MinDeletableMessage := 3, MaxDeleteHistoryUpto := 5, DeletedUpto := 5 },
              maxMsgID := some 10 }, { DeletedHistory := false }, none) ∧
    lookup [clearedMsg .TEXT 3 10, delhMsg 10 5] 3 ≠
      lookup [validMsg .TEXT 3 [7], delhMsg 10 5] 3 := by
  refine ⟨rfl, rfl, rfl, by decide⟩

/-- C3 (amended).  For every store and tracker state and every batch for which
`Merge` reports `DeletedHistory = false` (its delete-history pass did not reach the
apply step), running `Merge` on the same batch once more leaves the same stored
messages and the same tracker values, so every later read observes the same
result. -/
theorem merge_twice_without_apply (g : Context) (w w1 w2 : World)
    (batch : List MessageUnboxed) (res1 res2 : MergeResult)
    (h1 : Merge (New g) w batch = some (w1, res1, none))
    (hflag : res1.DeletedHistory = false)
    (h2 : Merge (New g) w1 batch = some (w2, res2, none)) :
    (∀ i, lookup w2.blocks i = lookup w1.blocks i) ∧
    w2.delh = w1.delh ∧ w2.maxMsgID = w1.maxMsgID ∧
    ∀ rc maxID, (New g).engine.ReadMessages w2 rc maxID =
      (New g).engine.ReadMessages w1 rc maxID := by
  obtain ⟨rfl, rfl⟩ := Merge_New_success h1
  obtain ⟨rfl, -⟩ := Merge_New_success h2
  have hflag2 : (handleDeleteHistory (New g) (stageMin g w batch) batch).2.1 = false := hflag
  -- the first merge: the pass left the blocks alone and moved at most `MaxDeleteHistoryUpto`
  have first : (stageDelh g w batch).blocks = (stageSupersede g w batch).blocks ∧
      ∃ f : delhTrackerEntry → delhTrackerEntry,
        (∀ e, (f e).MinDeletableMessage = e.MinDeletableMessage) ∧
        (∀ e x, f { e with MinDeletableMessage := x } = { f e with MinDeletableMessage := x }) ∧
        (stageDelh g w batch).delh =
          (minDeletableEntry w.delh (minDeletableMessageBatch (New g) batch none)).map f ∧
        (delhActive batch none = none ∨
          ∃ act mem, delhActive batch none = some act ∧ (stageDelh g w batch).delh = some mem ∧
            mem.MaxDeleteHistoryUpto ≥ act.delh.Upto) := by
    rcases handleDeleteHistory_false g _ batch hflag2 with
      ⟨ha, he⟩ | ⟨act, mem, ha, hd, hge, he⟩ | ⟨act, mem, ha, hd, hlt, _, he⟩
    · refine ⟨?_, id, fun _ => rfl, fun _ _ => rfl, ?_, Or.inl ha⟩
      · rw [stageDelh, he, stageMin_blocks]
      · rw [stageDelh, he, stageMin_delh, Option.map_id, id]
    · refine ⟨?_, id, fun _ => rfl, fun _ _ => rfl, ?_, Or.inr ⟨act, mem, ha, ?_, hge⟩⟩
      · rw [stageDelh, he, stageMin_blocks]
      · rw [stageDelh, he, stageMin_delh, Option.map_id, id]
      · rw [stageDelh, he, hd]
    · refine ⟨?_, fun e => { e with MaxDeleteHistoryUpto := act.delh.Upto }, fun _ => rfl,
        fun _ _ => rfl, ?_,
        Or.inr ⟨act, { mem with MaxDeleteHistoryUpto := act.delh.Upto }, ha, ?_, le_refl _⟩⟩
      · rw [stageDelh, he]
        exact stageMin_blocks g w batch
      · rw [stageDelh, he]
        rw [stageMin_delh] at hd
        simp only [hd, Option.map_some']
      · rw [stageDelh, he]
  obtain ⟨hblocks, f, hf, hf2, hdelh, hsel⟩ := first
  have w1blocks : (mergedWorld g w batch).blocks = (stageSupersede g w batch).blocks := by
    rw [mergedWorld_blocks, hblocks]
  have w1delh : (mergedWorld g w batch).delh =
      (minDeletableEntry w.delh (minDeletableMessageBatch (New g) batch none)).map f := by
    rw [mergedWorld_delh, hdelh]
  -- the second merge: the tracker update and the pass change nothing
  have vdelh : (stageMin g (mergedWorld g w batch) batch).delh = (mergedWorld g w batch).delh := by
    rw [stageMin_delh, w1delh, minDeletableEntry_again _ _ f hf hf2]
  have second : stageDelh g (mergedWorld g w batch) batch =
      stageMin g (mergedWorld g w batch) batch := by
    rw [stageDelh, handleDeleteHistory_noop]
    rcases hsel with h | ⟨act, mem, ha, hd, hge⟩
    · exact Or.inl h
    · refine Or.inr ⟨act, mem, ha, ?_, hge⟩
      rw [vdelh, mergedWorld_delh, hd]
  have hlook : ∀ i, lookup (mergedWorld g (mergedWorld g w batch) batch).blocks i =
      lookup (mergedWorld g w batch).blocks i := by
    intro i
    rw [mergedWorld_blocks, second, stageMin_blocks, lookup_stageSupersede, w1blocks,
      lookup_stageSupersede]
    by_cases hi : 0 < i
    · simp only [hi, if_true]
      cases lookup batch.reverse i with
      | some m => simp
      | none =>
        cases lookup w.blocks i with
        | none => simp
        | some m => simp [passEffect_idem]
    · simp only [hi, if_false]
      cases lookup batch.reverse i <;> simp
  refine ⟨hlook, ?_, ?_, fun rc maxID => ReadMessages_congr g _ _ hlook rc maxID⟩
  · rw [mergedWorld_delh, second, vdelh]
  · have hmax : ∀ v : World, (stageDelh g v batch).maxMsgID = v.maxMsgID := by
      intro v
      rw [stageDelh, handleDeleteHistory_maxMsgID, stageMin_maxMsgID]
    cases batch with
    | nil =>
      show (stageDelh g (stageDelh g w []) []).maxMsgID = (stageDelh g w []).maxMsgID
      rw [hmax]
    | cons msg0 rest =>
      show some (max ((stageDelh g (mergedWorld g w (msg0 :: rest)) (msg0 :: rest)).maxMsgID.getD 0)
          msg0.GetMessageID) =
        some (max ((stageDelh g w (msg0 :: rest)).maxMsgID.getD 0) msg0.GetMessageID)
      rw [hmax]
      show some (max ((some (max ((stageDelh g w (msg0 :: rest)).maxMsgID.getD 0)
          msg0.GetMessageID)).getD 0) msg0.GetMessageID) = _
      simp

/-- C3 (amended), witnessed on the store holding text message 1 and the batch of
the two `EDIT` messages 5 and 4, for which `Merge` reports no deletion. -/
theorem merge_twice_without_apply_witness :
    (∀ i, lookup (mergedWorld exampleContext (mergedWorld exampleContext
        (worldOf [validMsg .TEXT 1 [7]]) [validMsg .EDIT 5 [1], validMsg .EDIT 4 [1]])
        [validMsg .EDIT 5 [1], validMsg .EDIT 4 [1]]).blocks i =
      lookup (mergedWorld exampleContext (worldOf [validMsg .TEXT 1 [7]])
        [validMsg .EDIT 5 [1], validMsg .EDIT 4 [1]]).blocks i) ∧
    (mergedWorld exampleContext (mergedWorld exampleContext
        (worldOf [validMsg .TEXT 1 [7]]) [validMsg .EDIT 5 [1], validMsg .EDIT 4 [1]])
        [validMsg .EDIT 5 [1], validMsg .EDIT 4 [1]]).delh =
      (mergedWorld exampleContext (worldOf [validMsg .TEXT 1 [7]])
        [validMsg .EDIT 5 [1], validMsg .EDIT 4 [1]]).delh :=
  have h := merge_twice_without_apply exampleContext (worldOf [validMsg .TEXT 1 [7]]) _ _
    [validMsg .EDIT 5 [1], validMsg .EDIT 4 [1]] { DeletedHistory := false }
    { DeletedHistory := false } rfl rfl rfl
  ⟨h.1, h.2.1⟩

/-! ## C4: invariant I4 across `Merge` -/

/-- C4 (as stated, refuted).  The empty store with `DeletedUpto = 5` satisfies I4.
The batch holds the text message 3 and no delete-history; `Merge` writes it as it
came, so afterwards a valid deletable message with a body is stored below
`DeletedUpto` and I4 is broken. -/
theorem C4_counterexample :
    invariantI4 exampleContext
      { blocks := [], blockIndex := true,
        delh := some { MinDeletableMessage := 0, MaxDeleteHistoryUpto := 5, DeletedUpto := 5 },
        maxMsgID := none } ∧
    Merge (New exampleContext)
        { blocks := [], blockIndex := true,
          delh := some { MinDeletableMessage := 0, MaxDeleteHistoryUpto := 5, DeletedUpto := 5 },
          maxMsgID := none } [validMsg .TEXT 3 [7]] =
      some ({ blocks := [validMsg .TEXT 3 [7]], blockIndex := true,
              delh := some { MinDeletableMessage := 3, MaxDeleteHistoryUpto := 5, DeletedUpto := 5 },
              maxMsgID := some 3 }, { DeletedHistory := false }, none) ∧
    ¬ invariantI4 exampleContext
      { blocks := [validMsg .TEXT 3 [7]], blockIndex := true,
        delh := some { MinDeletableMessage := 3, MaxDeleteHistoryUpto := 5, DeletedUpto := 5 },
        maxMsgID := some 3 } := by
  refine ⟨?_, rfl, ?_⟩
  · intro e _ i mv _ _ hl
    simp [lookup] at hl
  · intro h
    have := h _ rfl 3 _ (by decide) (by decide) rfl rfl
    exact absurd this (by decide)

/-- C4 (amended).  I4 is preserved by `Merge` for every state that satisfies it and
every batch in which each valid message of a deletable type that still has a body
has an id at or above the `DeletedUpto` recorded before the call. -/
theorem merge_preserves_I4 (g : Context) (w w' : World) (batch : List MessageUnboxed)
    (res : MergeResult) (hI4 : invariantI4 g w)
    (hbatch : ∀ e, w.delh = some e → ∀ mv, .Valid mv ∈ batch →
      g.IsDeletableByDeleteHistory mv.ClientHeader.MessageType = true →
      mv.MessageBody.IsNil = false → e.DeletedUpto ≤ mv.ServerHeader.MessageID)
    (hmerge : Merge (New g) w batch = some (w', res, none)) :
    invariantI4 g w' := by
  obtain ⟨rfl, -⟩ := Merge_New_success hmerge
  -- the blocks after the supersedes pass, against the horizon recorded before the call
  have hss : ∀ e, w.delh = some e → ∀ i mv, 0 < i → i < e.DeletedUpto →
      lookup (stageSupersede g w batch).blocks i = some (.Valid mv) →
      g.IsDeletableByDeleteHistory mv.ClientHeader.MessageType = true →
      mv.MessageBody.IsNil = true := by
    intro e he i mv hi hlt hl hdel
    rw [lookup_stageSupersede, if_pos hi] at hl
    cases hx : (lookup batch.reverse i).or (lookup w.blocks i) with
    | none => simp [hx] at hl
    | some x =>
      rw [hx, Option.map_some', Option.some.injEq] at hl
      cases x with
      | Valid xv =>
        rw [passEffect_valid] at hl
        injection hl with hl
        have hnil : xv.MessageBody.IsNil = true := by
          have hdx : g.IsDeletableByDeleteHistory xv.ClientHeader.MessageType = true := by
            rw [← hl] at hdel
            exact hdel
          cases hb : lookup batch.reverse i with
          | some y =>
            rw [hb, Option.or_some, Option.some.injEq] at hx
            subst hx
            have hy : MessageUnboxed.Valid xv ∈ batch := by
              have := List.mem_of_find?_eq_some hb
              simpa using this
            have hid : xv.ServerHeader.MessageID = i := lookup_id hb
            by_contra hn
            have := hbatch e he xv hy hdx (by simpa using hn)
            rw [hid] at this
            exact absurd hlt (Nat.not_lt.2 this)
          | none =>
            rw [hb, Option.none_or] at hx
            exact hI4 e he i xv hi hlt hx hdx
        have hempty : xv.MessageBody = emptyBody := by
          simpa [MessageBody.IsNil] using hnil
        rw [← hl]
        simp only [hempty, bodyAfter_empty]
        rfl
      | Error e1 => rw [passEffect_not_valid g batch i (.Error e1) rfl] at hl; cases hl
      | Outbox o => rw [passEffect_not_valid g batch i (.Outbox o) rfl] at hl; cases hl
      | Placeholder p => rw [passEffect_not_valid g batch i (.Placeholder p) rfl] at hl; cases hl
  have hmin : invariantI4 g (stageMin g w batch) := by
    intro e he i mv hi hlt hl hdel
    rw [stageMin_delh] at he
    rw [stageMin_blocks] at hl
    obtain ⟨hdu, -⟩ := minDeletableEntry_some _ _ e he
    cases hw : w.delh with
    | none =>
      rw [hw] at hdu
      rw [hdu] at hlt
      exact absurd hlt (Nat.not_lt_zero _)
    | some e0 =>
      rw [hw] at hdu
      rw [hdu] at hlt
      exact hss e0 hw i mv hi hlt hl hdel
  have happly : ∀ act, delhActive batch none = some act →
      invariantI4 g (applyDeleteHistory (New g) (stageMin g w batch) act.source act.delh).1 := by
    intro act ha e he i mv hi hlt hl hdel
    have hpos := delhActive_pos batch act ha
    rw [applyDeleteHistory_delh, Option.some.injEq] at he
    rw [← he] at hlt
    rw [lookup_applyDeleteHistory g _ _ _ hpos, if_pos ⟨hi, hlt⟩] at hl
    cases hx : lookup (stageMin g w batch).blocks i with
    | none => simp [hx] at hl
    | some x =>
      rw [hx, Option.map_some', Option.some.injEq] at hl
      exact clearByDeleteHistory_nil g act.source x mv hl hdel
  have hdelh : invariantI4 g (stageDelh g w batch) := by
    rw [stageDelh, handleDeleteHistory_New]
    cases ha : delhActive batch none with
    | none => exact hmin
    | some act =>
      cases hd : (stageMin g w batch).delh with
      | none => exact happly act ha
      | some mem =>
        simp only []
        split
        · exact hmin
        · split
          · intro e he i mv hi hlt hl hdel
            simp only [Option.some.injEq] at he
            rw [← he] at hlt
            exact hmin mem hd i mv hi hlt hl hdel
          · exact happly act ha
  intro e he
  rw [mergedWorld_delh] at he
  rw [mergedWorld_blocks]
  exact hdelh e he

/-- C4 (amended), witnessed on the store holding the cleared message 3 under
`DeletedUpto = 5` and the batch made of the text message 7. -/
theorem merge_preserves_I4_witness :
    invariantI4 exampleContext
      (mergedWorld exampleContext
        { blocks := [clearedMsg .TEXT 3 10], blockIndex := true,
          delh := some { MinDeletableMessage := 3, MaxDeleteHistoryUpto := 5, DeletedUpto := 5 },
          maxMsgID := some 10 } [validMsg .TEXT 7 [1]]) :=
  merge_preserves_I4 exampleContext
    { blocks := [clearedMsg .TEXT 3 10], blockIndex := true,
      delh := some { MinDeletableMessage := 3, MaxDeleteHistoryUpto := 5, DeletedUpto := 5 },
      maxMsgID := some 10 } _ [validMsg .TEXT 7 [1]] { DeletedHistory := false }
    (by
      intro e he i mv _ _ hl _
      have hid := lookup_id hl
      have hi : i = 3 := by
        by_contra hne
        simp [lookup, clearedMsg, MessageUnboxed.GetMessageID, Ne.symm hne] at hl
      subst hi
      have : mv = { ClientHeader := { MessageType := .TEXT, Sender := 1 }
                    ServerHeader := { MessageID := 3, SupersededBy := 10 }
                    MessageBody := emptyBody } := by
        simpa [lookup, clearedMsg, MessageUnboxed.GetMessageID] using hl.symm
      rw [this]
      rfl)
    (by
      intro e he mv hm _ _
      cases he
      have : mv.ServerHeader.MessageID = 7 := by
        simp [validMsg] at hm
        rw [hm]
      rw [this]
      decide)
    rfl

/-! ## C5: what the apply step clears -/

/-- C5 (as stated, refuted).  The store holds at id 1 a valid text message whose
body was already cleared by message 4.  The delete-history 10 with horizon 3 is
applied and succeeds; the record at id 1, of a deletable type and below the
horizon, keeps `SupersededBy = 4` instead of 10, because the apply step skips
messages that are already deleted. -/
theorem C5_counterexample :
    delhActive [delhMsg 10 3] none = some { source := delhValid 10 3, delh := { Upto := 3 } } ∧
    exampleContext.IsDeletableByDeleteHistory (clearedMsg .TEXT 1 4).GetMessageType = true ∧
    applyDeleteHistory (New exampleContext) (worldOf [clearedMsg .TEXT 1 4]) (delhValid 10 3)
        { Upto := 3 } =
      ({ blocks := [clearedMsg .TEXT 1 4], blockIndex := true,
         delh := some { MinDeletableMessage := 0, MaxDeleteHistoryUpto := 3, DeletedUpto := 3 },
         maxMsgID := none }, true, none) ∧
    lookup [clearedMsg .TEXT 1 4] 1 =
      some (.Valid { ClientHeader := { MessageType := .TEXT, Sender := 1 }
                     ServerHeader := { MessageID := 1, SupersededBy := 4 }
                     MessageBody := emptyBody }) ∧
    (4 : MessageID) ≠ (delhValid 10 3).ServerHeader.MessageID := by
  refine ⟨rfl, rfl, rfl, rfl, by decide⟩

/-- C5 (amended).  After the apply step of a selected delete-history message with
id `D` and horizon `U`, which succeeds, for every id `0 < i < U`: a valid message
of a deletable type stored at `i` has an empty body afterwards, and
`SupersededBy = D` when its body was not empty before; and every stored message of
a non-deletable type is identical to what it was before the apply. -/
theorem applyDeleteHistory_clears (g : Context) (w : World) (batch : List MessageUnboxed)
    (act : delhTagged) (hsel : delhActive batch none = some act) :
    (applyDeleteHistory (New g) w act.source act.delh).2.2 = none ∧
    (∀ i mv, 0 < i → i < act.delh.Upto → lookup w.blocks i = some (.Valid mv) →
      g.IsDeletableByDeleteHistory mv.ClientHeader.MessageType = true →
      ∃ mv1, lookup (applyDeleteHistory (New g) w act.source act.delh).1.blocks i =
          some (.Valid mv1) ∧
        mv1.MessageBody = emptyBody ∧
        (mv.MessageBody.IsNil = false →
          mv1.ServerHeader.SupersededBy = act.source.ServerHeader.MessageID)) ∧
    (∀ i m, lookup w.blocks i = some m →
      g.IsDeletableByDeleteHistory m.GetMessageType = false →
      lookup (applyDeleteHistory (New g) w act.source act.delh).1.blocks i = some m) := by
  have hpos := delhActive_pos batch act hsel
  refine ⟨by rw [applyDeleteHistory_New], ?_, ?_⟩
  · intro i mv hi hlt hl hdel
    rw [lookup_applyDeleteHistory g w _ _ hpos, if_pos ⟨hi, hlt⟩, hl, Option.map_some']
    have hdel2 : g.IsDeletableByDeleteHistory (MessageUnboxed.Valid mv).GetMessageType = true :=
      hdel
    by_cases hn : mv.MessageBody.IsNil = true
    · refine ⟨mv, ?_, by simpa [MessageBody.IsNil] using hn, ?_⟩
      · simp [clearByDeleteHistory, hdel2, hn]
      · intro hc
        rw [hn] at hc
        exact absurd hc (by decide)
    · refine ⟨{ mv with
          ServerHeader := { mv.ServerHeader with
            SupersededBy := act.source.ServerHeader.MessageID },
          MessageBody := emptyBody }, ?_, rfl, fun _ => rfl⟩
      simp [clearByDeleteHistory, hdel2, hn]
  · intro i m hl hdel
    rw [lookup_applyDeleteHistory g w _ _ hpos, hl]
    have hc : clearByDeleteHistory g act.source m = m := by
      simp [clearByDeleteHistory, hdel]
    split
    · rw [Option.map_some', hc]
    · rfl

/-- C5 (amended), witnessed on the store holding the text messages 1, 2 and 3 and
the delete-history 10 with horizon 3. -/
theorem applyDeleteHistory_clears_witness :
    (applyDeleteHistory (New exampleContext)
        (worldOf [validMsg .TEXT 3 [3], validMsg .TEXT 2 [2], validMsg .TEXT 1 [1]])
        (delhValid 10 3) { Upto := 3 }).2.2 = none ∧
    lookup (applyDeleteHistory (New exampleContext)
        (worldOf [validMsg .TEXT 3 [3], validMsg .TEXT 2 [2], validMsg .TEXT 1 [1]])
        (delhValid 10 3) { Upto := 3 }).1.blocks 2 = some (clearedMsg .TEXT 2 10) :=
  have h := applyDeleteHistory_clears exampleContext
    (worldOf [validMsg .TEXT 3 [3], validMsg .TEXT 2 [2], validMsg .TEXT 1 [1]])
    [delhMsg 10 3] { source := delhValid 10 3, delh := { Upto := 3 } } rfl
  ⟨h.1, rfl⟩

/-! ## C6: the tracked maximum message id -/

/-- What a run of successful merges keeps true, given the batches `seen` so far:
every stored id is the id of a merged message, the tracked maximum bounds the id of
every merged message, and it is the id of one of them. -/
theorem MergeAll_tracks_max (g : Context) (batches seen : List (List MessageUnboxed))
    (w w' : World)
    (hstored : ∀ i, (lookup w.blocks i).isSome = true → ∃ b ∈ seen, ∃ m ∈ b, m.GetMessageID = i)
    (hbound : ∀ b ∈ seen, ∀ m ∈ b, ∃ M, w.maxMsgID = some M ∧ m.GetMessageID ≤ M)
    (hattained : ∀ M, w.maxMsgID = some M → ∃ b ∈ seen, ∃ m ∈ b, m.GetMessageID = M)
    (hsorted : ∀ b ∈ batches, sortedDescending b)
    (hrun : MergeAll (New g) w batches = some w') :
    (∀ i, (lookup w'.blocks i).isSome = true →
      ∃ b ∈ seen ++ batches, ∃ m ∈ b, m.GetMessageID = i) ∧
    (∀ b ∈ seen ++ batches, ∀ m ∈ b, ∃ M, w'.maxMsgID = some M ∧ m.GetMessageID ≤ M) ∧
    (∀ M, w'.maxMsgID = some M → ∃ b ∈ seen ++ batches, ∃ m ∈ b, m.GetMessageID = M) := by
  induction batches generalizing w seen with
  | nil =>
    simp only [MergeAll, Option.some.injEq] at hrun
    subst hrun
    simpa using ⟨hstored, hbound, hattained⟩
  | cons batch rest ih =>
    rw [MergeAll] at hrun
    cases hm : Merge (New g) w batch with
    | none => simp [hm] at hrun
    | some r =>
      obtain ⟨w1, res, err⟩ := r
      cases err with
      | some e => simp [hm] at hrun
      | none =>
        rw [hm] at hrun
        simp only [] at hrun
        obtain ⟨rfl, -⟩ := Merge_New_success hm
        have hs : sortedDescending batch := hsorted batch (List.mem_cons_self _ _)
        have key := ih (seen ++ [batch]) (mergedWorld g w batch) ?_ ?_ ?_
          (fun b hb => hsorted b (List.mem_cons_of_mem _ hb)) hrun
        · simpa [List.append_assoc] using key
        · intro i hi
          rcases lookup_mergedWorld_isSome g w batch i hi with h | ⟨m, hmb, hid⟩
          · obtain ⟨b, hb, m, hmb, hid⟩ := hstored i h
            exact ⟨b, List.mem_append_left _ hb, m, hmb, hid⟩
          · exact ⟨batch, List.mem_append_right _ (List.mem_singleton_self _), m, hmb, hid⟩
        · intro b hb m hmb
          cases batch with
          | nil =>
            rw [mergedWorld_maxMsgID_nil]
            rcases List.mem_append.1 hb with hb | hb
            · exact hbound b hb m hmb
            · rw [List.mem_singleton] at hb
              subst hb
              simp at hmb
          | cons msg0 tail =>
            rw [mergedWorld_maxMsgID_cons]
            refine ⟨_, rfl, ?_⟩
            rcases List.mem_append.1 hb with hb | hb
            · obtain ⟨M, hM, hle⟩ := hbound b hb m hmb
              rw [hM]
              exact le_trans hle (le_max_left _ _)
            · rw [List.mem_singleton] at hb
              subst hb
              refine le_trans ?_ (le_max_right _ _)
              rcases List.mem_cons.1 hmb with rfl | hmt
              · exact le_refl _
              · unfold sortedDescending at hs
                rw [List.map_cons, List.pairwise_cons] at hs
                exact hs.1 _ (List.mem_map_of_mem _ hmt)
        · intro M hM
          cases batch with
          | nil =>
            rw [mergedWorld_maxMsgID_nil] at hM
            obtain ⟨b, hb, m, hmb, hid⟩ := hattained M hM
            exact ⟨b, List.mem_append_left _ hb, m, hmb, hid⟩
          | cons msg0 tail =>
            rw [mergedWorld_maxMsgID_cons, Option.some.injEq] at hM
            rcases le_total (w.maxMsgID.getD 0) msg0.GetMessageID with hle | hle
            · rw [max_eq_right hle] at hM
              exact ⟨msg0 :: tail, List.mem_append_right _ (List.mem_singleton_self _), msg0,
                List.mem_cons_self _ _, hM⟩
            · rw [max_eq_left hle] at hM
              cases hw : w.maxMsgID with
              | none =>
                rw [hw] at hM hle
                simp only [Option.getD_none] at hM hle
                have h0 : msg0.GetMessageID = 0 := Nat.le_zero.1 hle
                exact ⟨msg0 :: tail, List.mem_append_right _ (List.mem_singleton_self _), msg0,
                  List.mem_cons_self _ _, by rw [h0, ← hM]⟩
              | some M0 =>
                rw [hw] at hM
                simp only [Option.getD_some] at hM
                obtain ⟨b, hb, m, hmb, hid⟩ := hattained M0 hw
                exact ⟨b, List.mem_append_left _ hb, m, hmb, by rw [hid, hM]⟩

/-- C6.  After every sequence of successful `Merge` calls on the empty store whose
batches are each sorted by descending id, the tracked `MaxMsgID` is the largest id
of any message of any batch (it bounds all of them and is the id of one of them),
and it is at least the id of every stored message (I2). -/
theorem merge_sequence_tracks_max (g : Context) (batches : List (List MessageUnboxed))
    (w' : World) (hsorted : ∀ b ∈ batches, sortedDescending b)
    (hrun : MergeAll (New g) emptyWorld batches = some w') :
    (∀ b ∈ batches, ∀ m ∈ b, ∃ M, w'.maxMsgID = some M ∧ m.GetMessageID ≤ M) ∧
    (∀ M, w'.maxMsgID = some M → ∃ b ∈ batches, ∃ m ∈ b, m.GetMessageID = M) ∧
    (∀ i m, lookup w'.blocks i = some m → ∃ M, w'.maxMsgID = some M ∧ i ≤ M) := by
  obtain ⟨h1, h2, h3⟩ := MergeAll_tracks_max g batches [] emptyWorld w'
    (by intro i hi; simp [emptyWorld, lookup] at hi)
    (by intro b hb; simp at hb)
    (by intro M hM; simp [emptyWorld] at hM)
    hsorted hrun
  rw [List.nil_append] at h1 h2 h3
  refine ⟨h2, h3, ?_⟩
  intro i m hl
  obtain ⟨b, hb, m1, hm1, hid⟩ := h1 i (by rw [hl]; rfl)
  obtain ⟨M, hM, hle⟩ := h2 b hb m1 hm1
  exact ⟨M, hM, by rw [← hid]; exact hle⟩

/-- C6, witnessed on the run that merges the text messages 3, 2, 1 and then the
`DELETE` 4 of message 2: the tracked maximum is 4, the id of the last message. -/
theorem merge_sequence_tracks_max_witness :
    MergeAll (New exampleContext) emptyWorld
        [[validMsg .TEXT 3 [3], validMsg .TEXT 2 [2], validMsg .TEXT 1 [1]],
          [validMsg .DELETE 4 [2]]] =
      some { blocks := [clearedMsg .TEXT 2 4, validMsg .DELETE 4 [2], validMsg .TEXT 1 [1],
               validMsg .TEXT 3 [3]],
             blockIndex := false,
             delh := some { MinDeletableMessage := 1, MaxDeleteHistoryUpto := 0,
                            DeletedUpto := 0 },
             maxMsgID := some 4 } ∧
    (∃ M, (some 4 : Option MessageID) = some M ∧ (validMsg .TEXT 3 [3]).GetMessageID ≤ M) ∧
    (∃ b ∈ [[validMsg .TEXT 3 [3], validMsg .TEXT 2 [2], validMsg .TEXT 1 [1]],
        [validMsg .DELETE 4 [2]]], ∃ m ∈ b, m.GetMessageID = 4) :=
  have h := merge_sequence_tracks_max exampleContext
    [[validMsg .TEXT 3 [3], validMsg .TEXT 2 [2], validMsg .TEXT 1 [1]],
      [validMsg .DELETE 4 [2]]]
    { blocks := [clearedMsg .TEXT 2 4, validMsg .DELETE 4 [2], validMsg .TEXT 1 [1],
        validMsg .TEXT 3 [3]],
      blockIndex := false,
      delh := some { MinDeletableMessage := 1, MaxDeleteHistoryUpto := 0, DeletedUpto := 0 },
      maxMsgID := some 4 }
    (by decide) rfl
  ⟨rfl, h.1 _ (List.mem_cons_self _ _) _ (List.mem_cons_self _ _), h.2.1 4 rfl⟩

/-! ## C7: the horizon of a delete-history is exclusive -/

/-- C7.  For every store and every selected delete-history with horizon `U`, the
apply step leaves every stored message with id `≥ U` unchanged, and also every
stored message that is not a valid one (an error record) or that is valid with an
already empty body. -/
theorem applyDeleteHistory_exclusive (g : Context) (w : World) (batch : List MessageUnboxed)
    (act : delhTagged) (hsel : delhActive batch none = some act) :
    (∀ i, act.delh.Upto ≤ i →
      lookup (applyDeleteHistory (New g) w act.source act.delh).1.blocks i = lookup w.blocks i) ∧
    (∀ i m, lookup w.blocks i = some m →
      (m.IsValid = false ∨ ∃ mv, m = .Valid mv ∧ mv.MessageBody.IsNil = true) →
      lookup (applyDeleteHistory (New g) w act.source act.delh).1.blocks i = some m) := by
  have hpos := delhActive_pos batch act hsel
  constructor
  · intro i hi
    rw [lookup_applyDeleteHistory g w _ _ hpos, if_neg]
    rintro ⟨-, hlt⟩
    exact absurd hlt (Nat.not_lt.2 hi)
  · intro i m hl hm
    rw [lookup_applyDeleteHistory g w _ _ hpos, hl]
    have hc : clearByDeleteHistory g act.source m = m := by
      unfold clearByDeleteHistory
      split
      · rfl
      · rcases hm with hv | ⟨mv, rfl, hn⟩
        · cases m with
          | Valid mv => simp [MessageUnboxed.IsValid] at hv
          | Error e => rfl
          | Outbox o => rfl
          | Placeholder p => rfl
        · simp [hn]
    split
    · rw [Option.map_some', hc]
    · rfl

/-- C7, witnessed on the store holding the text messages 1, 2 and 3 and the
delete-history 10 with horizon 3: messages 1 and 2 are cleared with
`SupersededBy = 10`, message 3 is untouched. -/
theorem applyDeleteHistory_exclusive_witness :
    lookup (applyDeleteHistory (New exampleContext)
        (worldOf [validMsg .TEXT 3 [3], validMsg .TEXT 2 [2], validMsg .TEXT 1 [1]])
        (delhValid 10 3) { Upto := 3 }).1.blocks 3 = some (validMsg .TEXT 3 [3]) ∧
    lookup (applyDeleteHistory (New exampleContext)
        (worldOf [validMsg .TEXT 3 [3], validMsg .TEXT 2 [2], validMsg .TEXT 1 [1]])
        (delhValid 10 3) { Upto := 3 }).1.blocks 2 = some (clearedMsg .TEXT 2 10) ∧
    lookup (applyDeleteHistory (New exampleContext)
        (worldOf [validMsg .TEXT 3 [3], validMsg .TEXT 2 [2], validMsg .TEXT 1 [1]])
        (delhValid 10 3) { Upto := 3 }).1.blocks 1 = some (clearedMsg .TEXT 1 10) :=
  ⟨((applyDeleteHistory_exclusive exampleContext
      (worldOf [validMsg .TEXT 3 [3], validMsg .TEXT 2 [2], validMsg .TEXT 1 [1]])
      [delhMsg 10 3] { source := delhValid 10 3, delh := { Upto := 3 } } rfl).1 3
      (le_refl _)).trans rfl, rfl, rfl⟩

/-! ## C8: a delete-history merged into an empty store -/

/-- C8 (as stated, refuted).  From the empty store without tracker entry, `Merge`
of the single delete-history message 5 with horizon 100 first writes the message,
so the scan of the apply step finds a store that is not empty: the pass takes the
apply path, `Merge` reports `DeletedHistory = true`, and `DeletedUpto` is set to
100 together with `MaxDeleteHistoryUpto`. -/
theorem C8_counterexample :
    Merge (New exampleContext) emptyWorld [delhMsg 5 100] =
      some ({ blocks := [delhMsg 5 100], blockIndex := false,
              delh := some { MinDeletableMessage := 0, MaxDeleteHistoryUpto := 100,
                             DeletedUpto := 100 },
              maxMsgID := some 5 }, { DeletedHistory := true }, none) ∧
    emptyWorld.delh = none ∧ emptyWorld.blocks = [] := by
  refine ⟨rfl, rfl, rfl⟩

/-- C8 (amended).  Starting from an empty store with no tracker entry, a successful
`Merge` of a batch holding a single well-formed delete-history message whose id is
positive and below its `Upto`, and whose type is not deletable by delete-history,
is not record-only.  The message is written first and is then stored below its own
horizon, so the scan of the apply step returns it: the pass sets both
`MaxDeleteHistoryUpto` and `DeletedUpto` to the message's `Upto`, the message is
stored at its id, and the only records stored afterwards are valid ones with the
header and the body of that message. -/
theorem merge_single_delh_on_empty (g : Context) (w w' : World) (mv : MessageUnboxedValid)
    (res : MergeResult) (hempty : w.blocks = []) (hnone : w.delh = none)
    (htype : mv.ClientHeader.MessageType = MessageType.DELETEHISTORY)
    (hbody : mv.MessageBody.MessageType = some MessageType.DELETEHISTORY)
    (hupto : 0 < mv.MessageBody.Deletehistory.Upto)
    (hid : 0 < mv.ServerHeader.MessageID)
    (hbelow : mv.ServerHeader.MessageID < mv.MessageBody.Deletehistory.Upto)
    (hdel : g.IsDeletableByDeleteHistory MessageType.DELETEHISTORY = false)
    (hmerge : Merge (New g) w [.Valid mv] = some (w', res, none)) :
    w'.delh = some { MinDeletableMessage := 0,
                     MaxDeleteHistoryUpto := mv.MessageBody.Deletehistory.Upto,
                     DeletedUpto := mv.MessageBody.Deletehistory.Upto } ∧
    (∃ m ∈ ((New g).engine.ReadMessages (stageMin g w [.Valid mv]) NewInsatiableResultCollector
        (predMessageID mv.MessageBody.Deletehistory.Upto)).1.Result,
      m.GetMessageID = mv.ServerHeader.MessageID) ∧
    (∃ m, lookup w'.blocks mv.ServerHeader.MessageID = some m) ∧
    ∀ i m, lookup w'.blocks i = some m →
      ∃ mv1, m = .Valid mv1 ∧ mv1.ClientHeader = mv.ClientHeader ∧
        mv1.MessageBody = mv.MessageBody := by
  obtain ⟨rfl, -⟩ := Merge_New_success hmerge
  have hsel : delhActive [.Valid mv] none =
      some { source := mv, delh := mv.MessageBody.Deletehistory } := by
    simp [delhActive, MessageUnboxed.GetMessageType, htype, hbody, Nat.not_le.2 hupto]
  have hmindelh : (stageMin g w [.Valid mv]).delh = none := by
    rw [stageMin_delh, hnone, minDeletableMessageBatch_none g _ (by
      intro m hm
      rw [List.mem_singleton] at hm
      subst hm
      show g.IsDeletableByDeleteHistory mv.ClientHeader.MessageType = false
      rw [htype]
      exact hdel)]
    rfl
  have hstage : stageDelh g w [.Valid mv] =
      (applyDeleteHistory (New g) (stageMin g w [.Valid mv]) mv mv.MessageBody.Deletehistory).1 := by
    rw [stageDelh, handleDeleteHistory_New, hsel, hmindelh]
  have hss : ∀ i m, lookup (stageSupersede g w [.Valid mv]).blocks i = some m →
      ∃ mv1, m = .Valid mv1 ∧ mv1.ClientHeader = mv.ClientHeader ∧
        mv1.MessageBody = mv.MessageBody := by
    intro i m hl
    rw [lookup_stageSupersede, hempty] at hl
    have hx : ∀ x, (lookup [MessageUnboxed.Valid mv].reverse i).or (lookup [] i) = some x →
        x = .Valid mv := by
      intro x hx
      simp only [List.reverse_cons, List.reverse_nil, List.nil_append, lookup,
        List.find?_nil, Option.or_none] at hx
      exact (List.mem_singleton.1 (List.mem_of_find?_eq_some hx))
    by_cases hi : 0 < i
    · rw [if_pos hi] at hl
      cases hxx : (lookup [MessageUnboxed.Valid mv].reverse i).or (lookup [] i) with
      | none =>
        rw [hxx] at hl
        cases hl
      | some x =>
        rw [hxx, Option.map_some', Option.some.injEq, hx x hxx, passEffect_valid] at hl
        refine ⟨_, hl.symm, rfl, ?_⟩
        apply bodyAfter_no_delete
        intro m1 hm1
        rw [List.mem_singleton] at hm1
        subst hm1
        show mv.ClientHeader.MessageType ≠ MessageType.DELETE
        rw [htype]
        decide
    · rw [if_neg hi] at hl
      exact ⟨mv, hx m hl, rfl, rfl⟩
  have hin : (lookup (stageWrite g w [.Valid mv]).blocks mv.ServerHeader.MessageID).isSome =
      true := by
    rw [lookup_stageWrite_isSome]
    exact Or.inr ⟨.Valid mv, List.mem_singleton.2 rfl, rfl⟩
  have hstored : (lookup (stageMin g w [.Valid mv]).blocks mv.ServerHeader.MessageID).isSome =
      true := by
    rw [stageMin_blocks, lookup_stageSupersede_isSome]
    exact hin
  have hafter : (lookup (mergedWorld g w [.Valid mv]).blocks mv.ServerHeader.MessageID).isSome =
      true := by
    rw [mergedWorld_blocks, stageDelh, lookup_handleDeleteHistory_isSome]
    exact hstored
  have hscan : ∃ m ∈ ((New g).engine.ReadMessages (stageMin g w [.Valid mv])
        NewInsatiableResultCollector (predMessageID mv.MessageBody.Deletehistory.Upto)).1.Result,
      m.GetMessageID = mv.ServerHeader.MessageID := by
    obtain ⟨m, hm⟩ := Option.isSome_iff_exists.1 hstored
    refine ⟨m, ?_, lookup_id hm⟩
    rw [New_ReadMessages, NewInsatiableResultCollector, readMessagesFrom_insatiable]
    simp only [ResultCollector.Result, List.nil_append]
    rw [mem_storedBelow, predMessageID_pos hupto]
    exact ⟨_, hid, Nat.le_pred_of_lt hbelow, hm⟩
  refine ⟨?_, hscan, Option.isSome_iff_exists.1 hafter, ?_⟩
  · rw [mergedWorld_delh, hstage, applyDeleteHistory_delh, hmindelh]
    simp [newEntry]
  · intro i m hl
    rw [mergedWorld_blocks, hstage, lookup_applyDeleteHistory g _ _ _ hupto, stageMin_blocks] at hl
    by_cases hc : 0 < i ∧ i < mv.MessageBody.Deletehistory.Upto
    · rw [if_pos hc] at hl
      cases hx : lookup (stageSupersede g w [.Valid mv]).blocks i with
      | none => simp [hx] at hl
      | some x =>
        obtain ⟨mv1, rfl, h1, h2⟩ := hss i x hx
        rw [hx, Option.map_some', Option.some.injEq] at hl
        have hnd : g.IsDeletableByDeleteHistory (MessageUnboxed.Valid mv1).GetMessageType = false := by
          show g.IsDeletableByDeleteHistory mv1.ClientHeader.MessageType = false
          rw [h1, htype]
          exact hdel
        have hcl : clearByDeleteHistory g mv (.Valid mv1) = .Valid mv1 := by
          simp [clearByDeleteHistory, hnd]
        rw [hcl] at hl
        exact ⟨mv1, hl.symm, h1, h2⟩
    · rw [if_neg hc] at hl
      exact hss i m hl

/-- C8 (amended), witnessed on the empty store and the delete-history message 5
with horizon 100. -/
theorem merge_single_delh_on_empty_witness :
    (mergedWorld exampleContext emptyWorld [delhMsg 5 100]).delh =
      some { MinDeletableMessage := 0, MaxDeleteHistoryUpto := 100, DeletedUpto := 100 } :=
  (merge_single_delh_on_empty exampleContext emptyWorld _ (delhValid 5 100)
    { DeletedHistory := true } rfl rfl rfl rfl (by decide) (by decide) (by decide) rfl rfl).1

/-! ## C9: the decision of the delete-history pass -/

/-- C9.  With a selected delete-history of horizon `U`: when the tracker entry
`mem` exists and `mem.MaxDeleteHistoryUpto ≥ U`, the pass changes nothing and
returns `false`; otherwise, when `U < mem.MinDeletableMessage`, it only sets
`MaxDeleteHistoryUpto` to `U` and returns `false`; otherwise it runs the apply
step; and when the tracker entry is missing it always runs the apply step. -/
theorem handleDeleteHistory_decision (g : Context) (w : World) (batch : List MessageUnboxed)
    (act : delhTagged) (hsel : delhActive batch none = some act) :
    (∀ mem, w.delh = some mem → mem.MaxDeleteHistoryUpto ≥ act.delh.Upto →
      handleDeleteHistory (New g) w batch = (w, false, none)) ∧
    (∀ mem, w.delh = some mem → mem.MaxDeleteHistoryUpto < act.delh.Upto →
      act.delh.Upto < mem.MinDeletableMessage →
      handleDeleteHistory (New g) w batch =
        ({ w with delh := some { mem with MaxDeleteHistoryUpto := act.delh.Upto } },
          false, none)) ∧
    (∀ mem, w.delh = some mem → mem.MaxDeleteHistoryUpto < act.delh.Upto →
      mem.MinDeletableMessage ≤ act.delh.Upto →
      handleDeleteHistory (New g) w batch =
        applyDeleteHistory (New g) w act.source act.delh) ∧
    (w.delh = none →
      handleDeleteHistory (New g) w batch =
        applyDeleteHistory (New g) w act.source act.delh) := by
  refine ⟨?_, ?_, ?_, ?_⟩
  · intro mem hm hge
    rw [handleDeleteHistory_New, hsel, hm]
    simp only []
    rw [if_pos hge]
  · intro mem hm hlt hmin
    rw [handleDeleteHistory_New, hsel, hm]
    simp only []
    rw [if_neg (Nat.not_le.2 hlt), if_pos hmin]
  · intro mem hm hlt hmin
    rw [handleDeleteHistory_New, hsel, hm]
    simp only []
    rw [if_neg (Nat.not_le.2 hlt), if_neg (Nat.not_lt.2 hmin)]
  · intro hm
    rw [handleDeleteHistory_New, hsel, hm]

/-- C9, witnessed on a tracker entry with `MinDeletableMessage = 50` and the
delete-history 60 with horizon 40, which is record-only. -/
theorem handleDeleteHistory_decision_witness :
    handleDeleteHistory (New exampleContext)
        { blocks := [validMsg .TEXT 50 [1]], blockIndex := true,
          delh := some { MinDeletableMessage := 50, MaxDeleteHistoryUpto := 0, DeletedUpto := 0 },
          maxMsgID := some 50 } [delhMsg 60 40] =
      ({ blocks := [validMsg .TEXT 50 [1]], blockIndex := true,
         delh := some { MinDeletableMessage := 50, MaxDeleteHistoryUpto := 40, DeletedUpto := 0 },
         maxMsgID := some 50 }, false, none) :=
  (handleDeleteHistory_decision exampleContext
    { blocks := [validMsg .TEXT 50 [1]], blockIndex := true,
      delh := some { MinDeletableMessage := 50, MaxDeleteHistoryUpto := 0, DeletedUpto := 0 },
      maxMsgID := some 50 } [delhMsg 60 40]
    { source := delhValid 60 40, delh := { Upto := 40 } } rfl).2.1 _ rfl (by decide) (by decide)

/-! ## C10: invariant I3 across `Merge` -/

/-- C10.  With `setDeletedUpto(u)` setting `DeletedUpto` to `u` and raising
`MaxDeleteHistoryUpto` to at least `u`, and `setMaxDeleteHistoryUpto(u)` setting
`MaxDeleteHistoryUpto` to `u` (the tracker of `New`), I3 is preserved by `Merge`:
for every state with `DeletedUpto ≤ MaxDeleteHistoryUpto` and every batch, the
same holds after `Merge` returns success. -/
theorem merge_preserves_I3 (g : Context) (w w' : World) (batch : List MessageUnboxed)
    (res : MergeResult) (hI3 : invariantI3 w)
    (hmerge : Merge (New g) w batch = some (w', res, none)) : invariantI3 w' := by
  obtain ⟨rfl, -⟩ := Merge_New_success hmerge
  have hmin : invariantI3 (stageMin g w batch) := by
    intro e he
    rw [stageMin_delh] at he
    obtain ⟨h1, h2⟩ := minDeletableEntry_some _ _ e he
    rw [h1, h2]
    cases hw : w.delh with
    | none => exact le_refl _
    | some e0 => exact hI3 e0 hw
  have happly : ∀ act : delhTagged,
      invariantI3 (applyDeleteHistory (New g) (stageMin g w batch) act.source act.delh).1 := by
    intro act e he
    rw [applyDeleteHistory_delh, Option.some.injEq] at he
    rw [← he]
    exact le_max_right _ _
  have hdelh : invariantI3 (stageDelh g w batch) := by
    rw [stageDelh, handleDeleteHistory_New]
    cases delhActive batch none with
    | none => exact hmin
    | some act =>
      cases hd : (stageMin g w batch).delh with
      | none => exact happly act
      | some mem =>
        simp only []
        by_cases h1 : mem.MaxDeleteHistoryUpto ≥ act.delh.Upto
        · rw [if_pos h1]
          exact hmin
        · rw [if_neg h1]
          split
          · intro e he
            simp only [Option.some.injEq] at he
            rw [← he]
            exact le_trans (hmin mem hd) (Nat.le_of_lt (Nat.lt_of_not_ge h1))
          · exact happly act
  intro e he
  rw [mergedWorld_delh] at he
  exact hdelh e he

/-- C10, witnessed on the store holding the text messages 1, 2 and 3 with the
tracker entry left by their merge, and the batch made of the delete-history 10
with horizon 3. -/
theorem merge_preserves_I3_witness :
    invariantI3
      { blocks := [clearedMsg .TEXT 1 10, clearedMsg .TEXT 2 10, delhMsg 10 3,
          validMsg .TEXT 3 [3]],
        blockIndex := true,
        delh := some { MinDeletableMessage := 1, MaxDeleteHistoryUpto := 3, DeletedUpto := 3 },
        maxMsgID := some 10 } :=
  merge_preserves_I3 exampleContext
    { blocks := [validMsg .TEXT 3 [3], validMsg .TEXT 2 [2], validMsg .TEXT 1 [1]],
      blockIndex := true,
      delh := some { MinDeletableMessage := 1, MaxDeleteHistoryUpto := 0, DeletedUpto := 0 },
      maxMsgID := some 3 } _ [delhMsg 10 3] { DeletedHistory := true }
    (by intro e he; cases he; decide) rfl

/-! ## C11: the smallest deletable id and invariant I5 -/

/-- C11 (as stated, refuted).  The store holds the text message 1 with its body and
no tracker entry, so I5 holds (the minimum is unset).  `Merge` of the batch made
of the text message 5 sets `MinDeletableMessage` to 5, the minimum over the batch
alone, and message 1 is then a stored deletable message with a body below it. -/
theorem C11_counterexample :
    invariantI5 exampleContext (worldOf [validMsg .TEXT 1 [1]]) ∧
    Merge (New exampleContext) (worldOf [validMsg .TEXT 1 [1]]) [validMsg .TEXT 5 [5]] =
      some ({ blocks := [validMsg .TEXT 5 [5], validMsg .TEXT 1 [1]], blockIndex := true,
              delh := some { MinDeletableMessage := 5, MaxDeleteHistoryUpto := 0,
                             DeletedUpto := 0 },
              maxMsgID := some 5 }, { DeletedHistory := false }, none) ∧
    ¬ invariantI5 exampleContext
      { blocks := [validMsg .TEXT 5 [5], validMsg .TEXT 1 [1]], blockIndex := true,
        delh := some { MinDeletableMessage := 5, MaxDeleteHistoryUpto := 0, DeletedUpto := 0 },
        maxMsgID := some 5 } := by
  refine ⟨?_, rfl, ?_⟩
  · intro h
    exact absurd h (by decide)
  · intro h
    have := h (by decide) 1 (validMsg .TEXT 1 [1]) (by decide) rfl rfl
    exact absurd this (by decide)

/-- C11 (amended).  `updateMinDeletableMessage` leaves the tracker unchanged when the
batch has no valid, deletable message with a body, and otherwise sets
`MinDeletableMessage` to the smallest id `b` of such a message when the stored
value is unset (0 or missing) and to the smaller of the two when it is set.  Hence,
for every state that satisfies I5 and in which the tracker is set whenever a valid
deletable message with a body is stored, I5 holds after every successful `Merge`;
and the tracker still knows of the store when the batch carries such messages
under positive ids only. -/
theorem updateMinDeletableMessage_keeps_I5 (g : Context) (w w' : World)
    (batch : List MessageUnboxed) (res : MergeResult) :
    ((∀ m ∈ batch, hasDeletableBody g m = false) →
      updateMinDeletableMessage (New g) w batch = (w, none)) ∧
    (∀ b, (∃ m ∈ batch, hasDeletableBody g m = true ∧ m.GetMessageID = b) →
      (∀ m ∈ batch, hasDeletableBody g m = true → b ≤ m.GetMessageID) →
      updateMinDeletableMessage (New g) w batch =
        ({ w with delh := some { (w.delh.getD newEntry) with
            MinDeletableMessage :=
              if minDeletableOf w = 0 then b else min (minDeletableOf w) b } }, none)) ∧
    (invariantI5 g w → minDeletableTracked g w →
      Merge (New g) w batch = some (w', res, none) →
      invariantI5 g w' ∧
      ((∀ m ∈ batch, hasDeletableBody g m = true → 0 < m.GetMessageID) →
        minDeletableTracked g w')) := by
  obtain ⟨hnone, hsome⟩ := minDeletableMessageBatch_spec g batch none
  refine ⟨?_, ?_, ?_⟩
  · intro hno
    rw [updateMinDeletableMessage_New, hnone.2 ⟨rfl, hno⟩]
    rfl
  · intro b hex hmin
    rw [updateMinDeletableMessage_New]
    cases hb : minDeletableMessageBatch (New g) batch none with
    | none =>
      obtain ⟨m, hm, hmq, -⟩ := hex
      have := (hnone.1 hb).2 m hm
      rw [hmq] at this
      exact absurd this (by decide)
    | some bb =>
      obtain ⟨hfrom, -, hle⟩ := hsome bb hb
      have hbb : bb = b := by
        rcases hfrom with hfrom | ⟨x, hx, hxq, hid⟩
        · cases hfrom
        · obtain ⟨m, hm, hmq, hmid⟩ := hex
          apply Nat.le_antisymm
          · rw [← hmid]
            exact hle m hm hmq
          · rw [← hid]
            exact hmin x hx hxq
      subst hbb
      rw [minDeletableEntry_eq_min, minDeletableOf_getD]
  · intro hI5 hT hmerge
    obtain ⟨rfl, -⟩ := Merge_New_success hmerge
    constructor
    · intro hpos i m hi hl hb
      rw [minDeletableOf_mergedWorld] at hpos ⊢
      rw [mergedWorld_blocks] at hl
      exact invariantI5_handleDeleteHistory g _ batch (invariantI5_stageMin g w batch hI5 hT)
        hpos i m hi hl hb
    · intro hids hzero i m hi hl
      rw [minDeletableOf_mergedWorld] at hzero
      rw [mergedWorld_blocks] at hl
      exact minDeletableTracked_handleDeleteHistory g _ batch
        (minDeletableTracked_stageMin g w batch hT hids) hzero i m hi hl

/-- C11 (amended), witnessed on the store that holds the text message 3 with the
tracker entry of its merge, and the batch made of the text message 5: the
tracked minimum stays 3. -/
theorem updateMinDeletableMessage_keeps_I5_witness :
    updateMinDeletableMessage (New exampleContext)
        { blocks := [validMsg .TEXT 3 [3]], blockIndex := true,
          delh := some { MinDeletableMessage := 3, MaxDeleteHistoryUpto := 0, DeletedUpto := 0 },
          maxMsgID := some 3 } [validMsg .TEXT 5 [5]] =
      ({ blocks := [validMsg .TEXT 3 [3]], blockIndex := true,
         delh := some { MinDeletableMessage := 3, MaxDeleteHistoryUpto := 0, DeletedUpto := 0 },
         maxMsgID := some 3 }, none) ∧
    invariantI5 exampleContext
      { blocks := [validMsg .TEXT 5 [5], validMsg .TEXT 3 [3]], blockIndex := true,
        delh := some { MinDeletableMessage := 3, MaxDeleteHistoryUpto := 0, DeletedUpto := 0 },
        maxMsgID := some 5 } :=
  have h := updateMinDeletableMessage_keeps_I5 exampleContext
    { blocks := [validMsg .TEXT 3 [3]], blockIndex := true,
      delh := some { MinDeletableMessage := 3, MaxDeleteHistoryUpto := 0, DeletedUpto := 0 },
      maxMsgID := some 3 }
    { blocks := [validMsg .TEXT 5 [5], validMsg .TEXT 3 [3]], blockIndex := true,
      delh := some { MinDeletableMessage := 3, MaxDeleteHistoryUpto := 0, DeletedUpto := 0 },
      maxMsgID := some 5 }
    [validMsg .TEXT 5 [5]] { DeletedHistory := false }
  ⟨(h.2.1 5 ⟨_, List.mem_cons_self _ _, rfl, rfl⟩
      (by intro m hm _; rw [List.mem_singleton.1 hm]; exact le_refl _)).trans rfl,
    (h.2.2
      (by
        intro _ i m hi hl hb
        by_cases h3 : i = 3
        · rw [h3]; exact le_refl _
        · exfalso
          have hid := lookup_id hl
          simp [lookup, validMsg, MessageUnboxed.GetMessageID, Ne.symm h3] at hl)
      (by intro h0; exact absurd h0 (by decide))
      rfl).1⟩

/-! ## C12: the scan driven by `Simple` -/

/-- C12 (as stated, refuted).  The store holds the messages 3 and 1, so the two
largest stored ids up to 3 are 3 and 1.  The scan from 3 driven by `Simple(2)`
pushes message 3, meets the gap at id 2, which `Simple` does not accept, and ends
with `MissError` for id 2 and the single message 3. -/
theorem C12_counterexample :
    storedBelow [validMsg .TEXT 3 [3], validMsg .TEXT 1 [1]] 3 =
      [validMsg .TEXT 3 [3], validMsg .TEXT 1 [1]] ∧
    (New exampleContext).engine.ReadMessages
        (worldOf [validMsg .TEXT 3 [3], validMsg .TEXT 1 [1]]) (NewSimpleResultCollector 2) 3 =
      (.Simple [validMsg .TEXT 3 [3]] 2, some (Error.MissError 2)) := by
  refine ⟨rfl, rfl⟩

/-- C12 (amended).  For every store, every `maxID` and every `n ≥ 0`: when none of
the ids `maxID, maxID - 1, …` down to the `n`-th (or down to 1) is a gap, the
descending scan driven by `Simple(n)` returns without error the messages stored at
these ids in that order, which are then the `n` largest stored ids `≤ maxID` (all of
them when `maxID < n`).  A gap met before `n` messages are collected ends the scan
with `MissError` for that id, after the messages above it were collected and
whatever is stored below it; the `Error` hook of the collector returns the
`MissError` when `n ≥ 0` and nil when `n < 0`. -/
theorem scan_simple (g : Context) (w : World) (maxID : MessageID) (n : Int) :
    (0 ≤ n →
      (∀ j, j < min n.toNat maxID → (lookup w.blocks (maxID - j)).isSome = true) →
      ∃ L, (New g).engine.ReadMessages w (NewSimpleResultCollector n) maxID =
          (.Simple L n, none) ∧
        L.map some =
          (List.range (min n.toNat maxID)).map (fun j => lookup w.blocks (maxID - j))) ∧
    (∀ d : Nat, d < maxID → (n < 0 ∨ (d : Int) < n) →
      (∀ j, j < d → (lookup w.blocks (maxID - j)).isSome = true) →
      lookup w.blocks (maxID - d) = none →
      ∃ L, (New g).engine.ReadMessages w (NewSimpleResultCollector n) maxID =
          (.Simple L n, if n < 0 then none else some (Error.MissError (maxID - d))) ∧
        L.map some = (List.range d).map (fun j => lookup w.blocks (maxID - j))) ∧
    (∀ res id, (ResultCollector.Simple res n).Error (Error.MissError id) =
      if n < 0 then none else some (Error.MissError id)) := by
  refine ⟨?_, ?_, ?_⟩
  · intro hn hfull
    obtain ⟨L, hL, hmap⟩ := readMessagesFrom_simple_full w.blocks maxID [] n n.toNat
      (by simp only [List.length_nil]; omega) hfull
    refine ⟨L, ?_, hmap⟩
    rw [New_ReadMessages, NewSimpleResultCollector, hL]
    rfl
  · intro d hd hn hfull hgap
    obtain ⟨L, hL, hmap⟩ := readMessagesFrom_simple_gap w.blocks maxID [] n d hd hfull hgap
      (by simpa using hn)
    refine ⟨L, ?_, hmap⟩
    rw [New_ReadMessages, NewSimpleResultCollector, hL]
    simp only [List.nil_append, ResultCollector.Error]
  · intro res id
    simp only [ResultCollector.Error]

/-- C12 (amended), witnessed on the store of the messages 1 to 20: the scan from 9
driven by `Simple(3)` returns the messages 9, 8 and 7. -/
theorem scan_simple_witness :
    ∃ L, (New exampleContext).engine.ReadMessages (worldOf (textStore 20))
        (NewSimpleResultCollector 3) 9 = (.Simple L 3, none) ∧
      L.map some =
        (List.range (min (3 : Int).toNat 9)).map
          (fun j => lookup (worldOf (textStore 20)).blocks (9 - j)) :=
  (scan_simple exampleContext (worldOf (textStore 20)) 9 3).1 (by decide) (by decide)
/-! ## C13: the scan driven by `Holey` over `Simple` -/

/-- C13 (as stated, refuted).  Three scans of a store that holds one record.  With
`n = -1` the inner `Simple` is never done: the scan of message 1 driven by
`Holey(0, Simple(-1))` returns that message, a result of length 1, more than `n`.
With `h = -1` the scan driven by `Holey(-1, Simple(1))` returns message 1 and no
placeholder, and 0 placeholders are more than `h`.  When the record stored at id 1
is itself a placeholder, the scan driven by `Holey(0, Simple(1))` returns it: one
placeholder, more than `h = 0`, and its id is not a gap. -/
theorem C13_counterexample :
    ((New exampleContext).engine.ReadMessages (worldOf [validMsg .TEXT 1 [1]])
        (NewHoleyResultCollector 0 (NewSimpleResultCollector (-1))) 1).1.Result =
      [validMsg .TEXT 1 [1]] ∧
    ¬ (([validMsg .TEXT 1 [1]] : List MessageUnboxed).length : Int) ≤ -1 ∧
    ((New exampleContext).engine.ReadMessages (worldOf [validMsg .TEXT 1 [1]])
        (NewHoleyResultCollector (-1) (NewSimpleResultCollector 1)) 1).1.Result =
      [validMsg .TEXT 1 [1]] ∧
    ¬ ((([validMsg .TEXT 1 [1]] : List MessageUnboxed).countP
      MessageUnboxed.IsPlaceholder : Int) ≤ -1) ∧
    ((New exampleContext).engine.ReadMessages (worldOf [.Placeholder { MessageID := 1 }])
        (NewHoleyResultCollector 0 (NewSimpleResultCollector 1)) 1).1.Result =
      [.Placeholder { MessageID := 1 }] ∧
    ¬ ((([.Placeholder { MessageID := 1 }] : List MessageUnboxed).countP
      MessageUnboxed.IsPlaceholder : Int) ≤ 0) ∧
    lookup (worldOf [.Placeholder { MessageID := 1 }]).blocks 1 =
      some (.Placeholder { MessageID := 1 }) := by
  refine ⟨rfl, by decide, rfl, by decide, rfl, by decide, rfl⟩

/-- C13 (amended).  For every store that holds no placeholder record, every
`maxID`, every `h ≥ 0` and every `n ≥ 0`, the descending scan driven by
`Holey(h, Simple(n))` yields a result of length at most `n` that contains at most
`h` placeholders, and each placeholder carries the id of the gap it stands for: a
positive id `≤ maxID` at which nothing is stored. -/
theorem scan_holey (g : Context) (w : World) (maxID : MessageID) (h n : Int)
    (hstore : ∀ i m, lookup w.blocks i = some m → m.IsPlaceholder = false)
    (hh : 0 ≤ h) (hn : 0 ≤ n) :
    let res := ((New g).engine.ReadMessages w
      (NewHoleyResultCollector h (NewSimpleResultCollector n)) maxID).1.Result
    (res.length : Int) ≤ n ∧
    (res.countP MessageUnboxed.IsPlaceholder : Int) ≤ h ∧
    ∀ p ∈ res, p.IsPlaceholder = true →
      ∃ i, p = .Placeholder { MessageID := i } ∧ 0 < i ∧ i ≤ maxID ∧
        lookup w.blocks i = none := by
  obtain ⟨L, holes1, err, hL, hph, hcp, hcs⟩ :=
    readMessagesFrom_holey w.blocks hstore maxID [] n h 0
  have hres : ((New g).engine.ReadMessages w
      (NewHoleyResultCollector h (NewSimpleResultCollector n)) maxID).1.Result = L := by
    rw [New_ReadMessages, NewHoleyResultCollector, NewSimpleResultCollector, hL]
    cases err <;> rfl
  simp only [hres]
  have h1 : (L.countP MessageUnboxed.IsPlaceholder : Int) ≤ h := by
    have := hcp
    rw [Int.sub_zero, max_eq_right hh] at this
    exact this
  have h2 : (L.length : Int) ≤ n := by
    have := hcs hn
    simp only [List.length_nil, Int.Nat.cast_ofNat_Int, Int.sub_zero] at this
    rw [max_eq_right hn] at this
    exact this
  exact ⟨h2, h1, hph⟩

/-- C13 (amended), witnessed on the store holding message 1 only and the scan
from 3 driven by `Holey(5, Simple(2))`: the gaps 3 and 2 become placeholders, and
with them the inner `Simple(2)` is done before the scan reaches message 1. -/
theorem scan_holey_witness :
    ((New exampleContext).engine.ReadMessages (worldOf [validMsg .TEXT 1 [1]])
        (NewHoleyResultCollector 5 (NewSimpleResultCollector 2)) 3).1.Result =
      [.Placeholder { MessageID := 3 }, .Placeholder { MessageID := 2 }] ∧
    (([.Placeholder { MessageID := 3 }, .Placeholder { MessageID := 2 }] :
      List MessageUnboxed).length : Int) ≤ 2 ∧
    (([.Placeholder { MessageID := 3 }, .Placeholder { MessageID := 2 }] :
      List MessageUnboxed).countP MessageUnboxed.IsPlaceholder : Int) ≤ 5 :=
  have hw := scan_holey exampleContext (worldOf [validMsg .TEXT 1 [1]]) 3 5 2
    (by
      intro i m hl
      have hm : m ∈ (worldOf [validMsg .TEXT 1 [1]]).blocks := List.mem_of_find?_eq_some hl
      rw [List.mem_singleton.1 hm]
      rfl)
    (by decide) (by decide)
  ⟨rfl, hw.1, hw.2.1⟩


/-! ## C14: the seek parameters of a fetch -/

/-- C14.  The seek parameters `(maxID, num)` of `fetchUpToMsgIDLocked` are: without
a pagination object the seed and 10000; with both cursors empty the seed and `Num`;
with `Next` not empty and decoding to `pid`, `pid - 1` and `Num`, whatever
`Previous` holds; with `Next` empty and `Previous` decoding to `pid`, `pid + Num`
and `Num`.  The two sums are those of the Go integer types: they are the plain
ones for `pid > 0` and for `0 ≤ pid + Num < 2 ^ 64`. -/
theorem seekParameters_cases (s : Storage) (seed : MessageID) :
    seekParameters s seed none = .ok (seed, 10000) ∧
    (∀ p : Pagination, p.Next = [] → p.Previous = [] →
      seekParameters s seed (some p) = .ok (seed, p.Num)) ∧
    (∀ (p : Pagination) (pid : MessageID), p.Next ≠ [] → s.g.decode p.Next = .ok pid →
      seekParameters s seed (some p) = .ok (predMessageID pid, p.Num) ∧
      (0 < pid → predMessageID pid = pid - 1)) ∧
    (∀ (p : Pagination) (pid : MessageID), p.Next = [] → p.Previous ≠ [] →
      s.g.decode p.Previous = .ok pid →
      seekParameters s seed (some p) = .ok (addMessageID pid p.Num, p.Num) ∧
      (0 ≤ (pid : Int) + p.Num → (pid : Int) + p.Num < 2 ^ 64 →
        ((addMessageID pid p.Num : Nat) : Int) = (pid : Int) + p.Num)) := by
  refine ⟨rfl, ?_, ?_, ?_⟩
  · intro p h1 h2
    simp [seekParameters, h1, h2]
  · intro p pid h1 hdec
    have hlen : p.Next.length > 0 := List.length_pos.2 h1
    have hne : ¬ (p.Next.length = 0 ∧ p.Previous.length = 0) := fun h =>
      absurd h.1 (Nat.pos_iff_ne_zero.1 hlen)
    refine ⟨?_, fun hp => predMessageID_pos hp⟩
    simp only [seekParameters]
    rw [if_neg hne, if_pos hlen, hdec]
  · intro p pid h1 h2 hdec
    have hlen : p.Previous.length > 0 := List.length_pos.2 h2
    have hne : ¬ (p.Next.length = 0 ∧ p.Previous.length = 0) := fun h =>
      absurd h.2 (Nat.pos_iff_ne_zero.1 hlen)
    have hnext : ¬ p.Next.length > 0 := by
      rw [h1]
      exact Nat.lt_irrefl 0
    refine ⟨?_, ?_⟩
    · simp only [seekParameters]
      rw [if_neg hne, if_neg hnext, hdec]
    · intro h0 hlt
      unfold addMessageID
      rw [Int.emod_eq_of_lt h0 hlt]
      exact Int.toNat_of_nonneg h0

/-- C14, witnessed on the store of the messages 1 to 20: with `Next = encode(10)`
and `Num = 3` the scan starts from 9 and `Fetch` returns the messages 9, 8, 7. -/
theorem seekParameters_cases_witness :
    seekParameters (New exampleContext) 20
        (some { Next := [10], Previous := [], Num := 3, Last := false }) =
      .ok (predMessageID 10, 3) ∧
    predMessageID 10 = 10 - 1 ∧
    (Fetch (New exampleContext) (worldOf (textStore 20)) { MaxMsgid := 20 } none none
        (some { Next := [10], Previous := [], Num := 3, Last := false })).map
      (fun r => (r.2.1.Messages.map MessageUnboxed.GetMessageID, r.2.2)) =
      some ([9, 8, 7], none) :=
  have h := (seekParameters_cases (New exampleContext) 20).2.2.1
    { Next := [10], Previous := [], Num := 3, Last := false } 10 (by decide) rfl
  ⟨h.1, h.2 (by decide), rfl⟩

/-! ## C15: fetching single messages -/

/-- C15.  For every store and every list of (positive) message ids, with the secret
key available, `FetchMessages` on the engine of `New`, whose reads fail with
`MissError` only, returns without failing a list of the same length as `ids` in
which slot `k` is the stored message with id `ids[k]` when one is stored and is
absent when the engine reported `MissError` for it. -/
theorem FetchMessages_slots (g : Context) (w : World) (ids : List MessageID) (key : SecretKey)
    (hkey : g.getSecretBoxKey w = .ok key) (hpos : ∀ i ∈ ids, 0 < i) :
    ∃ slots, FetchMessages (New g) w ids = some (w, slots, none) ∧
      slots.length = ids.length ∧
      ∀ k (hk : k < ids.length),
        slots.get? k = some (lookup w.blocks (ids.get ⟨k, hk⟩)) ∧
        (lookup w.blocks (ids.get ⟨k, hk⟩) = none →
          (New g).engine.ReadMessages w (NewSimpleResultCollector 1) (ids.get ⟨k, hk⟩) =
            (.Simple [] 1, some (Error.MissError (ids.get ⟨k, hk⟩)))) := by
  refine ⟨ids.map (fun i => lookup w.blocks i), ?_, by simp, ?_⟩
  · have hg : (New g).g = g := rfl
    have hi : (New g).engine.Init w key = none := rfl
    simp only [FetchMessages, hg, hkey, hi]
    rw [fetchMessagesLoop_New g w ids [] hpos, List.nil_append]
  · intro k hk
    refine ⟨?_, fun hnone => ?_⟩
    · rw [List.get?_eq_getElem?, List.getElem?_map, List.getElem?_eq_getElem hk]
      rfl
    · exact ReadMessages_one_miss g w _ (hpos _ (List.get_mem ids k hk)) hnone

/-- C15, witnessed on the store of the messages 3 and 1 and the ids 3, 2, 1. -/
theorem FetchMessages_slots_witness :
    ∃ slots, FetchMessages (New exampleContext)
        (worldOf [validMsg .TEXT 3 [3], validMsg .TEXT 1 [1]]) [3, 2, 1] =
        some (worldOf [validMsg .TEXT 3 [3], validMsg .TEXT 1 [1]], slots, none) ∧
      slots.length = [3, 2, 1].length ∧ slots.get? 1 = some none :=
  have ⟨slots, h1, h2, h3⟩ := FetchMessages_slots exampleContext
    (worldOf [validMsg .TEXT 3 [3], validMsg .TEXT 1 [1]]) [3, 2, 1] [] rfl (by decide)
  ⟨slots, h1, h2, (h3 1 (by decide)).1.trans rfl⟩

/-! ## C16: corruption reported by the engine -/

/-- C16 (the code at the failing inputs).  `CorruptError` asks for a clear.  When
`Init` fails with it inside `Merge`, and when `ReadMessages` fails with it inside
`Fetch`, the operation returns the error with the world untouched: the block-index
key is still present.  The sibling paths do clear it: `Init` inside `Fetch` and
`FetchMessages`, `ReadMessages` inside `FetchMessages`, `WriteMessages` inside
`Merge`. -/
theorem corrupt_engine_call_keeps_index :
    Error.CorruptError.ShouldClear = true ∧
    (worldOf []).blockIndex = true ∧
    Merge corruptInitStorage (worldOf []) [validMsg .TEXT 1 [1]] =
      some (worldOf [], { DeletedHistory := false }, some Error.CorruptError) ∧
    Fetch corruptReadStorage (worldOf []) { MaxMsgid := 1 } none none none =
      some (worldOf [], { Messages := [], Pagination := none }, some Error.CorruptError) ∧
    Fetch corruptInitStorage (worldOf []) { MaxMsgid := 1 } none none none =
      some ({ worldOf [] with blockIndex := false }, { Messages := [], Pagination := none },
        some Error.CorruptError) ∧
    FetchMessages corruptInitStorage (worldOf []) [1] =
      some ({ worldOf [] with blockIndex := false }, [], some Error.CorruptError) ∧
    FetchMessages corruptReadStorage (worldOf []) [1] =
      some ({ worldOf [] with blockIndex := false }, [], some Error.CorruptError) ∧
    Merge corruptWriteStorage (worldOf []) [validMsg .TEXT 1 [1]] =
      some ({ worldOf [] with blockIndex := false }, { DeletedHistory := false },
        some Error.CorruptError) := by
  refine ⟨rfl, rfl, rfl, rfl, rfl, rfl, rfl, rfl⟩

/-! ## C17: `MaybeNuke` -/

/-- C17.  For every force flag, every error and every outcome of the backend
calls, whenever `MaybeNuke` returns it returns the error it was given.  It issues
the block-index `Delete` exactly when `force` is true or the error asks for a
clear: otherwise the world is returned untouched, whatever the backend would do,
and in that case the result is the one that starts from `Delete` applied to the
world. -/
theorem MaybeNuke_returns_err (s : Storage) (force : Bool) (err : Error) (w : World) :
    (∀ w1 e, MaybeNuke s force err w = some (w1, e) → e = err) ∧
    (force = false → err.ShouldClear = false → MaybeNuke s force err w = some (w, err)) ∧
    ((force = true ∨ err.ShouldClear = true) →
      MaybeNuke s force err w =
        match s.g.LocalChatDb.Delete w with
        | (w1, some _) =>
          match s.g.LocalChatDb.Nuke w1 with
          | (_, some _) => none
          | (w2, none) => some (w2, err)
        | (w1, none) => some (w1, err)) := by
  refine ⟨?_, ?_, ?_⟩
  · intro w1 e h
    unfold MaybeNuke at h
    split at h
    · split at h
      · split at h
        · cases h
        · simp only [Option.some.injEq, Prod.mk.injEq] at h
          exact h.2.symm
      · simp only [Option.some.injEq, Prod.mk.injEq] at h
        exact h.2.symm
    · simp only [Option.some.injEq, Prod.mk.injEq] at h
      exact h.2.symm
  · intro hf hc
    simp [MaybeNuke, hf, hc]
  · intro h
    have hcond : (force || err.ShouldClear) = true := by
      rcases h with h | h <;> simp [h]
    simp only [MaybeNuke, hcond, if_true]

/-- C17, witnessed on a corrupt record without the force flag: the key is deleted
and the error comes back. -/
theorem MaybeNuke_returns_err_witness :
    MaybeNuke (New exampleContext) false Error.CorruptError (worldOf []) =
      some ({ worldOf [] with blockIndex := false }, Error.CorruptError) ∧
    MaybeNuke (New exampleContext) false (Error.MissError 3) (worldOf []) =
      some (worldOf [], Error.MissError 3) :=
  ⟨((MaybeNuke_returns_err (New exampleContext) false Error.CorruptError (worldOf [])).2.2
      (Or.inr rfl)).trans rfl,
    (MaybeNuke_returns_err (New exampleContext) false (Error.MissError 3) (worldOf [])).2.1
      rfl rfl⟩

/-! ## C18: a superseder that is not a `DELETE` -/

/-- C18.  For every superseder `m` whose type is not `DELETE` and every valid
target stored at `t` (reading `t` returns it), the supersedes step for `(m, t)`
succeeds and changes only the target's `SupersededBy`, setting it to the id of `m`:
the body and every other field of the target, every other stored message and the
trackers are what they were before. -/
theorem supersede_step_keeps_body (g : Context) (w : World) (m : MessageUnboxed)
    (t : MessageID) (tv : MessageUnboxedValid)
    (htype : m.GetMessageType ≠ MessageType.DELETE)
    (hread : (New g).engine.ReadMessages w (NewSimpleResultCollector 1) t =
      (.Simple [.Valid tv] 1, none)) :
    (supersedeTargets (New g) m [t] w).2 = none ∧
    lookup (supersedeTargets (New g) m [t] w).1.blocks t =
      some (.Valid { tv with
        ServerHeader := { tv.ServerHeader with SupersededBy := m.GetMessageID } }) ∧
    (∀ i, i ≠ t → lookup (supersedeTargets (New g) m [t] w).1.blocks i = lookup w.blocks i) ∧
    (supersedeTargets (New g) m [t] w).1.delh = w.delh ∧
    (supersedeTargets (New g) m [t] w).1.maxMsgID = w.maxMsgID ∧
    (supersedeTargets (New g) m [t] w).1.blockIndex = w.blockIndex := by
  obtain ⟨ht, hl⟩ := ReadMessages_one_inv g w t _ hread
  obtain ⟨h1, h2, h3, h4, h5⟩ := supersedeTargets_New g m [t] w
  refine ⟨h1, ?_, ?_, h3, h4, h2⟩
  · rw [h5 t, if_pos ⟨ht, List.mem_singleton_self t⟩, hl, Option.map_some']
    simp only [markSuperseded, htype, if_false]
  · intro i hi
    rw [h5 i, if_neg]
    rintro ⟨-, hmem⟩
    exact hi (List.mem_singleton.1 hmem)

/-- C18, witnessed on the store holding text message 1 and the `EDIT` 5 that
supersedes it. -/
theorem supersede_step_keeps_body_witness :
    lookup (supersedeTargets (New exampleContext) (validMsg .EDIT 5 [1]) [1]
        (worldOf [validMsg .TEXT 1 [7]])).1.blocks 1 =
      some (.Valid { ClientHeader := { MessageType := .TEXT, Sender := 1 }
                     ServerHeader := { MessageID := 1, SupersededBy := 5 }
                     MessageBody :=
                       { MessageType__ := .TEXT, variant := some { Upto := 0, data := [7] } } }) :=
  (supersede_step_keeps_body exampleContext (worldOf [validMsg .TEXT 1 [7]])
    (validMsg .EDIT 5 [1]) 1 _ (by decide) rfl).2.1

/-! ## C19: the typed collector -/

/-- C19.  For every `n`, every type list and every sequence of pushed messages,
the result of `Typed(n, types)` is the pushed sequence in push order, `Done` is
true exactly when `n ≥ 0` and at least `n` of the pushed messages have a type of
the list, and the `Error` hook returns nil exactly when `n < 0` and the error is a
`MissError`, and the error unchanged otherwise. -/
theorem typed_collector (n : Int) (types : List MessageType) (msgs : List MessageUnboxed) :
    (msgs.foldl ResultCollector.Push (NewTypedResultCollector n types)).Result = msgs ∧
    ((msgs.foldl ResultCollector.Push (NewTypedResultCollector n types)).Done = true ↔
      0 ≤ n ∧ n ≤ (msgs.countP (fun m => types.contains m.GetMessageType) : Int)) ∧
    (∀ err, (msgs.foldl ResultCollector.Push (NewTypedResultCollector n types)).Error err = none ↔
      n < 0 ∧ ∃ i, err = Error.MissError i) ∧
    (∀ err, (msgs.foldl ResultCollector.Push (NewTypedResultCollector n types)).Error err = none ∨
      (msgs.foldl ResultCollector.Push (NewTypedResultCollector n types)).Error err =
        some err) := by
  rw [NewTypedResultCollector, foldl_Push_typed]
  refine ⟨by simp [ResultCollector.Result], ?_, ?_, ?_⟩
  · simp only [ResultCollector.Done, Int.zero_add, List.nil_append]
    by_cases hn : n < 0
    · rw [if_pos hn]
      constructor
      · intro h
        cases h
      · rintro ⟨h, -⟩
        omega
    · rw [if_neg hn, decide_eq_true_iff]
      constructor
      · intro h
        exact ⟨by omega, h⟩
      · rintro ⟨-, h⟩
        exact h
  · intro err
    simp only [ResultCollector.Error]
    by_cases hn : n < 0
    · rw [if_pos hn]
      cases err <;> simp [hn]
    · rw [if_neg hn]
      simp [hn]
  · intro err
    simp only [ResultCollector.Error]
    by_cases hn : n < 0
    · rw [if_pos hn]
      cases err <;> simp
    · rw [if_neg hn]
      exact Or.inr rfl

/-! ## C20: the stored ids across `Merge` -/

/-- C20.  `Merge` creates records only for the batch and never destroys or re-keys
one.  After `Merge` returns success an id is stored exactly when it was stored
before or is the id of a message of the batch, and the supersedes pass and the
delete-history pass each keep the set of stored ids.  The raw write leaves at every
id the last message of the batch with that id, or else the record stored before.
From there on every record stays under its id and is mutated in place: through each
of the two passes, and so through the whole of `Merge`, the record found at an id is
the one that was there, with the same client header and message id, its body kept
or emptied.  Every record that the delete-history pass writes back is the cleared
form of a record it read, under the id of that record. -/
theorem merge_stored_ids (g : Context) (w w' : World) (batch : List MessageUnboxed)
    (res : MergeResult) (hmerge : Merge (New g) w batch = some (w', res, none)) :
    (∀ i, (lookup w'.blocks i).isSome = true ↔
      (lookup w.blocks i).isSome = true ∨ ∃ m ∈ batch, m.GetMessageID = i) ∧
    (∀ i, (lookup (updateAllSupersededBy (New g) batch (stageWrite g w batch)).1.blocks i).isSome =
      (lookup (stageWrite g w batch).blocks i).isSome) ∧
    (∀ i, (lookup (handleDeleteHistory (New g) (stageMin g w batch) batch).1.blocks i).isSome =
      (lookup (stageMin g w batch).blocks i).isSome) ∧
    (∀ i, lookup ((New g).engine.WriteMessages w batch).1.blocks i =
      (lookup batch.reverse i).or (lookup w.blocks i)) ∧
    (∀ i m, lookup ((New g).engine.WriteMessages w batch).1.blocks i = some m →
      ∃ m1, lookup w'.blocks i = some m1 ∧ mutatedInPlace m m1 = true ∧ m1.GetMessageID = i) ∧
    (∀ i m, lookup (stageWrite g w batch).blocks i = some m →
      ∃ m1, lookup (updateAllSupersededBy (New g) batch (stageWrite g w batch)).1.blocks i =
          some m1 ∧ mutatedInPlace m m1 = true) ∧
    (∀ i m, lookup (stageMin g w batch).blocks i = some m →
      ∃ m1, lookup (handleDeleteHistory (New g) (stageMin g w batch) batch).1.blocks i =
          some m1 ∧ mutatedInPlace m m1 = true) ∧
    (∀ (source : MessageUnboxedValid) (l : List MessageUnboxed),
      ∀ x ∈ deleteHistoryWriteback (New g) source l,
        ∃ m ∈ l, x = clearByDeleteHistory g source m ∧ x.GetMessageID = m.GetMessageID ∧
          mutatedInPlace m x = true) := by
  obtain ⟨rfl, -⟩ := Merge_New_success hmerge
  refine ⟨?_, fun i => lookup_stageSupersede_isSome g w batch i,
    fun i => lookup_handleDeleteHistory_isSome g _ batch i,
    fun i => lookup_stageWrite g w batch i, ?_,
    fun i m h => lookup_stageSupersede_mutated g w batch i m h,
    fun i m h => lookup_handleDeleteHistory_mutated g _ batch i m h, ?_⟩
  · intro i
    rw [mergedWorld_blocks, stageDelh, lookup_handleDeleteHistory_isSome, stageMin_blocks,
      lookup_stageSupersede_isSome]
    exact lookup_stageWrite_isSome g w batch i
  · intro i m h
    obtain ⟨m1, h1, hm1⟩ := lookup_stageSupersede_mutated g w batch i m h
    rw [← stageMin_blocks] at h1
    obtain ⟨m2, h2, hm2⟩ := lookup_handleDeleteHistory_mutated g _ batch i m1 h1
    refine ⟨m2, ?_, mutatedInPlace_trans hm1 hm2, ?_⟩
    · rw [mergedWorld_blocks]
      exact h2
    · exact lookup_id h2
  · intro source l x hx
    obtain ⟨m, hm, -, rfl⟩ := (deleteHistoryWriteback_mem g source l x).1 hx
    exact ⟨m, hm, rfl, clearByDeleteHistory_id g source m,
      mutatedInPlace_clearByDeleteHistory g source m⟩

/-- C20, witnessed on the store holding text message 2 and the batch made of the
`DELETE` 4 that supersedes it: the ids 2 and 4 are stored afterwards, id 3 is
not, and the record at id 2 is the text message with its body emptied. -/
theorem merge_stored_ids_witness :
    ((lookup [clearedMsg .TEXT 2 4, validMsg .DELETE 4 [2]] 4).isSome = true ↔
      (lookup (worldOf [validMsg .TEXT 2 [7]]).blocks 4).isSome = true ∨
        ∃ m ∈ [validMsg .DELETE 4 [2]], m.GetMessageID = 4) ∧
    (lookup [clearedMsg .TEXT 2 4, validMsg .DELETE 4 [2]] 3).isSome = false ∧
    (∃ m1, lookup [clearedMsg .TEXT 2 4, validMsg .DELETE 4 [2]] 2 = some m1 ∧
      mutatedInPlace (validMsg .TEXT 2 [7]) m1 = true ∧ m1.GetMessageID = 2) ∧
    lookup [clearedMsg .TEXT 2 4, validMsg .DELETE 4 [2]] 2 = some (clearedMsg .TEXT 2 4) :=
  ⟨(merge_stored_ids exampleContext (worldOf [validMsg .TEXT 2 [7]])
      { blocks := [clearedMsg .TEXT 2 4, validMsg .DELETE 4 [2]], blockIndex := true,
        delh := none, maxMsgID := some 4 }
      [validMsg .DELETE 4 [2]] { DeletedHistory := false } rfl).1 4, rfl,
    (merge_stored_ids exampleContext (worldOf [validMsg .TEXT 2 [7]])
      { blocks := [clearedMsg .TEXT 2 4, validMsg .DELETE 4 [2]], blockIndex := true,
        delh := none, maxMsgID := some 4 }
      [validMsg .DELETE 4 [2]] { DeletedHistory := false } rfl).2.2.2.2.1 2
      (validMsg .TEXT 2 [7]) rfl, rfl⟩

/-! ## C21: the directive selected by the delete-history pass -/

/-- C21.  For every batch, the directive selected by the first loop of
`handleDeleteHistory` is a valid message of the batch of type `DELETEHISTORY` whose
body type is `DELETEHISTORY` and whose `Upto` is positive; every such message
before it in the batch has a strictly smaller `Upto` and every such message after
it an `Upto` that is not larger, so it has the maximal `Upto` and is the first of
those that have it.  Nothing is selected exactly when the batch has no such
message, and then the pass returns `false` without error and leaves the state as
it was, whatever the engine and the trackers are. -/
theorem handleDeleteHistory_selection (s : Storage) (w : World) (batch : List MessageUnboxed) :
    (delhActive batch none = none ↔ ∀ m ∈ batch, isDeleteHistory m = false) ∧
    (delhActive batch none = none → handleDeleteHistory s w batch = (w, false, none)) ∧
    ∀ act, delhActive batch none = some act →
      act.delh = act.source.MessageBody.Deletehistory ∧
      isDeleteHistory (.Valid act.source) = true ∧
      ∃ pre post, batch = pre ++ .Valid act.source :: post ∧
        (∀ m ∈ pre, isDeleteHistory m = true → uptoOf m < act.delh.Upto) ∧
        (∀ m ∈ post, isDeleteHistory m = true → uptoOf m ≤ act.delh.Upto) := by
  obtain ⟨h1, h2⟩ := delhActive_spec batch none
  refine ⟨?_, ?_, ?_⟩
  · rw [h1]
    exact ⟨fun h => h.2, fun h => ⟨rfl, h⟩⟩
  · intro h
    unfold handleDeleteHistory
    rw [h]
  · intro act h
    rcases h2 act h with ⟨hc, -⟩ | ⟨ha, hb, -, hsplit⟩
    · cases hc
    · exact ⟨ha, hb, hsplit⟩

/-- C21, witnessed on a batch of five: the directive 9 with horizon 3, a text
message, the directives 7 and 6 that both carry the horizon 5, and a directive
that failed to unbox.  The one selected is 7, the first with the largest horizon;
on a batch without directive the pass does nothing. -/
theorem handleDeleteHistory_selection_witness :
    delhActive [delhMsg 9 3, validMsg .TEXT 8 [8], delhMsg 7 5, delhMsg 6 5,
        errorMsg .DELETEHISTORY 4] none =
      some { source := delhValid 7 5, delh := { Upto := 5 } } ∧
    (∃ pre post,
      [delhMsg 9 3, validMsg .TEXT 8 [8], delhMsg 7 5, delhMsg 6 5,
          errorMsg .DELETEHISTORY 4] = pre ++ .Valid (delhValid 7 5) :: post ∧
        (∀ m ∈ pre, isDeleteHistory m = true → uptoOf m < 5) ∧
        (∀ m ∈ post, isDeleteHistory m = true → uptoOf m ≤ 5)) ∧
    handleDeleteHistory (New exampleContext) (worldOf (textStore 3)) [validMsg .TEXT 8 [8]] =
      (worldOf (textStore 3), false, none) :=
  ⟨rfl,
    ((handleDeleteHistory_selection (New exampleContext) emptyWorld
      [delhMsg 9 3, validMsg .TEXT 8 [8], delhMsg 7 5, delhMsg 6 5,
        errorMsg .DELETEHISTORY 4]).2.2 _ rfl).2.2,
    (handleDeleteHistory_selection (New exampleContext) (worldOf (textStore 3))
      [validMsg .TEXT 8 [8]]).2.1 rfl⟩

/-! ## C22: the flag of the delete-history pass -/

/-- C22 (the code at the failing inputs).  Two runs in which the pass returns `true`
and `Merge` reports `DeletedHistory = true` although no stored message lost its
body.  In the first the delete-history 5 with horizon 100 is merged into the empty
store: the pass runs over a store that holds that message alone.  In the second
the store holds the messages 1 and 2, already deleted by the delete-history 3 with
horizon 3, and the delete-history 4 with horizon 4 is merged: the scan finds the
directive 3, which is not of a deletable type, and the two records without body,
and the writeback list is empty.  In both the
records the pass leaves are those it found. -/
theorem deletedHistory_without_deletes :
    (handleDeleteHistory (New exampleContext) (stageMin exampleContext emptyWorld [delhMsg 5 100])
        [delhMsg 5 100]).2 = (true, none) ∧
    (stageDelh exampleContext emptyWorld [delhMsg 5 100]).blocks =
      (stageMin exampleContext emptyWorld [delhMsg 5 100]).blocks ∧
    (∀ i, bodyCleared (stageMin exampleContext emptyWorld [delhMsg 5 100])
      (stageDelh exampleContext emptyWorld [delhMsg 5 100]) i = false) ∧
    Merge (New exampleContext) emptyWorld [delhMsg 5 100] =
      some ({ blocks := [delhMsg 5 100], blockIndex := false,
              delh := some { MinDeletableMessage := 0, MaxDeleteHistoryUpto := 100,
                             DeletedUpto := 100 },
              maxMsgID := some 5 }, { DeletedHistory := true }, none) ∧
    MergeAll (New exampleContext) emptyWorld
      [[validMsg .TEXT 2 [2], validMsg .TEXT 1 [1]], [delhMsg 3 3]] = some deletedStore ∧
    (handleDeleteHistory (New exampleContext) (stageMin exampleContext deletedStore [delhMsg 4 4])
        [delhMsg 4 4]).2 = (true, none) ∧
    (stageDelh exampleContext deletedStore [delhMsg 4 4]).blocks =
      (stageMin exampleContext deletedStore [delhMsg 4 4]).blocks ∧
    (∀ i, bodyCleared (stageMin exampleContext deletedStore [delhMsg 4 4])
      (stageDelh exampleContext deletedStore [delhMsg 4 4]) i = false) ∧
    Merge (New exampleContext) deletedStore [delhMsg 4 4] =
      some ({ blocks := [delhMsg 4 4, clearedMsg .TEXT 1 3, clearedMsg .TEXT 2 3,
                delhMsg 3 3],
              blockIndex := false,
              delh := some { MinDeletableMessage := 1, MaxDeleteHistoryUpto := 4,
                             DeletedUpto := 4 },
              maxMsgID := some 4 }, { DeletedHistory := true }, none) :=
  ⟨rfl, rfl, bodyCleared_same _ _ rfl, rfl, rfl, rfl, rfl, bodyCleared_same _ _ rfl, rfl⟩

/-! ## C23: the horizons of the delete-history tracker across `Merge` -/

/-- C23 (as stated, refuted).  On the tracker whose setters are plain assignments,
`Merge` of the delete-history 20 with horizon 10 into the empty store sets
`DeletedUpto` to 10 and leaves `MaxDeleteHistoryUpto` at 0; `Merge` of the
delete-history 21 with horizon 5 into that state passes the test against
`MaxDeleteHistoryUpto` and sets `DeletedUpto` to 5: the horizon moved backwards.
The same second `Merge` on the tracker of `New`, from that state, also ends with
`DeletedUpto = 5`. -/
theorem C23_counterexample :
    Merge (plainStorage exampleContext) emptyWorld [delhMsg 20 10] =
      some ({ blocks := [delhMsg 20 10], blockIndex := false,
              delh := some { MinDeletableMessage := 0, MaxDeleteHistoryUpto := 0,
                             DeletedUpto := 10 },
              maxMsgID := some 20 }, { DeletedHistory := true }, none) ∧
    Merge (plainStorage exampleContext)
        { blocks := [delhMsg 20 10], blockIndex := false,
          delh := some { MinDeletableMessage := 0, MaxDeleteHistoryUpto := 0, DeletedUpto := 10 },
          maxMsgID := some 20 } [delhMsg 21 5] =
      some ({ blocks := [delhMsg 21 5, delhMsg 20 10], blockIndex := false,
              delh := some { MinDeletableMessage := 0, MaxDeleteHistoryUpto := 0,
                             DeletedUpto := 5 },
              maxMsgID := some 21 }, { DeletedHistory := true }, none) ∧
    Merge (New exampleContext)
        { blocks := [delhMsg 20 10], blockIndex := false,
          delh := some { MinDeletableMessage := 0, MaxDeleteHistoryUpto := 0, DeletedUpto := 10 },
          maxMsgID := some 20 } [delhMsg 21 5] =
      some ({ blocks := [delhMsg 21 5, delhMsg 20 10], blockIndex := false,
              delh := some { MinDeletableMessage := 0, MaxDeleteHistoryUpto := 5,
                             DeletedUpto := 5 },
              maxMsgID := some 21 }, { DeletedHistory := true }, none) ∧
    ¬ (deletedUptoOf
          { blocks := [delhMsg 20 10], blockIndex := false,
            delh := some { MinDeletableMessage := 0, MaxDeleteHistoryUpto := 0,
                           DeletedUpto := 10 },
            maxMsgID := some 20 } ≤
        deletedUptoOf
          { blocks := [delhMsg 21 5, delhMsg 20 10], blockIndex := false,
            delh := some { MinDeletableMessage := 0, MaxDeleteHistoryUpto := 0,
                           DeletedUpto := 5 },
            maxMsgID := some 21 }) :=
  ⟨rfl, rfl, rfl, by decide⟩

/-- C23 (amended).  On the tracker of `New` and on the tracker whose setters are
plain assignments alike, after `Merge` returns success `MaxDeleteHistoryUpto` is at
least its value before the call, for every state and every batch; and `DeletedUpto`
is at least its value before the call for every state that satisfies I3
(`DeletedUpto ≤ MaxDeleteHistoryUpto`); a missing tracker entry counts as 0. -/
theorem merge_horizons_monotone (g : Context) (s : Storage)
    (hs : s = New g ∨ s = plainStorage g) (w w' : World) (batch : List MessageUnboxed)
    (res : MergeResult) (hmerge : Merge s w batch = some (w', res, none)) :
    maxDeleteHistoryUptoOf w ≤ maxDeleteHistoryUptoOf w' ∧
    (invariantI3 w → deletedUptoOf w ≤ deletedUptoOf w') := by
  have hdelh : w'.delh = (handleDeleteHistory s (stageMin g w batch) batch).1.delh := by
    rcases hs with rfl | rfl
    · obtain ⟨rfl, -⟩ := Merge_New_success hmerge
      rw [mergedWorld_delh]
      rfl
    · exact Merge_plain_delh hmerge
  obtain ⟨hmax, hdel⟩ := stageMin_horizons g w batch
  obtain ⟨h1, h2⟩ := handleDeleteHistory_horizons g s hs (stageMin g w batch) batch
  rw [hmax] at h1
  rw [hmax, hdel] at h2
  have e1 : maxDeleteHistoryUptoOf w' =
      maxDeleteHistoryUptoOf (handleDeleteHistory s (stageMin g w batch) batch).1 := by
    unfold maxDeleteHistoryUptoOf
    rw [hdelh]
  have e2 : deletedUptoOf w' =
      deletedUptoOf (handleDeleteHistory s (stageMin g w batch) batch).1 := by
    unfold deletedUptoOf
    rw [hdelh]
  rw [e1, e2]
  exact ⟨h1, fun hI3 => h2 ((invariantI3_iff w).1 hI3)⟩

/-- C23 (amended), witnessed on the tracker with plain assignments: the store holds
the text messages 1 to 3 and the entry left by their merge, which satisfies I3, and
the delete-history 10 with horizon 3 is merged.  `DeletedUpto` goes from 0 to 3
and `MaxDeleteHistoryUpto` stays 0. -/
theorem merge_horizons_monotone_witness :
    Merge (plainStorage exampleContext) textsMerged [delhMsg 10 3] =
      some (textsDeleted, { DeletedHistory := true }, none) ∧
    invariantI3 textsMerged ∧
    maxDeleteHistoryUptoOf textsMerged ≤ maxDeleteHistoryUptoOf textsDeleted ∧
    deletedUptoOf textsMerged ≤ deletedUptoOf textsDeleted :=
  ⟨rfl, by intro e he; cases he; decide,
    (merge_horizons_monotone exampleContext (plainStorage exampleContext) (Or.inr rfl)
      textsMerged textsDeleted [delhMsg 10 3] { DeletedHistory := true } rfl).1,
    (merge_horizons_monotone exampleContext (plainStorage exampleContext) (Or.inr rfl)
      textsMerged textsDeleted [delhMsg 10 3] { DeletedHistory := true } rfl).2
      (by intro e he; cases he; decide)⟩

end ChatStorage

/-! ### The order of Go strings -/

namespace Teams

theorem stringLess_irrefl (a : GoString) : stringLess a a = false := by
  induction a with
  | nil => rfl
  | cons x xs ih => simp [stringLess, ih]

theorem stringLess_trans (a b c : GoString) (hab : stringLess a b = true)
    (hbc : stringLess b c = true) : stringLess a c = true := by
  induction a generalizing b c with
  | nil =>
    cases c with
    | nil => cases b <;> simp [stringLess] at hbc
    | cons z zs => rfl
  | cons x xs ih =>
    cases b with
    | nil => simp [stringLess] at hab
    | cons y ys =>
      cases c with
      | nil => simp [stringLess] at hbc
      | cons z zs =>
        simp only [stringLess] at hab hbc ⊢
        split_ifs at hab hbc ⊢ <;> first | rfl | omega | exact ih ys zs hab hbc

theorem stringLess_negtrans (a b c : GoString) (hab : stringLess a b = false)
    (hbc : stringLess b c = false) : stringLess a c = false := by
  induction a generalizing b c with
  | nil =>
    cases c with
    | nil => rfl
    | cons z zs =>
      cases b with
      | nil => simp [stringLess] at hbc
      | cons y ys => simp [stringLess] at hab
  | cons x xs ih =>
    cases c with
    | nil => rfl
    | cons z zs =>
      cases b with
      | nil => simp [stringLess] at hbc
      | cons y ys =>
        simp only [stringLess] at hab hbc ⊢
        split_ifs at hab hbc ⊢ <;> first | rfl | omega | exact ih ys zs hab hbc

/-- Two strings of which neither is less than the other are equal. -/
theorem stringLess_antisymm (a b : GoString) (hab : stringLess a b = false)
    (hba : stringLess b a = false) : a = b := by
  induction a generalizing b with
  | nil =>
    cases b with
    | nil => rfl
    | cons y ys => simp [stringLess] at hab
  | cons x xs ih =>
    cases b with
    | nil => simp [stringLess] at hba
    | cons y ys =>
      simp only [stringLess] at hab hba
      split_ifs at hab hba
      have hxy : x = y := by omega
      rw [hxy, ih ys hab hba]

theorem strictWeakOrder_key {α : Type} (key : α → GoString) :
    strictWeakOrder (fun a b => stringLess (key a) (key b)) :=
  ⟨fun a => stringLess_irrefl (key a),
    fun a b c => stringLess_trans (key a) (key b) (key c),
    fun a b c => stringLess_negtrans (key a) (key b) (key c)⟩

/-- Under a strict weak order, of two elements one is not less than the other. -/
theorem strictWeakOrder_total {α : Type} {less : α → α → Bool} (h : strictWeakOrder less) :
    IsTotal α (fun a b => less b a = false) := by
  obtain ⟨hirr, htr, -⟩ := h
  refine ⟨fun a b => ?_⟩
  cases hba : less b a with
  | false => exact Or.inl rfl
  | true =>
    right
    cases hab : less a b with
    | false => rfl
    | true =>
      have := htr a b a hab hba
      rw [hirr] at this
      cases this

theorem strictWeakOrder_trans {α : Type} {less : α → α → Bool} (h : strictWeakOrder less) :
    IsTrans α (fun a b => less b a = false) :=
  ⟨fun a b c hab hbc => h.2.2 c b a hbc hab⟩

/-- The insertion sort of the worked examples keeps the contract of `sort.Slice`. -/
theorem exampleEnv_sortsSlices : sortsSlices exampleEnv := by
  intro α xs less hless
  have htotal := strictWeakOrder_total hless
  have htrans := strictWeakOrder_trans hless
  exact ⟨List.perm_insertionSort _ xs, List.sorted_insertionSort _ xs⟩

theorem ascending_perm (xs : List GoString) : (ascending xs).Perm xs :=
  List.perm_insertionSort _ xs

theorem ascending_sorted (xs : List GoString) :
    (ascending xs).Pairwise (fun a b => stringLess b a = false) := by
  have htotal : IsTotal GoString (fun a b => stringLess b a = false) :=
    strictWeakOrder_total (strictWeakOrder_key id)
  have htrans : IsTrans GoString (fun a b => stringLess b a = false) :=
    strictWeakOrder_trans (strictWeakOrder_key id)
  exact List.sorted_insertionSort _ xs

/-- A list of strings has one ascending rearrangement. -/
theorem ascending_unique (xs ys : List GoString) (hp : ys.Perm xs)
    (hs : ys.Pairwise (fun a b => stringLess b a = false)) : ys = ascending xs := by
  have hanti : IsAntisymm GoString (fun a b => stringLess b a = false) :=
    ⟨fun a b hab hba => stringLess_antisymm a b hba hab⟩
  exact List.eq_of_perm_of_sorted (hp.trans (ascending_perm xs).symm) hs (ascending_sorted xs)

theorem ascending_congr (xs ys : List GoString) (hp : ys.Perm xs) :
    ascending ys = ascending xs :=
  ascending_unique xs (ascending ys) ((ascending_perm ys).trans hp) (ascending_sorted ys)

/-- What `FormatImplicitTeamName` joins, for any `sort.Slice` that keeps its
contract. -/
theorem FormatImplicitTeamName_eq (c : Env) (hsort : sortsSlices c) (n : ImplicitTeamName) :
    FormatImplicitTeamName c n =
      stringsJoin (ascending n.KeybaseUsers ++ ascending (n.UnresolvedUsers.map c.String)) [44] := by
  obtain ⟨hp1, hs1⟩ := hsort GoString n.KeybaseUsers (fun a b => stringLess a b)
    (strictWeakOrder_key id)
  obtain ⟨hp2, hs2⟩ := hsort SocialAssertion n.UnresolvedUsers
    (fun a b => stringLess (c.String a) (c.String b)) (strictWeakOrder_key c.String)
  have e1 := ascending_unique n.KeybaseUsers _ hp1 hs1
  have e2 := ascending_unique (n.UnresolvedUsers.map c.String) _ (hp2.map c.String)
    (List.pairwise_map.2 hs2)
  unfold FormatImplicitTeamName
  simp only []
  rw [e1, e2]

end Teams

/-! ## C24: the formatted name of an implicit team -/

namespace Teams

/-- C24.  Whenever `sort.Slice` keeps its contract, `FormatImplicitTeamName`
returns the same string for an implicit team name and for every other one whose
`KeybaseUsers` and `UnresolvedUsers` are rearrangements of its own: the
`KeybaseUsers` in ascending order followed by the string forms of the
`UnresolvedUsers` in ascending order, joined by commas; and the empty string when
both lists are empty. -/
theorem FormatImplicitTeamName_order_free (c : Env) (hsort : sortsSlices c)
    (n n' : ImplicitTeamName) (hk : n'.KeybaseUsers.Perm n.KeybaseUsers)
    (hu : n'.UnresolvedUsers.Perm n.UnresolvedUsers) :
    FormatImplicitTeamName c n' = FormatImplicitTeamName c n ∧
    FormatImplicitTeamName c n =
      stringsJoin (ascending n.KeybaseUsers ++ ascending (n.UnresolvedUsers.map c.String)) [44] ∧
    (n.KeybaseUsers = [] → n.UnresolvedUsers = [] → FormatImplicitTeamName c n = []) := by
  refine ⟨?_, FormatImplicitTeamName_eq c hsort n, ?_⟩
  · rw [FormatImplicitTeamName_eq c hsort n, FormatImplicitTeamName_eq c hsort n',
      ascending_congr _ _ hk, ascending_congr _ _ (hu.map c.String)]
  · intro h1 h2
    rw [FormatImplicitTeamName_eq c hsort n, h1, h2]
    rfl

/-- C24, witnessed with `sort.Slice` as an insertion sort on the team of `bob`,
`alice`, `zed@twitter` and `carol@github`, listed in two orders. -/
theorem FormatImplicitTeamName_order_free_witness :
    FormatImplicitTeamName exampleEnv
        { IsPrivate := true
          KeybaseUsers := [bytes "alice", bytes "bob"]
          UnresolvedUsers := [{ User := bytes "carol", Service := bytes "github" },
            { User := bytes "zed", Service := bytes "twitter" }] } =
      FormatImplicitTeamName exampleEnv
        { IsPrivate := true
          KeybaseUsers := [bytes "bob", bytes "alice"]
          UnresolvedUsers := [{ User := bytes "zed", Service := bytes "twitter" },
            { User := bytes "carol", Service := bytes "github" }] } ∧
    FormatImplicitTeamName exampleEnv
        { IsPrivate := true
          KeybaseUsers := [bytes "bob", bytes "alice"]
          UnresolvedUsers := [{ User := bytes "zed", Service := bytes "twitter" },
            { User := bytes "carol", Service := bytes "github" }] } =
      bytes "alice,bob,carol@github,zed@twitter" :=
  ⟨(FormatImplicitTeamName_order_free exampleEnv exampleEnv_sortsSlices
      { IsPrivate := true
        KeybaseUsers := [bytes "bob", bytes "alice"]
        UnresolvedUsers := [{ User := bytes "zed", Service := bytes "twitter" },
          { User := bytes "carol", Service := bytes "github" }] }
      { IsPrivate := true
        KeybaseUsers := [bytes "alice", bytes "bob"]
        UnresolvedUsers := [{ User := bytes "carol", Service := bytes "github" },
          { User := bytes "zed", Service := bytes "twitter" }] }
      (List.Perm.swap _ _ _) (List.Perm.swap _ _ _)).1, rfl⟩

end Teams
